import Mathlib

/-!
# Huffman encoder/decoder (`src/huffman.cpp`)

A shallow embedding of the codec core of `huffman.cpp`: the byte/bit-string
helpers, `Node`, `Tree`, `makeTree`, `encode`, `decodeTree`, `decodeBytes`,
`decode`, followed by theorems about them.

Modelling conventions.

* A `std::string` is a list of characters; a character is its unsigned value
  `0..255` (`CChar`). Bit strings are `std::string`s over `'0'` (48) and `'1'` (49),
  exactly as in the source.
* `s[i]` is defined for `i < s.size()`, yields `'\0'` for `i == s.size()`, and is
  undefined behaviour beyond that (`strAt`).
* Undefined behaviour and the thrown `invalid_argument` are explicit results
  (`Fault`); a loop whose termination depends on the data takes a fuel argument
  and answers `none` when the fuel runs out.
* `Node*` aliasing: the leaves are the only nodes reachable through two paths
  (`Tree::freqs` and the tree itself). A leaf carries `addr`, the identity of its
  heap object, which is the index at which its pointer is pushed onto
  `Tree::freqs`; writes through a pointer (`frequency++`, `code = c`) are
  propagated to the aliases with the same `addr`.
* `int`/`long` counters are natural numbers (inputs are far below `2^31`
  characters); `unsigned char` conversions are explicit `% 256`.
* `printedName` (console output only) and the file-system plumbing are left out:
  a file is the list of its bytes.
* `std::sort` in `Tree::Huffman` is a library call, known by its contract only: it
  leaves a permutation of the vector that is ordered by `compareNodes`; where it
  puts elements of equal frequency is up to the library. `StdSort` is any
  function with that contract, `Tree::Huffman` and `makeTree` take it as an
  argument, and the properties are proved for every such function.
-/

namespace Huffman

/-- A `char` of a `std::string`, as its unsigned value. -/
abbrev CChar := Fin 256

/-- A `std::string`. -/
abbrev Str := List CChar

/-- The character `'0'`. -/
abbrev chr0 : CChar := 48

/-- The character `'1'`. -/
abbrev chr1 : CChar := 49

/-- The string `"EOF"`. -/
abbrev EOF : Str := [69, 79, 70]

/-- The string `"11111111"`. -/
abbrev allOnes : Str := [49, 49, 49, 49, 49, 49, 49, 49]

/-- What a C++ operation can end in besides a value. -/
inductive Fault where
  | invalid_argument
  | undefined
deriving DecidableEq, Repr

deriving instance DecidableEq for Except

/-- Read `s[i]` of a `std::string`: the terminating `'\0'` at `i == size()`,
undefined behaviour past it. -/
def strAt (s : Str) (i : Nat) : Except Fault CChar :=
  match s.get? i with
  | some c => .ok c
  | none => if i = s.length then .ok 0 else .error .undefined

/-- Loop of `byteToChar`: `bit = byte[i] - '0'; c = c << 1 | bit` on `unsigned char`. -/
def byteToChar (byte : Str) : CChar :=
  byte.foldl (fun c ch => Fin.ofNat ((c.val * 2) ||| ((ch.val + 256 - 48) % 256))) 0

/-- First loop of `charToByte`: `while (cnum > 0) { byte = to_string(cnum%2) + byte; cnum /= 2; }`. -/
def charToByteDigits : Nat → Nat → Str → Str
  | 0, _, byte => byte
  | fuel + 1, cnum, byte =>
    if cnum > 0 then charToByteDigits fuel (cnum / 2) (Fin.ofNat (48 + cnum % 2) :: byte)
    else byte

/-- Second loop of `charToByte`: `while (byte.size() < 8) byte = '0' + byte;`. -/
def charToBytePad : Nat → Str → Str
  | 0, byte => byte
  | fuel + 1, byte => if byte.length < 8 then charToBytePad fuel (chr0 :: byte) else byte

/-- The 8 bits of `c` as a string (`charToByte`). -/
def charToByte (c : CChar) : Str :=
  charToBytePad 8 (charToByteDigits c.val c.val [])

/-- A `Node`: `isLeaf` is the constructor; a leaf has no children. -/
inductive Node where
  | leaf (addr : Nat) (name : Str) (code : Str) (frequency : Nat) : Node
  | internal (name : Str) (code : Str) (frequency : Nat) (left right : Node) : Node
deriving DecidableEq, Repr

namespace Node

def name : Node → Str
  | leaf _ n _ _ => n
  | internal n _ _ _ _ => n

def code : Node → Str
  | leaf _ _ c _ => c
  | internal _ c _ _ _ => c

def frequency : Node → Nat
  | leaf _ _ _ f => f
  | internal _ _ f _ _ => f

def isLeaf : Node → Bool
  | leaf _ _ _ _ => true
  | internal _ _ _ _ _ => false

/-- Identity of a leaf object (`none` for internal nodes, which are never aliased). -/
def addr : Node → Option Nat
  | leaf a _ _ _ => some a
  | internal _ _ _ _ _ => none

/-- `Node::Node(string n)`, allocated as the leaf object `addr`. -/
def ofName (addr : Nat) (n : Str) : Node := leaf addr n [] 0

/-- `Node::Node(Node* l, Node* r)`. -/
def ofChildren (l r : Node) : Node :=
  internal (l.name ++ [32] ++ r.name) [] (l.frequency + r.frequency) l r

/-- `n->frequency++`. -/
def incr : Node → Node
  | leaf a n c f => leaf a n c (f + 1)
  | internal n c f l r => internal n c (f + 1) l r

/-- `Node::postOrder(string c, vector<Node*> list)`: sets the codes in the
subtree and appends its nodes to `list`; returns the updated node with the list. -/
def postOrder (c : Str) : Node → List Node → Node × List Node
  | leaf a n _ f, list => (leaf a n c f, list ++ [leaf a n c f])
  | internal n _ f l r, list =>
    let pl := postOrder (c ++ [chr0]) l list
    let pr := postOrder (c ++ [chr1]) r pl.2
    (internal n c f pl.1 pr.1, pr.2 ++ [internal n c f pl.1 pr.1])

end Node

/-- `compareNodes`. -/
def compareNodes (i j : Node) : Bool := decide (i.frequency < j.frequency)

/-- What `std::sort(first, last, compareNodes)` does to a vector of `Node*`, as far
as the C++ standard fixes it: `run` leaves a permutation of the vector in which
no element is smaller, by `compareNodes`, than an element before it. The order
among nodes of equal frequency is left to the library. -/
structure StdSort where
  run : List Node → List Node
  perm : ∀ l, (run l).Perm l
  sorted : ∀ l, (run l).Pairwise (fun a b => compareNodes b a = false)

/-- A `Tree`; `root` is `none` while the pointer is uninitialised. -/
structure Tree where
  freqs : List Node
  huffList : List Node
  root : Option Node
deriving DecidableEq, Repr

namespace Tree

/-- A default-constructed `Tree`. -/
def empty : Tree := { freqs := [], huffList := [], root := none }

/-- `Tree::contains`: the leaf named `name`, added at the end when absent. -/
def contains (t : Tree) (name : Str) : Node × Tree :=
  match t.freqs.find? (fun n => decide (n.name = name)) with
  | some n => (n, t)
  | none =>
    let ret := Node.ofName t.freqs.length name
    (ret, { t with freqs := t.freqs ++ [ret], huffList := t.huffList ++ [ret] })

/-- `Tree::containsCode`. -/
def containsCode (t : Tree) (code : Str) : Str :=
  match t.freqs.find? (fun n => decide (n.code = code)) with
  | some n => n.name
  | none => []

/-- `Tree::addChar`: the increment goes to the object `n` points to, seen through
both `freqs` and `huffList`. -/
def addChar (t : Tree) (name : Str) : Tree :=
  let r := t.contains name
  let bump := fun (m : Node) => if m.addr = r.1.addr then m.incr else m
  { r.2 with freqs := r.2.freqs.map bump, huffList := r.2.huffList.map bump }

/-- `Tree::insertByFreq` on the vector `huffList`. -/
def insertByFreq (n : Node) : List Node → List Node
  | [] => [n]
  | x :: xs => if n.frequency > x.frequency then x :: insertByFreq n xs else n :: x :: xs

/-- The merge loop of `Tree::Huffman`; every pass shortens `huffList` by one, so
`fuel = huffList.size()` passes are never exceeded. -/
def huffmanLoop : Nat → List Node → List Node
  | 0, l => l
  | fuel + 1, l =>
    match l with
    | a :: b :: _ => huffmanLoop fuel ((insertByFreq (Node.ofChildren a b) l).drop 2)
    | _ => l

/-- The codes written by a traversal, seen through the leaf pointer `m`. -/
def writeBack (list : List Node) (m : Node) : Node :=
  match list.find? (fun n => n.isLeaf && decide (n.addr = m.addr)) with
  | some n => n
  | none => m

/-- `Tree::postOrder()`: `root->postOrder()`, the traversal list and the tree with
the assigned codes. `huffList[0]` is the same pointer as `root` at every call;
its copy is not refreshed, as `huffList` is not read again. -/
def postOrder (t : Tree) : Except Fault (List Node × Tree) :=
  match t.root with
  | none => .error .undefined
  | some r =>
    let p := r.postOrder [] []
    .ok (p.2, { t with freqs := t.freqs.map (writeBack p.2), root := some p.1 })

/-- `Tree::Huffman`, `srt` being the `std::sort` the program is linked with. -/
def Huffman (srt : StdSort) (t : Tree) : Except Fault Tree :=
  let sorted := srt.run t.huffList
  let l := huffmanLoop sorted.length sorted
  match l with
  | [] => .error .undefined
  | r :: _ =>
    match postOrder { t with huffList := l, root := some r } with
    | .ok p => .ok p.2
    | .error e => .error e

/-- The bits `Tree::Encode` emits for one node of the traversal. -/
def encodeNode (n : Node) : Str :=
  if n.isLeaf then
    chr1 :: (if n.name ≠ EOF then charToByte (n.name.headD 0) else allOnes)
  else [chr0]

/-- `Tree::Encode`: the serialized tree, and the tree after its `postOrder()` call. -/
def Encode (t : Tree) : Except Fault (Str × Tree) :=
  match postOrder t with
  | .error e => .error e
  | .ok p =>
    let traversal := p.1
    let numLeaves := (traversal.filter Node.isLeaf).length
    let code := traversal.foldl (fun code n => code ++ encodeNode n) []
    .ok (charToByte (Fin.ofNat numLeaves) ++ code, p.2)

end Tree

/-- `makeTree`, on the bytes of the file, `srt` being the `std::sort` the program
is linked with. -/
def makeTree (srt : StdSort) (file : Str) : Except Fault Tree :=
  let t := file.foldl (fun t c => t.addChar [c]) Tree.empty
  (t.addChar EOF).Huffman srt

/-- Loop of `nextByte`. -/
def nextByteLoop (code : Str) : Nat → Nat → Str → Except Fault Str
  | 0, _, byte => .ok byte
  | k + 1, i, byte =>
    match strAt code i with
    | .ok ch => nextByteLoop code k (i + 1) (byte ++ [ch])
    | .error e => .error e

/-- `nextByte(start, code)`. -/
def nextByte (start : Nat) (code : Str) : Except Fault Str :=
  nextByteLoop code 8 start []

/-- Local state of the loop of `decodeTree`; the stack `s` has its top first. -/
structure DecState where
  i : Nat
  s : List Node
  freqs : List Node
  leavesFound : Nat
deriving DecidableEq, Repr

/-- First `if` of the loop body of `decodeTree`, after the bounds check. -/
def decodeLeaf (encoding : Str) (st : DecState) : Except Fault DecState :=
  match strAt encoding st.i with
  | .error e => .error e
  | .ok c =>
    if c = chr1 then
      match nextByte (st.i + 1) encoding with
      | .error e => .error e
      | .ok byte =>
        let nodeName := if byte = allOnes then EOF else [byteToChar byte]
        let n := Node.ofName st.freqs.length nodeName
        .ok { i := st.i + 1 + 8, s := n :: st.s, freqs := st.freqs ++ [n],
              leavesFound := st.leavesFound + 1 }
    else .ok st

/-- Second `if` of the loop body of `decodeTree` (it is not an `else if`). -/
def decodeInternal (encoding : Str) (st : DecState) : Except Fault DecState :=
  match strAt encoding st.i with
  | .error e => .error e
  | .ok c =>
    if c = chr0 then
      match st.s with
      | n1 :: n2 :: rest => .ok { st with i := st.i + 1, s := Node.ofChildren n2 n1 :: rest }
      | _ => .error .undefined
    else .ok st

/-- One pass of the loop body of `decodeTree`. -/
def decodeTreeBody (encoding : Str) (st : DecState) : Except Fault DecState :=
  if st.i > encoding.length then .error .invalid_argument
  else
    match decodeLeaf encoding st with
    | .error e => .error e
    | .ok st1 => decodeInternal encoding st1

/-- The `while` loop of `decodeTree`; `none` when `fuel` tests of the loop
condition were not enough. -/
def decodeTreeLoop (encoding : Str) (numLeaves : Nat) : Nat → DecState → Option (Except Fault DecState)
  | 0, _ => none
  | fuel + 1, st =>
    if st.leavesFound < numLeaves ∨ st.s.length > 1 then
      match decodeTreeBody encoding st with
      | .ok st1 => decodeTreeLoop encoding numLeaves fuel st1
      | .error e => some (.error e)
    else some (.ok st)

/-- The end of `decodeTree`, after the loop: `s.top()` becomes the root and
`t.root->postOrder()` assigns the codes. -/
def decodeTreeEnd (st : DecState) : Except Fault Tree :=
  match st.s with
  | [] => .error .undefined
  | top :: _ =>
    match Tree.postOrder { freqs := st.freqs, huffList := [top], root := some top } with
    | .ok p => .ok p.2
    | .error e => .error e

/-- The loop of `decodeTree` with what precedes it: the leaf-count byte. -/
def decodeTreeRun (fuel : Nat) (encoding : Str) : Option (Except Fault DecState) :=
  match nextByte 0 encoding with
  | .error e => some (.error e)
  | .ok leafByte =>
    decodeTreeLoop encoding (byteToChar leafByte).val fuel
      { i := 8, s := [], freqs := [], leavesFound := 0 }

/-- `decodeTree`. -/
def decodeTree (fuel : Nat) (encoding : Str) : Option (Except Fault Tree) :=
  match decodeTreeRun fuel encoding with
  | none => none
  | some (.error e) => some (.error e)
  | some (.ok st) => some (decodeTreeEnd st)

/-- The `for` loop of `decodeBytes` over the bits after the encoded tree. -/
def decodeBytesLoop (t : Tree) : Str → Str → Str → Str
  | [], _, decoded => decoded
  | b :: rest, bitCode, decoded =>
    let inTree := t.containsCode (bitCode ++ [b])
    if inTree ≠ [] then
      if inTree = EOF then decoded
      else decodeBytesLoop t rest [] (decoded ++ inTree)
    else decodeBytesLoop t rest (bitCode ++ [b]) decoded

/-- `decodeBytes`. -/
def decodeBytes (fuel : Nat) (bytes : Str) : Option (Except Fault Str) :=
  match decodeTree fuel bytes with
  | none => none
  | some (.error e) => some (.error e)
  | some (.ok t) =>
    match t.Encode with
    | .error e => some (.error e)
    | .ok p => some (.ok (decodeBytesLoop p.2 (bytes.drop p.1.length) [] []))

/-- The padding loop of `encode`: `while (fileBits.size() % 8 != 0) fileBits += '0';`. -/
def padLoop : Nat → Str → Str
  | 0, fileBits => fileBits
  | fuel + 1, fileBits =>
    if fileBits.length % 8 ≠ 0 then padLoop fuel (fileBits ++ [chr0]) else fileBits

/-- The output loop of `encode`: position `i`, the bits not yet visited, the partial
`byte`, and the bytes written with their count. -/
def writeLoop : Nat → Str → Str → Str × Nat → Str × Nat
  | _, [], _, acc => acc
  | i, b :: rest, byte, acc =>
    if i % 8 = 7 then writeLoop (i + 1) rest [] (acc.1 ++ [byteToChar (byte ++ [b])], acc.2 + 1)
    else writeLoop (i + 1) rest (byte ++ [b]) acc

/-- What `encode` produces: the bit string `fileBits`, the bytes written to the
output file, and the returned `encodedSize`. -/
structure Encoded where
  fileBits : Str
  output : Str
  encodedSize : Nat
deriving DecidableEq, Repr

/-- The character loop of `encode`: `n = t.contains(s); fileBits += n->code;`. -/
def encodeChars : Str → Tree → Str → Str × Tree
  | [], t, fileBits => (fileBits, t)
  | c :: rest, t, fileBits =>
    let r := t.contains [c]
    encodeChars rest r.2 (fileBits ++ r.1.code)

/-- `encode`, on the bytes of the input file (which exists). -/
def encode (file : Str) (t : Tree) : Except Fault Encoded :=
  match t.Encode with
  | .error e => .error e
  | .ok p =>
    let r := encodeChars file p.2 p.1
    let n := r.2.contains EOF
    let fileBits := padLoop 8 (r.1 ++ n.1.code)
    let w := writeLoop 0 fileBits [] ([], 0)
    .ok { fileBits := fileBits, output := w.1, encodedSize := w.2 }

/-- `decode`, on the bytes of the compressed file: the decoded text (the
returned size is its length). -/
def decode (fuel : Nat) (file : Str) : Option (Except Fault Str) :=
  decodeBytes fuel (file.flatMap charToByte)

/-! ## Auxiliary definitions used to state and prove the properties -/

/-- One insertion step of a sort by `compareNodes`: `n` goes behind the strictly
smaller elements at the front of the list only. -/
def Tree.sortInsert (n : Node) : List Node → List Node
  | [] => [n]
  | x :: xs => if compareNodes x n then x :: Tree.sortInsert n xs else n :: x :: xs

/-- Sorting by insertion from the back of the list. -/
def Tree.sortByFreq : List Node → List Node
  | [] => []
  | x :: xs => Tree.sortInsert x (Tree.sortByFreq xs)

/-- One `std::sort`: sorting by insertion, which keeps nodes of equal frequency in
the order they had. It serves to run the program on concrete inputs. -/
def insertionSort : StdSort where
  run := Tree.sortByFreq
  perm := by
    have hins : ∀ (n : Node) (l : List Node), (Tree.sortInsert n l).Perm (n :: l) := by
      intro n l
      induction l with
      | nil => exact List.Perm.refl _
      | cons x xs ih =>
        simp only [Tree.sortInsert]
        split
        · exact (List.Perm.cons x ih).trans (List.Perm.swap n x xs)
        · exact List.Perm.refl _
    intro l
    induction l with
    | nil => exact List.Perm.refl _
    | cons x xs ih => exact (hins x _).trans (List.Perm.cons x ih)
  sorted := by
    have hperm : ∀ (n : Node) (l : List Node), (Tree.sortInsert n l).Perm (n :: l) := by
      intro n l
      induction l with
      | nil => exact List.Perm.refl _
      | cons x xs ih =>
        simp only [Tree.sortInsert]
        split
        · exact (List.Perm.cons x ih).trans (List.Perm.swap n x xs)
        · exact List.Perm.refl _
    have hins : ∀ (n : Node) (l : List Node),
        l.Pairwise (fun a b => compareNodes b a = false) →
        (Tree.sortInsert n l).Pairwise (fun a b => compareNodes b a = false) := by
      intro n l
      induction l with
      | nil => intro _; simp [Tree.sortInsert]
      | cons x xs ih =>
        intro h
        rw [List.pairwise_cons] at h
        simp only [Tree.sortInsert]
        split
        · rename_i hc
          rw [List.pairwise_cons]
          refine ⟨?_, ih h.2⟩
          intro y hy
          rcases List.mem_cons.1 ((hperm n xs).subset hy) with hy | hy
          · subst hy
            simp only [compareNodes, decide_eq_true_eq, decide_eq_false_iff_not] at hc ⊢
            omega
          · exact h.1 y hy
        · rename_i hc
          rw [List.pairwise_cons]
          refine ⟨?_, List.pairwise_cons.2 h⟩
          intro y hy
          simp only [compareNodes, decide_eq_true_eq, decide_eq_false_iff_not] at hc ⊢
          rcases List.mem_cons.1 hy with hy | hy
          · subst hy; omega
          · have := h.1 y hy
            simp only [compareNodes, decide_eq_false_iff_not] at this
            omega
    intro l
    induction l with
    | nil => simp [Tree.sortByFreq]
    | cons x xs ih => exact hins x _ ih

namespace Node

/-- The leaves of a subtree, left to right. -/
def leaves : Node → List Node
  | leaf a n c f => [leaf a n c f]
  | internal _ _ _ l r => leaves l ++ leaves r

/-- The nodes of a subtree in postorder: left subtree, right subtree, node. -/
def nodes : Node → List Node
  | leaf a n c f => [leaf a n c f]
  | internal n c f l r => nodes l ++ nodes r ++ [internal n c f l r]

/-- The subtree with every code replaced by the path leading to it, `c` being the
path of the subtree itself. -/
def assign (c : Str) : Node → Node
  | leaf a n _ f => leaf a n c f
  | internal n _ f l r => internal n c f (assign (c ++ [chr0]) l) (assign (c ++ [chr1]) r)

end Node

/-- The symbol table as (name, count) pairs: what `addChar` does to it. -/
def bumpAssoc (name : Str) : List (Str × Nat) → List (Str × Nat)
  | [] => [(name, 1)]
  | x :: l => if x.1 = name then (x.1, x.2 + 1) :: l else x :: bumpAssoc name l

/-- The leaf objects of a symbol table, allocated from `k` on. -/
def leavesFrom (k : Nat) : List (Str × Nat) → List Node
  | [] => []
  | x :: l => Node.leaf k x.1 [] x.2 :: leavesFrom (k + 1) l

/-- The tree during the counting pass of `makeTree`: both vectors hold the
pointers to the leaves of the symbol table `l`, in the same order. -/
def Tree.counting (l : List (Str × Nat)) : Tree :=
  { freqs := leavesFrom 0 l, huffList := leavesFrom 0 l, root := none }

/-- The symbol table after the counting pass of `makeTree` over the bytes `S`. -/
def table (S : Str) : List (Str × Nat) :=
  bumpAssoc EOF (S.foldl (fun l c => bumpAssoc [c] l) [])

/-- The number of distinct byte values of `S`. -/
def distinct (S : Str) : Nat := S.dedup.length

/-- The tree object after `Tree::Huffman`: `fs` are the leaves the vector `freqs`
points to, `r` is the root left by the merge loop. -/
def Tree.built (fs : List Node) (r : Node) : Tree :=
  { freqs := fs.map (Tree.writeBack (Node.assign [] r).nodes), huffList := [r],
    root := some (Node.assign [] r) }

/-- The 8 bits of `n`, most significant first, as characters. -/
def bits8 (n : Nat) : Str :=
  (List.range 8).map (fun k => Fin.ofNat (48 + n / 2 ^ (7 - k) % 2))

/-- The symbol field of a leaf in the stream format (spec §4.4, §6): the reserved
all-ones byte for the end-of-stream symbol, else the 8 bits of the byte. -/
def symbolBits (name : Str) : Str :=
  if name = EOF then allOnes else bits8 (name.headD 0).val

/-- The serialized tree bits of spec §4.4: the nodes in postorder (left subtree,
right subtree, node), `0` for an internal node, `1` and the symbol field for a leaf. -/
def Node.serial : Node → Str
  | Node.leaf _ n _ _ => chr1 :: symbolBits n
  | Node.internal _ _ _ l r => Node.serial l ++ Node.serial r ++ [chr0]

/-- Neither code is a beginning of the other. -/
def apart (a b : Node) : Prop := ¬ a.code <+: b.code ∧ ¬ b.code <+: a.code

/-- The code of the leaf of `t` for the symbol `name` (empty when there is none). -/
def Tree.codeOf (t : Tree) (name : Str) : Str :=
  match t.freqs.find? (fun n => decide (n.name = name)) with
  | some n => n.code
  | none => []

/-- The value of a bit string read most significant bit first. -/
def msbValue (bits : Str) : Nat :=
  bits.foldl (fun v c => 2 * v + (c.val - 48)) 0

/-- The bytes of the text `go go gophers`. -/
def gophers : Str := [103, 111, 32, 103, 111, 32, 103, 111, 112, 104, 101, 114, 115]

/-- The 255 byte values `0, 1, ..., 254`, each once. -/
def bytesBelow255 : Str := (List.range 255).map Fin.ofNat

/-- The name `decodeTree` gives to a leaf whose symbol field is `bits`. -/
def decodedName (bits : Str) : Str :=
  if bits = allOnes then EOF else [byteToChar bits]

/-- The tree `decodeTree` rebuilds from the serialization of a tree: new leaf
objects allocated from `k` on, in postorder, with `frequency = 0` and the names
read back from the symbol fields. -/
def Node.rebuild (k : Nat) : Node → Node
  | Node.leaf _ n _ _ => Node.ofName k (decodedName (symbolBits n))
  | Node.internal _ _ _ l r =>
    Node.ofChildren (Node.rebuild k l) (Node.rebuild (k + l.leaves.length) r)

/-- An entry of the serialized tree: a leaf with its symbol field, or an
internal node. -/
inductive Tok where
  | leaf (bits : Str) : Tok
  | node : Tok

/-- The bits of an entry. -/
def Tok.render : Tok → Str
  | Tok.leaf bits => chr1 :: bits
  | Tok.node => [chr0]

/-- The entries of the serialization of a subtree. -/
def Node.toks : Node → List Tok
  | Node.leaf _ n _ _ => [Tok.leaf (symbolBits n)]
  | Node.internal _ _ _ l r => Node.toks l ++ Node.toks r ++ [Tok.node]

/-- What the loop body of `decodeTree` does with one entry. -/
def Tok.step : Tok → DecState → Option DecState
  | Tok.leaf bits, st =>
    some { i := st.i + 1 + 8, s := Node.ofName st.freqs.length (decodedName bits) :: st.s,
           freqs := st.freqs ++ [Node.ofName st.freqs.length (decodedName bits)],
           leavesFound := st.leavesFound + 1 }
  | Tok.node, st =>
    match st.s with
    | n1 :: n2 :: rest => some { st with i := st.i + 1, s := Node.ofChildren n2 n1 :: rest }
    | _ => none

/-- The entries `ts` take the loop of `decodeTree` from `st` to `fin`, where it
stops: the loop condition holds before every entry and fails at `fin`, every
leaf entry has 8 symbol bits and is followed by another entry, and no internal
entry finds fewer than two nodes on the stack. -/
def Runs (numLeaves : Nat) : List Tok → DecState → DecState → Prop
  | [], st, fin => ¬ (st.leavesFound < numLeaves ∨ st.s.length > 1) ∧ fin = st
  | Tok.leaf bits :: ts, st, fin =>
    (st.leavesFound < numLeaves ∨ st.s.length > 1) ∧ bits.length = 8 ∧ ts ≠ [] ∧
      ∃ st1, (Tok.leaf bits).step st = some st1 ∧ Runs numLeaves ts st1 fin
  | Tok.node :: ts, st, fin =>
    (st.leavesFound < numLeaves ∨ st.s.length > 1) ∧
      ∃ st1, Tok.node.step st = some st1 ∧ Runs numLeaves ts st1 fin

/-- The state of the loop of `decodeTree` after the entries of the subtree `n`. -/
def DecState.after (n : Node) (st : DecState) : DecState :=
  { i := st.i + n.serial.length, s := Node.rebuild st.freqs.length n :: st.s,
    freqs := st.freqs ++ (Node.rebuild st.freqs.length n).leaves,
    leavesFound := st.leavesFound + n.leaves.length }

/-- A leaf name the stream format can carry: `EOF`, or one byte other than `0xFF`. -/
def goodName (name : Str) : Prop := name = EOF ∨ ∃ b : CChar, b ≠ 255 ∧ name = [b]

/-- The symbol and the code of a leaf. -/
def Node.entry (n : Node) : Str × Str := (n.name, n.code)

/-- Same shape, and at every leaf position the same symbol with the same code. -/
def Node.sameAs : Node → Node → Prop
  | Node.leaf _ n c _, Node.leaf _ n2 c2 _ => n = n2 ∧ c = c2
  | Node.internal _ _ _ l r, Node.internal _ _ _ l2 r2 => Node.sameAs l l2 ∧ Node.sameAs r r2
  | _, _ => False

/-- A string of the characters `0` and `1` only. -/
def isBits (s : Str) : Prop := ∀ c ∈ s, c = chr0 ∨ c = chr1

/-- The bits of one node in the stream format of spec §4.4: `0` for an internal
node, `1` followed by the symbol field for a leaf. -/
def entryBits (n : Node) : Str :=
  if n.isLeaf then chr1 :: symbolBits n.name else [chr0]

/-- The tree `makeTree` builds from the empty input: the `EOF` leaf alone. -/
def emptyTree : Tree :=
  { freqs := [Node.leaf 0 EOF [] 1], huffList := [Node.leaf 0 EOF [] 1],
    root := some (Node.leaf 0 EOF [] 1) }

/-- The bit string `00000001 1 11111111 0000000` that `encode` builds from the
empty input. -/
def emptyBits : Str :=
  [48, 48, 48, 48, 48, 48, 48, 49, 49, 49, 49, 49, 49, 49, 49, 49, 49, 48, 48, 48, 48, 48, 48, 48]

/-- The tree `makeTree` builds from the one-byte input `0xFF` when `std::sort` leaves
the leaf of the byte before the `EOF` leaf, both having the frequency 1, as
`insertionSort` does. -/
def treeFF : Tree :=
  { freqs := [Node.leaf 0 [255] [48] 1, Node.leaf 1 EOF [49] 1],
    huffList := [Node.internal [255, 32, 69, 79, 70] [] 2 (Node.leaf 0 [255] [] 1)
      (Node.leaf 1 EOF [] 1)],
    root := some (Node.internal [255, 32, 69, 79, 70] [] 2 (Node.leaf 0 [255] [48] 1)
      (Node.leaf 1 EOF [49] 1)) }

/-- The serialization `00000010 1 11111111 1 11111111 0` of `treeFF` (and of
`treeFFr`). -/
def serialFF : Str :=
  [48, 48, 48, 48, 48, 48, 49, 48, 49, 49, 49, 49, 49, 49, 49, 49, 49, 49, 49, 49, 49, 49, 49, 49,
   49, 49, 48]

/-- The bit string `encode` builds from the one-byte input `0xFF` with the tree
`treeFF`: `serialFF`, the code `0` of the byte, the code `1` of `EOF`, three
padding bits. -/
def bitsFF : Str := serialFF ++ [48, 49, 48, 48, 48]

/-- The tree `decodeTree` rebuilds from `serialFF`: both leaves are named `EOF`. -/
def decodedFF : Tree :=
  { freqs := [Node.leaf 0 EOF [48] 0, Node.leaf 1 EOF [49] 0],
    huffList := [Node.internal [69, 79, 70, 32, 69, 79, 70] [] 0 (Node.leaf 0 EOF [] 0)
      (Node.leaf 1 EOF [] 0)],
    root := some (Node.internal [69, 79, 70, 32, 69, 79, 70] [] 0 (Node.leaf 0 EOF [48] 0)
      (Node.leaf 1 EOF [49] 0)) }

/-- The distinct bytes of `S` in the order of their first occurrence: the first
byte, then the first occurrences among the rest of the bytes other than it. -/
def firstSeen : Str → Str
  | [] => []
  | c :: S => c :: (firstSeen S).filter (fun d => decide (d ≠ c))

/-- The tree object of `makeTree` after its counting pass, before `t.Huffman()`:
`addChar` for every byte of the file, then `addChar("EOF")`. -/
def countingPass (file : Str) : Tree :=
  (file.foldl (fun t c => t.addChar [c]) Tree.empty).addChar EOF

/-- One pass of the merge loop of `Tree::Huffman` over `huffList`: insert the node
made of the first two, erase the first two positions. -/
def Tree.mergeStep (l : List Node) : List Node :=
  match l with
  | a :: b :: _ => (Tree.insertByFreq (Node.ofChildren a b) l).drop 2
  | _ => l

/-- The vector `huffList` after `k` passes of the merge loop. -/
def Tree.afterMerges : Nat → List Node → List Node
  | 0, l => l
  | k + 1, l => Tree.afterMerges k (Tree.mergeStep l)

/-- The working list `huffList` of `makeTree` on the bytes `S` when pass `k` of the
merge loop of `Tree::Huffman` starts (or, after the last pass, when the loop
has ended). -/
def workingList (srt : StdSort) (S : Str) (k : Nat) : List Node :=
  Tree.afterMerges k (srt.run (countingPass S).huffList)

/-- The depths of the leaves of a subtree, left to right, `d` being the depth of
the subtree itself. -/
def Node.depths (d : Nat) : Node → List Nat
  | Node.leaf _ _ _ _ => [d]
  | Node.internal _ _ _ l r => Node.depths (d + 1) l ++ Node.depths (d + 1) r

/-- Every node of the subtree carries its path as its code, `c` being the path of
the subtree itself: `0` is appended for a descent to the left, `1` to the right. -/
def Node.hasPathCodes (c : Str) : Node → Prop
  | Node.leaf _ _ code _ => code = c
  | Node.internal _ code _ l r =>
    code = c ∧ Node.hasPathCodes (c ++ [chr0]) l ∧ Node.hasPathCodes (c ++ [chr1]) r

/-- The subtree without its codes. -/
def Node.eraseCodes : Node → Node
  | Node.leaf a n _ f => Node.leaf a n [] f
  | Node.internal n _ f l r => Node.internal n [] f (Node.eraseCodes l) (Node.eraseCodes r)

/-- Whether the `for` loop of `decodeBytes` is left through its `break`, that is,
whether the accumulated `bitCode` ever matches the code of a leaf named `EOF`. -/
def decodeBytesBreaks (t : Tree) : Str → Str → Bool
  | [], _ => false
  | b :: rest, bitCode =>
    if t.containsCode (bitCode ++ [b]) ≠ [] then
      if t.containsCode (bitCode ++ [b]) = EOF then true
      else decodeBytesBreaks t rest []
    else decodeBytesBreaks t rest (bitCode ++ [b])

/-- The serialization `00000010 1 01100001 1 11111111 0` of the tree built from
the one-byte input `a` when `std::sort` leaves the leaf of `a` before the `EOF`
leaf, as `insertionSort` does. -/
def serialA : Str :=
  [48, 48, 48, 48, 48, 48, 49, 48, 49, 48, 49, 49, 48, 48, 48, 48, 49, 49, 49, 49, 49, 49, 49,
   49, 49, 49, 48]

/-- The bit string `serialA` without its last bit. -/
def truncatedA : Str :=
  [48, 48, 48, 48, 48, 48, 49, 48, 49, 48, 49, 49, 48, 48, 48, 48, 49, 49, 49, 49, 49, 49, 49,
   49, 49, 49]

/-- The bit string `00000010 1 01100001 1 01100010 1 01100011 0 0`: a leaf count
of 2 followed by three leaf entries and two internal entries. -/
def threeLeaves : Str :=
  [48, 48, 48, 48, 48, 48, 49, 48, 49, 48, 49, 49, 48, 48, 48, 48, 49, 49, 48, 49, 49, 48, 48,
   48, 49, 48, 49, 48, 49, 49, 48, 48, 48, 49, 49, 48, 48]

/-- Six bytes whose bits are the leaf count 4, the leaf entries of `a`, `b`, `c`,
`d`, three internal entries and one payload bit `0`. -/
def stream6 : Str := [4, 176, 216, 172, 118, 64]

/-- The tree `decodeTree` rebuilds from `serialA`. -/
def decodedA : Tree :=
  { freqs := [Node.leaf 0 [97] [48] 0, Node.leaf 1 EOF [49] 0],
    huffList := [Node.internal [97, 32, 69, 79, 70] [] 0 (Node.leaf 0 [97] [] 0)
      (Node.leaf 1 EOF [] 0)],
    root := some (Node.internal [97, 32, 69, 79, 70] [] 0 (Node.leaf 0 [97] [48] 0)
      (Node.leaf 1 EOF [49] 0)) }

/-- What the loop of `decodeTree` keeps true: the nodes on the stack hold as many
leaves as were read, and `freqs` has one entry for each of them. -/
def DecState.counted (st : DecState) : Prop :=
  (st.s.flatMap Node.leaves).length = st.leavesFound ∧ st.freqs.length = st.leavesFound

/-- What the loop of `decodeTree` keeps true of its read position `i`: the 8 bits
of the leaf count, 9 bits for every leaf read, 1 bit for every internal node
made (the stack holds one node for every entry read). -/
def DecState.positioned (st : DecState) : Prop :=
  st.i = 8 + 8 * st.leavesFound + (st.s.flatMap Node.nodes).length

/-- Another `std::sort`: sorting the reversed vector by insertion, which leaves
nodes of equal frequency in the reverse of the order they had. -/
def reverseSort : StdSort where
  run := fun l => insertionSort.run l.reverse
  perm := fun l => (insertionSort.perm l.reverse).trans (List.reverse_perm l)
  sorted := fun l => insertionSort.sorted l.reverse

/-! ### Devices for the optimality of the built code -/

/-- The multisets of leaf depths of the strictly binary trees: the single leaf at
depth 0, and what comes of replacing a leaf at depth `d` by an internal node with
two leaves at depth `d + 1`. -/
inductive TreeDepths : Multiset Nat → Prop
  | single : TreeDepths {0}
  | split (D : Multiset Nat) (d : Nat) :
      TreeDepths D → d ∈ D → TreeDepths ((d + 1) ::ₘ (d + 1) ::ₘ D.erase d)

/-- The weighted path length of an assignment of depths to weights, given as
(weight, depth) pairs. -/
def pairCost (P : Multiset (Nat × Nat)) : Nat := (P.map (fun p => p.1 * p.2)).sum

/-- The sum of the frequencies of the nodes made by `k` passes of the merge loop,
on the sorted list of the frequencies alone. -/
def mergeCost : Nat → List Nat → Nat
  | k + 1, a :: b :: rest => a + b + mergeCost k (List.orderedInsert (· ≤ ·) (a + b) rest)
  | _, _ => 0

/-- The sum over the leaves of a subtree of frequency times depth, `d` being the
depth of the subtree itself. -/
def Node.weightedPath (d : Nat) : Node → Nat
  | Node.leaf _ _ _ f => f * d
  | Node.internal _ _ _ l r => Node.weightedPath (d + 1) l + Node.weightedPath (d + 1) r

/-- The weighted path length of the code of `t`: the sum over the leaves in `freqs`
of frequency times code length. -/
def Tree.weightedLength (t : Tree) : Nat :=
  (t.freqs.map (fun n => n.frequency * n.code.length)).sum

/-- The code words of `L` that start with the character `b`, without it; every
code word comes with the weight of its symbol. -/
def tailsOf (b : CChar) (L : List (Nat × Str)) : List (Nat × Str) :=
  (L.filter (fun p => decide (p.2.head? = some b))).map (fun p => (p.1, p.2.tail))

/-- The tree `makeTree` builds from the input `aab` when `std::sort` leaves the leaf
of `b` before the `EOF` leaf, as `insertionSort` does: the codes are `1` for `a`,
`00` for `b` and `01` for `EOF`. -/
def treeAab : Tree :=
  { freqs := [Node.leaf 0 [97] [49] 2, Node.leaf 1 [98] [48, 48] 1, Node.leaf 2 EOF [48, 49] 1],
    huffList := [Node.internal [98, 32, 69, 79, 70, 32, 97] [] 4
      (Node.internal [98, 32, 69, 79, 70] [] 2 (Node.leaf 1 [98] [] 1) (Node.leaf 2 EOF [] 1))
      (Node.leaf 0 [97] [] 2)],
    root := some (Node.internal [98, 32, 69, 79, 70, 32, 97] [] 4
      (Node.internal [98, 32, 69, 79, 70] [48] 2 (Node.leaf 1 [98] [48, 48] 1)
        (Node.leaf 2 EOF [48, 49] 1))
      (Node.leaf 0 [97] [49] 2)) }

/-- Another strictly binary tree over the leaves of the symbol table of `aab`: the
leaves of `a` and `b` below one node, the leaf of `EOF` beside it. -/
def otherAab : Node :=
  Node.ofChildren (Node.ofChildren (Node.leaf 0 [97] [] 2) (Node.leaf 1 [98] [] 1))
    (Node.leaf 2 EOF [] 1)

/-- Another code for the symbols of `aab`: `00` for `a`, `01` for `b`, `1` for
`EOF`. -/
def codeAab (x : Str) : Str :=
  if x = [97] then [48, 48] else if x = [98] then [48, 49] else [49]

/-- `Tree::Huffman` from the point where `std::sort` has left the vector `sorted`
in `huffList`. -/
def Tree.huffmanFrom (sorted : List Node) (t : Tree) : Except Fault Tree :=
  let l := Tree.huffmanLoop sorted.length sorted
  match l with
  | [] => .error .undefined
  | r :: _ =>
    match Tree.postOrder { t with huffList := l, root := some r } with
    | .ok p => .ok p.2
    | .error e => .error e

/-- The tree `makeTree` builds from the one-byte input `0xFF` when `std::sort` leaves
the `EOF` leaf before the leaf of the byte, both having the frequency 1. -/
def treeFFr : Tree :=
  { freqs := [Node.leaf 0 [255] [49] 1, Node.leaf 1 EOF [48] 1],
    huffList := [Node.internal [69, 79, 70, 32, 255] [] 2 (Node.leaf 1 EOF [] 1)
      (Node.leaf 0 [255] [] 1)],
    root := some (Node.internal [69, 79, 70, 32, 255] [] 2 (Node.leaf 1 EOF [48] 1)
      (Node.leaf 0 [255] [49] 1)) }

/-- The bytes of the text `abcdefghijklmnop`: 16 distinct bytes, each once, so that
the symbol table has 17 leaves of frequency 1. -/
def aToP : Str := [97, 98, 99, 100, 101, 102, 103, 104, 105, 106, 107, 108, 109, 110, 111, 112]

/-- The 17 leaves of the text `abcdefghijklmnop` as the counting pass of `makeTree`
leaves them in `huffList`: `a` to `p`, then `EOF`, all of frequency 1. -/
def aToPLeaves : List Node :=
  [Node.leaf 0 [97] [] 1, Node.leaf 1 [98] [] 1, Node.leaf 2 [99] [] 1, Node.leaf 3 [100] [] 1,
   Node.leaf 4 [101] [] 1, Node.leaf 5 [102] [] 1, Node.leaf 6 [103] [] 1,
   Node.leaf 7 [104] [] 1, Node.leaf 8 [105] [] 1, Node.leaf 9 [106] [] 1,
   Node.leaf 10 [107] [] 1, Node.leaf 11 [108] [] 1, Node.leaf 12 [109] [] 1,
   Node.leaf 13 [110] [] 1, Node.leaf 14 [111] [] 1, Node.leaf 15 [112] [] 1,
   Node.leaf 16 EOF [] 1]

/-- The same leaves in the order `i EOF p o n m l k j a h g f e d c b`, in which the
introsort of libstdc++ leaves these 17 nodes of equal frequency. -/
def aToPSorted : List Node :=
  [Node.leaf 8 [105] [] 1, Node.leaf 16 EOF [] 1, Node.leaf 15 [112] [] 1,
   Node.leaf 14 [111] [] 1, Node.leaf 13 [110] [] 1, Node.leaf 12 [109] [] 1,
   Node.leaf 11 [108] [] 1, Node.leaf 10 [107] [] 1, Node.leaf 9 [106] [] 1,
   Node.leaf 0 [97] [] 1, Node.leaf 7 [104] [] 1, Node.leaf 6 [103] [] 1,
   Node.leaf 5 [102] [] 1, Node.leaf 4 [101] [] 1, Node.leaf 3 [100] [] 1,
   Node.leaf 2 [99] [] 1, Node.leaf 1 [98] [] 1]

/-- A `std::sort` that leaves the 17 leaves of the text `abcdefghijklmnop` in the
order `aToPSorted`, as libstdc++ does, and sorts every other vector by
insertion. -/
def tracedSort : StdSort where
  run := fun l => if l = aToPLeaves then aToPSorted else insertionSort.run l
  perm := by
    intro l
    show (if l = aToPLeaves then aToPSorted else insertionSort.run l).Perm l
    by_cases h : l = aToPLeaves
    · rw [if_pos h, h]; decide
    · rw [if_neg h]; exact insertionSort.perm l
  sorted := by
    intro l
    show (if l = aToPLeaves then aToPSorted else insertionSort.run l).Pairwise
      (fun a b => compareNodes b a = false)
    by_cases h : l = aToPLeaves
    · rw [if_pos h]; decide
    · rw [if_neg h]; exact insertionSort.sorted l

/-- The 31 bytes of the compressed file of the text `abcdefghijklmnop` when
`std::sort` is that of libstdc++. -/
def aToPBytes : Str :=
  [17, 183, 91, 87, 11, 121, 106, 176, 173, 150, 177, 102, 178, 173, 22, 114, 211, 255, 88, 172,
   150, 48, 47, 127, 211, 23, 88, 142, 194, 6, 90]

/-- A code of fixed length for the symbols of the text `abcdefghijklmnop`: `10000`
for `EOF`, else `0` and the four low bits of the byte. -/
def fiveBits (x : Str) : Str :=
  if x = EOF then [49, 48, 48, 48, 48] else chr0 :: (bits8 (x.headD 0).val).drop 4

/-! ## Bytes and bit strings -/

set_option maxRecDepth 100000 in
theorem charToByte_length (c : CChar) : (charToByte c).length = 8 := by
  revert c; decide

set_option maxRecDepth 100000 in
theorem byteToChar_charToByte (c : CChar) : byteToChar (charToByte c) = c := by
  revert c; decide

set_option maxRecDepth 100000 in
theorem charToByte_eq_allOnes (c : CChar) : charToByte c = allOnes ↔ c = 255 := by
  revert c; decide

/-! ## Traversal and code assignment -/

namespace Node

@[simp] theorem name_leaf (a : Nat) (n c : Str) (f : Nat) : (leaf a n c f).name = n := rfl
@[simp] theorem name_internal (n c : Str) (f : Nat) (l r : Node) : (internal n c f l r).name = n := rfl
@[simp] theorem code_leaf (a : Nat) (n c : Str) (f : Nat) : (leaf a n c f).code = c := rfl
@[simp] theorem code_internal (n c : Str) (f : Nat) (l r : Node) : (internal n c f l r).code = c := rfl
@[simp] theorem frequency_leaf (a : Nat) (n c : Str) (f : Nat) : (leaf a n c f).frequency = f := rfl
@[simp] theorem frequency_internal (n c : Str) (f : Nat) (l r : Node) :
    (internal n c f l r).frequency = f := rfl
@[simp] theorem isLeaf_leaf (a : Nat) (n c : Str) (f : Nat) : (leaf a n c f).isLeaf = true := rfl
@[simp] theorem isLeaf_internal (n c : Str) (f : Nat) (l r : Node) :
    (internal n c f l r).isLeaf = false := rfl
@[simp] theorem addr_leaf (a : Nat) (n c : Str) (f : Nat) : (leaf a n c f).addr = some a := rfl
@[simp] theorem addr_internal (n c : Str) (f : Nat) (l r : Node) :
    (internal n c f l r).addr = none := rfl
@[simp] theorem incr_leaf (a : Nat) (n c : Str) (f : Nat) :
    (leaf a n c f).incr = leaf a n c (f + 1) := rfl

theorem postOrder_eq (n : Node) : ∀ (c : Str) (list : List Node),
    postOrder c n list = (assign c n, list ++ nodes (assign c n)) := by
  induction n with
  | leaf a nm cd f => intro c list; rfl
  | internal nm cd f l r ihl ihr =>
    intro c list
    simp only [postOrder, ihl, ihr, assign, nodes, List.append_assoc]

@[simp] theorem assign_assign (n : Node) : ∀ (c d : Str), assign c (assign d n) = assign c n := by
  induction n with
  | leaf a nm cd f => intro c d; rfl
  | internal nm cd f l r ihl ihr => intro c d; simp [assign, ihl, ihr]

@[simp] theorem isLeaf_assign (c : Str) (n : Node) : (assign c n).isLeaf = n.isLeaf := by
  cases n <;> rfl

@[simp] theorem name_assign (c : Str) (n : Node) : (assign c n).name = n.name := by
  cases n <;> rfl

@[simp] theorem code_assign (c : Str) (n : Node) : (assign c n).code = c := by
  cases n <;> rfl

@[simp] theorem frequency_assign (c : Str) (n : Node) : (assign c n).frequency = n.frequency := by
  cases n <;> rfl

@[simp] theorem addr_assign (c : Str) (n : Node) : (assign c n).addr = n.addr := by
  cases n <;> rfl

theorem leaves_ne_nil (n : Node) : n.leaves ≠ [] := by
  induction n with
  | leaf a nm cd f => simp [leaves]
  | internal nm cd f l r ihl _ => simp [leaves, ihl]

theorem isLeaf_of_mem_leaves {n m : Node} (h : m ∈ n.leaves) : m.isLeaf = true := by
  induction n with
  | leaf a nm cd f => simp [leaves] at h; subst h; rfl
  | internal nm cd f l r ihl ihr =>
    simp only [leaves, List.mem_append] at h
    rcases h with h | h
    · exact ihl h
    · exact ihr h

theorem filter_isLeaf_nodes (n : Node) : n.nodes.filter isLeaf = n.leaves := by
  induction n with
  | leaf a nm cd f => simp [nodes, leaves, isLeaf]
  | internal nm cd f l r ihl ihr =>
    simp [nodes, leaves, List.filter_append, ihl, ihr, isLeaf]

theorem length_nodes (n : Node) : n.nodes.length + 1 = 2 * n.leaves.length := by
  induction n with
  | leaf a nm cd f => simp [nodes, leaves]
  | internal nm cd f l r ihl ihr =>
    simp only [nodes, leaves, List.length_append, List.length_singleton]
    omega

end Node

/-! ## The counting pass -/

theorem leavesFrom_append (k : Nat) (l₁ l₂ : List (Str × Nat)) :
    leavesFrom k (l₁ ++ l₂) = leavesFrom k l₁ ++ leavesFrom (k + l₁.length) l₂ := by
  induction l₁ generalizing k with
  | nil => simp [leavesFrom]
  | cons x l ih =>
    have e : k + 1 + l.length = k + (l.length + 1) := by omega
    show Node.leaf k x.1 [] x.2 :: leavesFrom (k + 1) (l ++ l₂) = _
    rw [ih, e]
    rfl

theorem length_leavesFrom (k : Nat) (l : List (Str × Nat)) : (leavesFrom k l).length = l.length := by
  induction l generalizing k with
  | nil => rfl
  | cons x l ih => simp [leavesFrom, ih]

theorem addr_of_mem_leavesFrom {k : Nat} {l : List (Str × Nat)} {n : Node}
    (h : n ∈ leavesFrom k l) : ∃ a, n.addr = some a ∧ k ≤ a ∧ a < k + l.length := by
  induction l generalizing k with
  | nil => simp [leavesFrom] at h
  | cons x l ih =>
    simp only [leavesFrom, List.mem_cons] at h
    rcases h with h | h
    · subst h
      exact ⟨k, rfl, Nat.le_refl _, by simp⟩
    · obtain ⟨a, h1, h2, h3⟩ := ih h
      exact ⟨a, h1, by omega, by simp only [List.length_cons]; omega⟩

theorem map_name_leavesFrom (k : Nat) (l : List (Str × Nat)) :
    (leavesFrom k l).map Node.name = l.map Prod.fst := by
  induction l generalizing k with
  | nil => rfl
  | cons x l ih => simp [leavesFrom, ih]

theorem map_frequency_leavesFrom (k : Nat) (l : List (Str × Nat)) :
    (leavesFrom k l).map Node.frequency = l.map Prod.snd := by
  induction l generalizing k with
  | nil => rfl
  | cons x l ih => simp [leavesFrom, ih]

theorem map_addr_leavesFrom (k : Nat) (l : List (Str × Nat)) :
    (leavesFrom k l).map Node.addr = (List.range' k l.length).map some := by
  induction l generalizing k with
  | nil => rfl
  | cons x l ih => simp [leavesFrom, ih, List.range']

theorem isLeaf_of_mem_leavesFrom {k : Nat} {l : List (Str × Nat)} {n : Node}
    (h : n ∈ leavesFrom k l) : n.isLeaf = true ∧ n.code = [] := by
  induction l generalizing k with
  | nil => simp [leavesFrom] at h
  | cons x l ih =>
    simp only [leavesFrom, List.mem_cons] at h
    rcases h with h | h
    · subst h; exact ⟨rfl, rfl⟩
    · exact ih h

/-- Nothing in the table is touched by an increment through a pointer that lies
outside of it. -/
theorem map_bump_of_not_mem (k : Nat) (l : List (Str × Nat)) (a : Nat)
    (ha : a < k ∨ k + l.length ≤ a) :
    (leavesFrom k l).map (fun m => if m.addr = some a then m.incr else m) = leavesFrom k l := by
  induction l generalizing k with
  | nil => rfl
  | cons x l ih =>
    simp only [List.length_cons] at ha
    have hk : ¬ k = a := by omega
    simp only [leavesFrom, List.map_cons, Node.addr_leaf, Option.some.injEq, hk, if_false]
    rw [ih (k + 1) (by omega)]

theorem bumpAssoc_of_not_mem (name : Str) (l : List (Str × Nat))
    (h : ∀ x ∈ l, x.1 ≠ name) : bumpAssoc name l = l ++ [(name, 1)] := by
  induction l with
  | nil => rfl
  | cons x l ih =>
    simp only [bumpAssoc, List.cons_append]
    rw [if_neg (h x (List.mem_cons_self _ _)), ih (fun y hy => h y (List.mem_cons_of_mem _ hy))]

theorem find_leavesFrom_none {name : Str} {k : Nat} {l : List (Str × Nat)}
    (h : (leavesFrom k l).find? (fun n => decide (n.name = name)) = none) :
    ∀ x ∈ l, x.1 ≠ name := by
  intro x hx
  rw [List.find?_eq_none] at h
  have hm : x.1 ∈ (leavesFrom k l).map Node.name := by
    rw [map_name_leavesFrom]; exact List.mem_map_of_mem _ hx
  obtain ⟨n, hn, hnx⟩ := List.mem_map.1 hm
  have := h n hn
  simp only [decide_eq_true_eq] at this
  rw [← hnx]; exact this

theorem map_bump_found {name : Str} {k : Nat} {l : List (Str × Nat)} {n : Node}
    (h : (leavesFrom k l).find? (fun n => decide (n.name = name)) = some n) :
    (leavesFrom k l).map (fun m => if m.addr = n.addr then m.incr else m)
      = leavesFrom k (bumpAssoc name l) := by
  induction l generalizing k with
  | nil => simp [leavesFrom] at h
  | cons x l ih =>
    simp only [leavesFrom, List.find?_cons] at h
    by_cases hx : x.1 = name
    · simp only [Node.name_leaf, hx, decide_True, Option.some.injEq] at h
      subst h
      simp only [leavesFrom, List.map_cons, Node.addr_leaf, if_true, bumpAssoc, hx, Node.incr_leaf]
      rw [map_bump_of_not_mem (k + 1) l k (by omega)]
    · simp only [Node.name_leaf, hx, decide_False] at h
      obtain ⟨a, ha, hka, _⟩ := addr_of_mem_leavesFrom (List.mem_of_find?_eq_some h)
      have hk : ¬ k = a := by omega
      simp only [leavesFrom, List.map_cons, bumpAssoc, hx, if_false]
      rw [ih h]
      simp only [Node.addr_leaf, ha, Option.some.injEq, hk, if_false]

namespace Tree

theorem addChar_counting (l : List (Str × Nat)) (name : Str) :
    (counting l).addChar name = counting (bumpAssoc name l) := by
  unfold addChar contains
  cases h : (counting l).freqs.find? (fun n => decide (n.name = name)) with
  | some n =>
    simp only [counting] at h ⊢
    rw [map_bump_found h]
  | none =>
    simp only [counting] at h ⊢
    have hl := find_leavesFrom_none h
    rw [bumpAssoc_of_not_mem name l hl, leavesFrom_append]
    simp only [List.map_append, Node.ofName, Node.addr_leaf, length_leavesFrom, List.map_cons,
      List.map_nil, if_true, Node.incr_leaf, leavesFrom, Nat.zero_add]
    rw [map_bump_of_not_mem 0 l l.length (by omega)]

theorem foldl_addChar_counting (S : Str) (l : List (Str × Nat)) :
    S.foldl (fun t c => t.addChar [c]) (counting l)
      = counting (S.foldl (fun l c => bumpAssoc [c] l) l) := by
  induction S generalizing l with
  | nil => rfl
  | cons c S ih => simp only [List.foldl_cons, addChar_counting, ih]

end Tree

theorem makeTree_eq (srt : StdSort) (S : Str) :
    makeTree srt S = (Tree.counting (table S)).Huffman srt := by
  have h := Tree.foldl_addChar_counting S []
  unfold makeTree
  show Tree.Huffman srt
    (Tree.addChar (S.foldl (fun t c => t.addChar [c]) (Tree.counting [])) EOF) = _
  rw [h, Tree.addChar_counting]
  rfl

/-! ## The symbol table -/

theorem keys_bumpAssoc (name : Str) (l : List (Str × Nat)) :
    (bumpAssoc name l).map Prod.fst
      = if name ∈ l.map Prod.fst then l.map Prod.fst else l.map Prod.fst ++ [name] := by
  induction l with
  | nil => simp [bumpAssoc]
  | cons x l ih =>
    by_cases hx : x.1 = name
    · simp [bumpAssoc, hx]
    · have hx' : ¬ name = x.1 := fun h => hx h.symm
      simp only [bumpAssoc, hx, if_false, List.map_cons, ih, List.mem_cons, hx', false_or]
      split <;> simp

theorem mem_keys_bumpAssoc (name nm : Str) (l : List (Str × Nat)) :
    nm ∈ (bumpAssoc name l).map Prod.fst ↔ nm = name ∨ nm ∈ l.map Prod.fst := by
  rw [keys_bumpAssoc]
  split
  · constructor
    · exact Or.inr
    · rintro (h | h)
      · subst h; assumption
      · exact h
  · simp only [List.mem_append, List.mem_singleton]
    tauto

theorem nodup_keys_bumpAssoc (name : Str) (l : List (Str × Nat))
    (h : (l.map Prod.fst).Nodup) : ((bumpAssoc name l).map Prod.fst).Nodup := by
  rw [keys_bumpAssoc]
  split
  · exact h
  · rename_i hn
    exact List.Nodup.append h (List.nodup_singleton _) (by simpa using hn)

theorem pos_bumpAssoc (name : Str) (l : List (Str × Nat))
    (h : ∀ x ∈ l, 1 ≤ x.2) : ∀ x ∈ bumpAssoc name l, 1 ≤ x.2 := by
  induction l with
  | nil => simp [bumpAssoc]
  | cons y l ih =>
    intro x hx
    simp only [bumpAssoc] at hx
    split at hx
    · simp only [List.mem_cons] at hx
      rcases hx with hx | hx
      · subst hx; simp
      · exact h x (List.mem_cons_of_mem _ hx)
    · simp only [List.mem_cons] at hx
      rcases hx with hx | hx
      · subst hx; exact h _ (List.mem_cons_self _ _)
      · exact ih (fun z hz => h z (List.mem_cons_of_mem _ hz)) x hx

/-- The symbol table of the bytes alone, before `addChar("EOF")`. -/
theorem foldl_bumpAssoc_append (S : Str) (c : CChar) :
    (S ++ [c]).foldl (fun l c => bumpAssoc [c] l) []
      = bumpAssoc [c] (S.foldl (fun l c => bumpAssoc [c] l) []) := by
  simp [List.foldl_append]

theorem nodup_keys_foldl (S : Str) :
    ((S.foldl (fun l c => bumpAssoc [c] l) []).map Prod.fst).Nodup := by
  induction S using List.reverseRecOn with
  | nil => simp
  | append_singleton S c ih =>
    rw [foldl_bumpAssoc_append]
    exact nodup_keys_bumpAssoc _ _ ih

theorem mem_keys_foldl (S : Str) (nm : Str) :
    nm ∈ (S.foldl (fun l c => bumpAssoc [c] l) []).map Prod.fst ↔ ∃ c ∈ S, nm = [c] := by
  induction S using List.reverseRecOn with
  | nil => simp
  | append_singleton S c ih =>
    rw [foldl_bumpAssoc_append, mem_keys_bumpAssoc, ih]
    simp only [List.mem_append, List.mem_singleton]
    constructor
    · rintro (h | ⟨d, hd, h⟩)
      · exact ⟨c, Or.inr rfl, h⟩
      · exact ⟨d, Or.inl hd, h⟩
    · rintro ⟨d, hd | hd, h⟩
      · exact Or.inr ⟨d, hd, h⟩
      · subst hd; exact Or.inl h

theorem pos_foldl (S : Str) : ∀ x ∈ S.foldl (fun l c => bumpAssoc [c] l) [], 1 ≤ x.2 := by
  induction S using List.reverseRecOn with
  | nil => simp
  | append_singleton S c ih =>
    rw [foldl_bumpAssoc_append]
    exact pos_bumpAssoc _ _ ih

theorem length_foldl (S : Str) :
    (S.foldl (fun l c => bumpAssoc [c] l) []).length = distinct S := by
  have h1 := nodup_keys_foldl S
  have h2 : (S.dedup.map (fun c => [c])).Nodup :=
    List.Nodup.map (fun a b h => by simpa using h) (List.nodup_dedup S)
  have hp : ((S.foldl (fun l c => bumpAssoc [c] l) []).map Prod.fst).Perm (S.dedup.map (fun c => [c])) := by
    rw [List.perm_ext_iff_of_nodup h1 h2]
    intro nm
    rw [mem_keys_foldl]
    simp only [List.mem_map, List.mem_dedup]
    constructor
    · rintro ⟨c, hc, h⟩; exact ⟨c, hc, h.symm⟩
    · rintro ⟨c, hc, h⟩; exact ⟨c, hc, h.symm⟩
  have := hp.length_eq
  simpa [distinct] using this

theorem not_mem_EOF_foldl (S : Str) :
    EOF ∉ (S.foldl (fun l c => bumpAssoc [c] l) []).map Prod.fst := by
  rw [mem_keys_foldl]
  rintro ⟨c, _, h⟩
  simp at h

theorem keys_table (S : Str) :
    (table S).map Prod.fst = (S.foldl (fun l c => bumpAssoc [c] l) []).map Prod.fst ++ [EOF] := by
  unfold table
  rw [keys_bumpAssoc, if_neg (not_mem_EOF_foldl S)]

theorem nodup_keys_table (S : Str) : ((table S).map Prod.fst).Nodup :=
  nodup_keys_bumpAssoc _ _ (nodup_keys_foldl S)

theorem mem_keys_table (S : Str) (nm : Str) :
    nm ∈ (table S).map Prod.fst ↔ nm = EOF ∨ ∃ c ∈ S, nm = [c] := by
  unfold table
  rw [mem_keys_bumpAssoc, mem_keys_foldl]

theorem pos_table (S : Str) : ∀ x ∈ table S, 1 ≤ x.2 :=
  pos_bumpAssoc _ _ (pos_foldl S)

theorem length_table (S : Str) : (table S).length = distinct S + 1 := by
  have h := congrArg List.length (keys_table S)
  simpa [length_foldl] using h

/-! ## The tree builder -/

/-- The vector `std::sort` leaves is ascending by frequency. -/
theorem StdSort.sorted_le (srt : StdSort) (l : List Node) :
    (srt.run l).Pairwise (fun a b => a.frequency ≤ b.frequency) := by
  refine (srt.sorted l).imp ?_
  intro a b h
  simp only [compareNodes, decide_eq_false_iff_not] at h
  omega

namespace Tree

theorem sortInsert_perm (n : Node) (l : List Node) : (sortInsert n l).Perm (n :: l) := by
  induction l with
  | nil => exact List.Perm.refl _
  | cons x xs ih =>
    simp only [sortInsert]
    split
    · exact (List.Perm.cons x ih).trans (List.Perm.swap n x xs)
    · exact List.Perm.refl _

theorem sortByFreq_perm (l : List Node) : (sortByFreq l).Perm l := by
  induction l with
  | nil => exact List.Perm.refl _
  | cons x xs ih => exact (sortInsert_perm x _).trans (List.Perm.cons x ih)

theorem sortInsert_sorted (n : Node) (l : List Node)
    (h : l.Pairwise (fun a b => a.frequency ≤ b.frequency)) :
    (sortInsert n l).Pairwise (fun a b => a.frequency ≤ b.frequency) := by
  induction l with
  | nil => simp [sortInsert]
  | cons x xs ih =>
    rw [List.pairwise_cons] at h
    simp only [sortInsert, compareNodes]
    split
    · rename_i hx
      simp only [decide_eq_true_eq] at hx
      rw [List.pairwise_cons]
      refine ⟨?_, ih h.2⟩
      intro y hy
      rcases (List.mem_cons.1 ((sortInsert_perm n xs).subset hy)) with hy | hy
      · subst hy; omega
      · exact h.1 y hy
    · rename_i hx
      simp only [decide_eq_true_eq, Nat.not_lt] at hx
      rw [List.pairwise_cons]
      refine ⟨?_, List.pairwise_cons.2 h⟩
      intro y hy
      rcases List.mem_cons.1 hy with hy | hy
      · subst hy; exact hx
      · exact Nat.le_trans hx (h.1 y hy)

theorem sortByFreq_sorted (l : List Node) :
    (sortByFreq l).Pairwise (fun a b => a.frequency ≤ b.frequency) := by
  induction l with
  | nil => simp [sortByFreq]
  | cons x xs ih => exact sortInsert_sorted x _ ih

theorem insertByFreq_perm (n : Node) (l : List Node) : (insertByFreq n l).Perm (n :: l) := by
  induction l with
  | nil => exact List.Perm.refl _
  | cons x xs ih =>
    simp only [insertByFreq]
    split
    · exact (List.Perm.cons x ih).trans (List.Perm.swap n x xs)
    · exact List.Perm.refl _

theorem insertByFreq_sorted (n : Node) (l : List Node)
    (h : l.Pairwise (fun a b => a.frequency ≤ b.frequency)) :
    (insertByFreq n l).Pairwise (fun a b => a.frequency ≤ b.frequency) := by
  induction l with
  | nil => simp [insertByFreq]
  | cons x xs ih =>
    rw [List.pairwise_cons] at h
    simp only [insertByFreq]
    split
    · rename_i hx
      rw [List.pairwise_cons]
      refine ⟨?_, ih h.2⟩
      intro y hy
      rcases (List.mem_cons.1 ((insertByFreq_perm n xs).subset hy)) with hy | hy
      · subst hy; omega
      · exact h.1 y hy
    · rename_i hx
      rw [List.pairwise_cons]
      refine ⟨?_, List.pairwise_cons.2 h⟩
      intro y hy
      rcases List.mem_cons.1 hy with hy | hy
      · subst hy; omega
      · have := h.1 y hy; omega

/-- On a sorted list of nodes with positive frequencies the merged node goes
behind the two nodes it merges, so erasing the first two positions removes
exactly these. -/
theorem insertByFreq_drop_two (a b : Node) (rest : List Node)
    (ha : 1 ≤ a.frequency) (hb : 1 ≤ b.frequency) :
    (insertByFreq (Node.ofChildren a b) (a :: b :: rest)).drop 2
      = insertByFreq (Node.ofChildren a b) rest := by
  have h1 : (Node.ofChildren a b).frequency > a.frequency := by
    simp only [Node.ofChildren, Node.frequency_internal]; omega
  have h2 : (Node.ofChildren a b).frequency > b.frequency := by
    simp only [Node.ofChildren, Node.frequency_internal]; omega
  simp only [insertByFreq, h1, h2, if_true, List.drop_succ_cons, List.drop_zero]

theorem huffmanLoop_spec : ∀ (fuel : Nat) (l : List Node),
    l.Pairwise (fun a b => a.frequency ≤ b.frequency) → (∀ n ∈ l, 1 ≤ n.frequency) →
    l.length ≤ fuel → l ≠ [] →
    ∃ r, huffmanLoop fuel l = [r] ∧ r.leaves.Perm (l.flatMap Node.leaves) ∧
      (2 ≤ l.length → r.isLeaf = false) ∧ (l.length = 1 → l = [r]) := by
  intro fuel
  induction fuel with
  | zero =>
    intro l _ _ hlen hne
    cases l with
    | nil => exact absurd rfl hne
    | cons x xs => simp at hlen
  | succ k ih =>
    intro l hs hp hlen hne
    match l, hs, hp, hlen, hne with
    | [x], _, _, _, _ =>
      refine ⟨x, rfl, ?_, ?_, fun _ => rfl⟩
      · simp
      · intro h; simp at h
    | a :: b :: rest, hs, hp, hlen, _ =>
      have ha := hp a (by simp)
      have hb := hp b (by simp)
      have hrest : rest.Pairwise (fun a b => a.frequency ≤ b.frequency) :=
        (List.pairwise_cons.1 (List.pairwise_cons.1 hs).2).2
      have hstep : huffmanLoop (k + 1) (a :: b :: rest)
          = huffmanLoop k (insertByFreq (Node.ofChildren a b) rest) := by
        simp only [huffmanLoop]
        rw [insertByFreq_drop_two a b rest ha hb]
      have hperm := insertByFreq_perm (Node.ofChildren a b) rest
      have hlen' : (insertByFreq (Node.ofChildren a b) rest).length = rest.length + 1 := by
        simpa using hperm.length_eq
      obtain ⟨r, hr, hleaves, hint, hone⟩ := ih (insertByFreq (Node.ofChildren a b) rest)
        (insertByFreq_sorted _ _ hrest)
        (by
          intro n hn
          rcases List.mem_cons.1 (hperm.subset hn) with hn | hn
          · subst hn; simp only [Node.ofChildren, Node.frequency_internal]; omega
          · exact hp n (by simp [hn]))
        (by simp only [List.length_cons] at hlen; omega)
        (by intro h; rw [h] at hlen'; simp at hlen')
      refine ⟨r, hstep.trans hr, ?_, ?_, ?_⟩
      · refine hleaves.trans ?_
        refine (List.Perm.flatMap_right _ hperm).trans ?_
        simp [List.flatMap_cons, Node.ofChildren, Node.leaves]
      · intro _
        by_cases h2 : 2 ≤ (insertByFreq (Node.ofChildren a b) rest).length
        · exact hint h2
        · have h1 : (insertByFreq (Node.ofChildren a b) rest).length = 1 := by omega
          have hl := hone h1
          have hmem : Node.ofChildren a b ∈ insertByFreq (Node.ofChildren a b) rest :=
            hperm.symm.subset (List.mem_cons_self _ _)
          rw [hl] at hmem
          simp only [List.mem_singleton] at hmem
          rw [← hmem]; rfl
      · intro h; simp at h

end Tree

/-! ## Codes seen through `freqs` -/

namespace Node

theorem map_addr_leaves_assign (n : Node) : ∀ c : Str,
    (assign c n).leaves.map addr = n.leaves.map addr := by
  induction n with
  | leaf a nm cd f => intro c; rfl
  | internal nm cd f l r ihl ihr => intro c; simp [assign, leaves, ihl, ihr]

theorem map_name_leaves_assign (n : Node) : ∀ c : Str,
    (assign c n).leaves.map name = n.leaves.map name := by
  induction n with
  | leaf a nm cd f => intro c; rfl
  | internal nm cd f l r ihl ihr => intro c; simp [assign, leaves, ihl, ihr]

theorem map_frequency_leaves_assign (n : Node) : ∀ c : Str,
    (assign c n).leaves.map frequency = n.leaves.map frequency := by
  induction n with
  | leaf a nm cd f => intro c; rfl
  | internal nm cd f l r ihl ihr => intro c; simp [assign, leaves, ihl, ihr]

end Node

theorem find_unique {α β : Type} [DecidableEq β] (f : α → β) (T : List α)
    (hnd : (T.map f).Nodup) (x : α) (hx : x ∈ T) :
    T.find? (fun n => decide (f n = f x)) = some x := by
  induction T with
  | nil => simp at hx
  | cons y T ih =>
    rw [List.map_cons, List.nodup_cons] at hnd
    rcases List.mem_cons.1 hx with h | h
    · subst h; simp
    · have hne : ¬ f y = f x := by
        intro e
        exact hnd.1 (e ▸ List.mem_map_of_mem f h)
      rw [List.find?_cons]
      simp only [hne, decide_False]
      exact ih hnd.2 h

namespace Tree

theorem writeBack_of_mem (T : List Node) (hnd : ((T.filter Node.isLeaf).map Node.addr).Nodup)
    (x m : Node) (hx : x ∈ T.filter Node.isLeaf) (hm : x.addr = m.addr) :
    writeBack T m = x := by
  have h := find_unique Node.addr (T.filter Node.isLeaf) hnd x hx
  rw [List.find?_filter] at h
  have e : (fun n : Node => n.isLeaf && decide (n.addr = x.addr))
      = (fun a => decide (a.isLeaf = true ∧ decide (a.addr = x.addr) = true)) := by
    funext a; simp [Bool.decide_and]
  unfold writeBack
  rw [← hm, e, h]

theorem map_writeBack_aux (T : List Node) (hnd : ((T.filter Node.isLeaf).map Node.addr).Nodup) :
    ∀ (L L' : List Node), L.map Node.addr = L'.map Node.addr →
      (∀ x ∈ L', x ∈ T.filter Node.isLeaf) → L.map (writeBack T) = L' := by
  intro L
  induction L with
  | nil =>
    intro L' h _
    cases L' with
    | nil => rfl
    | cons y L' => simp at h
  | cons m L ih =>
    intro L' h hmem
    cases L' with
    | nil => simp at h
    | cons y L' =>
      simp only [List.map_cons, List.cons.injEq] at h
      rw [List.map_cons, writeBack_of_mem T hnd y m (hmem y (List.mem_cons_self _ _)) h.1.symm,
        ih L' h.2 (fun x hx => hmem x (List.mem_cons_of_mem _ hx))]

/-- Writing the codes of the traversal back through the pointers to the leaves,
leaf by leaf in tree order, gives the leaves of the tree with their codes. -/
theorem map_writeBack_leaves (r : Node) (c : Str) (hnd : (r.leaves.map Node.addr).Nodup) :
    r.leaves.map (writeBack (Node.assign c r).nodes) = (Node.assign c r).leaves := by
  apply map_writeBack_aux
  · rw [Node.filter_isLeaf_nodes, Node.map_addr_leaves_assign]; exact hnd
  · rw [Node.map_addr_leaves_assign]
  · intro x hx; rw [Node.filter_isLeaf_nodes]; exact hx

theorem name_writeBack (r : Node) (c : Str) (hnd : (r.leaves.map Node.addr).Nodup)
    (m : Node) (hm : m ∈ r.leaves) :
    (writeBack (Node.assign c r).nodes m).name = m.name ∧
    (writeBack (Node.assign c r).nodes m).frequency = m.frequency ∧
    (writeBack (Node.assign c r).nodes m).addr = m.addr := by
  have h := map_writeBack_leaves r c hnd
  have h1 := congrArg (List.map Node.name) h
  have h2 := congrArg (List.map Node.frequency) h
  have h3 := congrArg (List.map Node.addr) h
  rw [Node.map_name_leaves_assign, List.map_map] at h1
  rw [Node.map_frequency_leaves_assign, List.map_map] at h2
  rw [Node.map_addr_leaves_assign, List.map_map] at h3
  exact ⟨List.map_inj_left.1 h1 m hm, List.map_inj_left.1 h2 m hm, List.map_inj_left.1 h3 m hm⟩

/-- The leaves behind `freqs` after the code assignment are the leaves of the
tree, up to their order. -/
theorem built_freqs_perm (fs : List Node) (r : Node) (hp : r.leaves.Perm fs)
    (hnd : (fs.map Node.addr).Nodup) :
    (built fs r).freqs.Perm (Node.assign [] r).leaves := by
  have hnd' : (r.leaves.map Node.addr).Nodup := (hp.map Node.addr).nodup_iff.2 hnd
  rw [← map_writeBack_leaves r [] hnd']
  exact (hp.map _).symm

theorem built_freqs_name (fs : List Node) (r : Node) (hp : r.leaves.Perm fs)
    (hnd : (fs.map Node.addr).Nodup) :
    (built fs r).freqs.map Node.name = fs.map Node.name := by
  have hnd' : (r.leaves.map Node.addr).Nodup := (hp.map Node.addr).nodup_iff.2 hnd
  simp only [built, List.map_map]
  apply List.map_congr_left
  intro m hm
  exact (name_writeBack r [] hnd' m (hp.symm.subset hm)).1

theorem built_freqs_frequency (fs : List Node) (r : Node) (hp : r.leaves.Perm fs)
    (hnd : (fs.map Node.addr).Nodup) :
    (built fs r).freqs.map Node.frequency = fs.map Node.frequency := by
  have hnd' : (r.leaves.map Node.addr).Nodup := (hp.map Node.addr).nodup_iff.2 hnd
  simp only [built, List.map_map]
  apply List.map_congr_left
  intro m hm
  exact (name_writeBack r [] hnd' m (hp.symm.subset hm)).2.1

theorem flatMap_leaves_leavesFrom (k : Nat) (l : List (Str × Nat)) :
    (leavesFrom k l).flatMap Node.leaves = leavesFrom k l := by
  induction l generalizing k with
  | nil => rfl
  | cons x l ih => simp [leavesFrom, List.flatMap_cons, Node.leaves, ih]

theorem nodup_addr_leavesFrom (k : Nat) (l : List (Str × Nat)) :
    ((leavesFrom k l).map Node.addr).Nodup := by
  rw [map_addr_leavesFrom]
  exact List.Nodup.map (fun a b h => by simpa using h) (List.nodup_range' _ _)

end Tree

/-- What `makeTree` returns: the merge loop leaves one root `r` over the leaves of
the symbol table, and the codes of its traversal are seen through `freqs`. -/
theorem makeTree_spec (srt : StdSort) (S : Str) :
    ∃ r, r.leaves.Perm (leavesFrom 0 (table S)) ∧
      (1 ≤ distinct S → r.isLeaf = false) ∧
      makeTree srt S = .ok (Tree.built (leavesFrom 0 (table S)) r) := by
  have hperm := srt.perm (leavesFrom 0 (table S))
  obtain ⟨r, hr, hleaves, hint, _⟩ := Tree.huffmanLoop_spec
    (srt.run (leavesFrom 0 (table S))).length (srt.run (leavesFrom 0 (table S)))
    (srt.sorted_le _)
    (by
      intro n hn
      have hn' := hperm.subset hn
      have hf : n.frequency ∈ (leavesFrom 0 (table S)).map Node.frequency :=
        List.mem_map_of_mem _ hn'
      rw [map_frequency_leavesFrom] at hf
      obtain ⟨x, hx, hxf⟩ := List.mem_map.1 hf
      rw [← hxf]; exact pos_table S x hx)
    (Nat.le_refl _)
    (by
      intro h
      have := hperm.length_eq
      rw [h, length_leavesFrom, length_table] at this
      simp at this)
  refine ⟨r, ?_, ?_, ?_⟩
  · refine hleaves.trans ?_
    refine (List.Perm.flatMap_right _ hperm).trans ?_
    rw [Tree.flatMap_leaves_leavesFrom]
  · intro hd
    apply hint
    rw [hperm.length_eq, length_leavesFrom, length_table]
    omega
  · rw [makeTree_eq]
    simp only [Tree.Huffman, Tree.counting, hr, Tree.postOrder, Node.postOrder_eq,
      List.nil_append, Tree.built]

/-! ## Codes are paths -/

namespace Node

theorem code_of_mem_leaves_assign (n : Node) : ∀ (c : Str) (x : Node),
    x ∈ (assign c n).leaves → c <+: x.code := by
  induction n with
  | leaf a nm cd f =>
    intro c x hx
    simp only [assign, leaves, List.mem_singleton] at hx
    subst hx
    exact List.prefix_refl _
  | internal nm cd f l r ihl ihr =>
    intro c x hx
    simp only [assign, leaves, List.mem_append] at hx
    rcases hx with hx | hx
    · exact (List.prefix_append c [chr0]).trans (ihl _ x hx)
    · exact (List.prefix_append c [chr1]).trans (ihr _ x hx)

theorem apart_of_branches {c x y : Str} (hx : c ++ [chr0] <+: x) (hy : c ++ [chr1] <+: y) :
    ¬ x <+: y ∧ ¬ y <+: x := by
  have key : ∀ z : Str, c ++ [chr0] <+: z → c ++ [chr1] <+: z → False := by
    intro z h0 h1
    have h := List.prefix_of_prefix_length_le h0 h1 (by simp)
    have e := h.eq_of_length (by simp)
    have e' : chr0 = chr1 := by simpa using List.append_cancel_left e
    exact absurd e' (by decide)
  constructor
  · intro h; exact key y (hx.trans h) hy
  · intro h; exact key x hx (hy.trans h)

theorem pairwise_apart_assign (n : Node) : ∀ c : Str, (assign c n).leaves.Pairwise apart := by
  induction n with
  | leaf a nm cd f => intro c; simp [assign, leaves]
  | internal nm cd f l r ihl ihr =>
    intro c
    simp only [assign, leaves]
    rw [List.pairwise_append]
    refine ⟨ihl _, ihr _, ?_⟩
    intro x hx y hy
    exact apart_of_branches (code_of_mem_leaves_assign l _ x hx) (code_of_mem_leaves_assign r _ y hy)

theorem code_ne_nil_of_internal (n : Node) (h : n.isLeaf = false) (c : Str) (x : Node)
    (hx : x ∈ (assign c n).leaves) : x.code ≠ [] := by
  cases n with
  | leaf a nm cd f => simp at h
  | internal nm cd f l r =>
    simp only [assign, leaves, List.mem_append] at hx
    intro e
    rcases hx with hx | hx
    · have := code_of_mem_leaves_assign l _ x hx
      rw [e] at this
      simp at this
    · have := code_of_mem_leaves_assign r _ x hx
      rw [e] at this
      simp at this

end Node

theorem apart_symm {a b : Node} (h : apart a b) : apart b a := ⟨h.2, h.1⟩

theorem apart_ne {a b : Node} (h : apart a b) : a.code ≠ b.code := by
  intro e
  exact h.1 (e ▸ List.prefix_refl _)

/-! ## The serialized tree -/

set_option maxRecDepth 100000 in
theorem charToByte_eq_bits8 (c : CChar) : charToByte c = bits8 c.val := by
  revert c; decide

theorem length_bits8 (n : Nat) : (bits8 n).length = 8 := by simp [bits8]

theorem foldl_append_eq_flatMap {α : Type} (f : α → Str) (l : List α) (init : Str) :
    l.foldl (fun code n => code ++ f n) init = init ++ l.flatMap f := by
  induction l generalizing init with
  | nil => simp
  | cons x l ih => simp [List.foldl_cons, ih, List.flatMap_cons]

theorem encodeNode_leaf (a : Nat) (n c : Str) (f : Nat) :
    Tree.encodeNode (Node.leaf a n c f) = chr1 :: symbolBits n := by
  unfold Tree.encodeNode symbolBits
  by_cases h : n = EOF
  · simp [h]
  · simp only [Node.isLeaf_leaf, if_true, Node.name_leaf, ne_eq, h, not_false_eq_true, if_false,
      charToByte_eq_bits8]

theorem encodeNode_internal (n c : Str) (f : Nat) (l r : Node) :
    Tree.encodeNode (Node.internal n c f l r) = [chr0] := rfl

namespace Node

theorem flatMap_encodeNode_nodes (n : Node) : n.nodes.flatMap Tree.encodeNode = n.serial := by
  induction n with
  | leaf a nm cd f => simp [nodes, serial, List.flatMap_cons, encodeNode_leaf]
  | internal nm cd f l r ihl ihr =>
    simp [nodes, serial, List.flatMap_append, ihl, ihr, List.flatMap_cons, encodeNode_internal]

@[simp] theorem serial_assign (n : Node) : ∀ c : Str, (assign c n).serial = n.serial := by
  induction n with
  | leaf a nm cd f => intro c; rfl
  | internal nm cd f l r ihl ihr => intro c; simp [assign, serial, ihl, ihr]

@[simp] theorem length_leaves_assign (n : Node) (c : Str) :
    (assign c n).leaves.length = n.leaves.length := by
  have := congrArg List.length (map_addr_leaves_assign n c)
  simpa using this

theorem length_symbolBits (nm : Str) : (symbolBits nm).length = 8 := by
  unfold symbolBits; split <;> simp [length_bits8]

theorem length_serial (n : Node) : n.serial.length + 1 = 10 * n.leaves.length := by
  induction n with
  | leaf a nm cd f => simp [serial, leaves, length_symbolBits]
  | internal nm cd f l r ihl ihr =>
    simp only [serial, leaves, List.length_append, List.length_singleton]
    omega

end Node

namespace Tree

theorem addr_writeBack (T : List Node) (m : Node) : (writeBack T m).addr = m.addr := by
  unfold writeBack
  cases h : T.find? (fun n => n.isLeaf && decide (n.addr = m.addr)) with
  | none => rfl
  | some n =>
    have := List.find?_some h
    simp only [Bool.and_eq_true, decide_eq_true_eq] at this
    exact this.2

theorem writeBack_idem (T : List Node) (m : Node) : writeBack T (writeBack T m) = writeBack T m := by
  have ha := addr_writeBack T m
  cases h : T.find? (fun n => n.isLeaf && decide (n.addr = m.addr)) with
  | none =>
    have e : writeBack T m = m := by unfold writeBack; rw [h]
    rw [e, e]
  | some n =>
    have e : writeBack T m = n := by unfold writeBack; rw [h]
    have e2 : writeBack T n = n := by
      unfold writeBack
      rw [e] at ha
      rw [ha, h]
    rw [e, e2]

/-- The `postOrder()` call of a finished tree assigns the codes it already has. -/
theorem postOrder_built (fs : List Node) (r : Node) :
    (built fs r).postOrder = .ok ((Node.assign [] r).nodes, built fs r) := by
  simp only [postOrder, built, Node.postOrder_eq, Node.assign_assign, List.nil_append,
    List.map_map]
  congr 3
  apply List.map_congr_left
  intro m _
  exact writeBack_idem _ m

/-- The serialized tree: the leaf count as one byte, then the nodes in postorder. -/
theorem Encode_built (fs : List Node) (r : Node) :
    (built fs r).Encode
      = .ok (charToByte (Fin.ofNat r.leaves.length) ++ r.serial, built fs r) := by
  simp only [Encode, postOrder_built, foldl_append_eq_flatMap, List.nil_append,
    Node.filter_isLeaf_nodes, Node.flatMap_encodeNode_nodes, Node.serial_assign,
    Node.length_leaves_assign]

end Tree

/-! ## The stream encoder -/

theorem padLoop_eq : ∀ (fuel : Nat) (bits : Str), (8 - bits.length % 8) % 8 ≤ fuel →
    padLoop fuel bits = bits ++ List.replicate ((8 - bits.length % 8) % 8) chr0 := by
  intro fuel
  induction fuel with
  | zero =>
    intro bits h
    have h0 : (8 - bits.length % 8) % 8 = 0 := by omega
    simp [padLoop, h0]
  | succ k ih =>
    intro bits h
    by_cases hz : bits.length % 8 = 0
    · simp [padLoop, hz]
    · have hlen : (bits ++ [chr0]).length = bits.length + 1 := by simp
      have e : (8 - bits.length % 8) % 8 = (8 - (bits ++ [chr0]).length % 8) % 8 + 1 := by
        rw [hlen]; omega
      simp only [padLoop, ne_eq, hz, not_false_eq_true, if_true]
      rw [ih (bits ++ [chr0]) (by omega), e, List.replicate_succ, List.append_assoc]
      rfl

theorem writeLoop_count : ∀ (bits : Str) (i : Nat) (byte : Str) (acc : Str × Nat),
    (writeLoop i bits byte acc).2 = acc.2 + ((i + bits.length) / 8 - i / 8) := by
  intro bits
  induction bits with
  | nil => intro i byte acc; simp [writeLoop]
  | cons b rest ih =>
    intro i byte acc
    simp only [writeLoop, List.length_cons]
    split
    · rw [ih]; simp only; omega
    · rw [ih]; omega

namespace Tree

theorem contains_of_find {t : Tree} {name : Str} {n : Node}
    (h : t.freqs.find? (fun n => decide (n.name = name)) = some n) :
    t.contains name = (n, t) := by
  unfold contains; rw [h]

theorem codeOf_of_find {t : Tree} {name : Str} {n : Node}
    (h : t.freqs.find? (fun n => decide (n.name = name)) = some n) :
    t.codeOf name = n.code := by
  unfold codeOf; rw [h]

theorem find_of_mem_names {t : Tree} {name : Str} (h : name ∈ t.freqs.map Node.name) :
    ∃ n, t.freqs.find? (fun n => decide (n.name = name)) = some n ∧ n ∈ t.freqs ∧ n.name = name := by
  cases hf : t.freqs.find? (fun n => decide (n.name = name)) with
  | none =>
    rw [List.find?_eq_none] at hf
    obtain ⟨n, hn, hnn⟩ := List.mem_map.1 h
    exact absurd (by simpa using hnn) (hf n hn)
  | some n =>
    exact ⟨n, rfl, List.mem_of_find?_eq_some hf, by simpa using List.find?_some hf⟩

theorem codeOf_of_mem {t : Tree} (hnd : (t.freqs.map Node.name).Nodup) {n : Node}
    (hn : n ∈ t.freqs) : t.codeOf n.name = n.code := by
  have h := find_unique Node.name t.freqs hnd n hn
  exact codeOf_of_find h

end Tree

theorem encodeChars_eq (t : Tree) : ∀ (S : Str) (bits : Str),
    (∀ c ∈ S, [c] ∈ t.freqs.map Node.name) →
    encodeChars S t bits = (bits ++ S.flatMap (fun c => t.codeOf [c]), t) := by
  intro S
  induction S with
  | nil => intro bits _; simp [encodeChars]
  | cons c S ih =>
    intro bits h
    obtain ⟨n, hn, _, _⟩ := Tree.find_of_mem_names (h c (List.mem_cons_self _ _))
    simp only [encodeChars, Tree.contains_of_find hn]
    rw [ih _ (fun d hd => h d (List.mem_cons_of_mem _ hd))]
    simp [List.flatMap_cons, Tree.codeOf_of_find hn]

/-- The bit string and the byte count of `encode`, for a tree that holds a leaf
for every byte of the input and for `EOF`. -/
theorem encode_eq (t : Tree) (enc : Str) (S : Str) (hE : t.Encode = .ok (enc, t))
    (hS : ∀ c ∈ S, [c] ∈ t.freqs.map Node.name) (hEOF : EOF ∈ t.freqs.map Node.name) :
    ∃ e, encode S t = .ok e ∧
      e.fileBits = (enc ++ S.flatMap (fun c => t.codeOf [c]) ++ t.codeOf EOF)
        ++ List.replicate ((8 - (enc ++ S.flatMap (fun c => t.codeOf [c]) ++ t.codeOf EOF).length % 8) % 8) chr0 ∧
      e.encodedSize = e.fileBits.length / 8 ∧
      e.output = (writeLoop 0 e.fileBits [] ([], 0)).1 := by
  obtain ⟨n, hn, _, _⟩ := Tree.find_of_mem_names hEOF
  have hen : encode S t = .ok
      { fileBits := padLoop 8 (enc ++ S.flatMap (fun c => t.codeOf [c]) ++ n.code),
        output := (writeLoop 0 (padLoop 8 (enc ++ S.flatMap (fun c => t.codeOf [c]) ++ n.code))
          [] ([], 0)).1,
        encodedSize := (writeLoop 0 (padLoop 8 (enc ++ S.flatMap (fun c => t.codeOf [c]) ++ n.code))
          [] ([], 0)).2 } := by
    simp only [encode, hE, encodeChars_eq t S enc hS, Tree.contains_of_find hn]
  refine ⟨_, hen, ?_, ?_, rfl⟩
  · simp only
    rw [padLoop_eq 8 _ (by omega), Tree.codeOf_of_find hn]
  · simp only [writeLoop_count]
    omega

/-! ## The tree built from an input -/

/-- The tree `makeTree` returns for the bytes `S`, with the facts the properties
below rest on: `r` is the root left by the merge loop. -/
theorem makeTree_facts (srt : StdSort) (S : Str) :
    ∃ r, makeTree srt S = .ok (Tree.built (leavesFrom 0 (table S)) r) ∧
      r.leaves.Perm (leavesFrom 0 (table S)) ∧
      (1 ≤ distinct S → r.isLeaf = false) ∧
      r.leaves.length = distinct S + 1 ∧
      (Tree.built (leavesFrom 0 (table S)) r).freqs.Perm (Node.assign [] r).leaves ∧
      (Tree.built (leavesFrom 0 (table S)) r).freqs.map Node.name = (table S).map Prod.fst ∧
      (Tree.built (leavesFrom 0 (table S)) r).freqs.map Node.frequency = (table S).map Prod.snd := by
  obtain ⟨r, hp, hint, hmk⟩ := makeTree_spec srt S
  have hnd := Tree.nodup_addr_leavesFrom 0 (table S)
  refine ⟨r, hmk, hp, hint, ?_, Tree.built_freqs_perm _ r hp hnd, ?_, ?_⟩
  · rw [hp.length_eq, length_leavesFrom, length_table]
  · rw [Tree.built_freqs_name _ r hp hnd, map_name_leavesFrom]
  · rw [Tree.built_freqs_frequency _ r hp hnd, map_frequency_leavesFrom]

set_option maxRecDepth 100000 in
theorem msbValue_bits8 (c : CChar) : msbValue (bits8 c.val) = c.val := by
  revert c; decide

theorem take_8_charToByte_append (c : CChar) (s : Str) : (charToByte c ++ s).take 8 = charToByte c := by
  rw [List.take_append_of_le_length (by rw [charToByte_length])]
  exact List.take_of_length_le (by rw [charToByte_length])

/-! ## Reading the serialized tree -/

theorem strAt_of_drop {enc : Str} {i : Nat} {c : CChar} (rest : Str)
    (h : enc.drop i = c :: rest) : strAt enc i = .ok c := by
  have h1 : (enc.drop i).head? = some c := by rw [h]; rfl
  rw [List.head?_drop] at h1
  unfold strAt
  rw [List.get?_eq_getElem?, h1]

theorem drop_add_of_drop {enc : Str} {i : Nat} (a rest : Str) (h : enc.drop i = a ++ rest) :
    enc.drop (i + a.length) = rest := by
  rw [← List.drop_drop, h, List.drop_left]

theorem lt_length_of_drop {enc : Str} {i : Nat} {c : CChar} {rest : Str}
    (h : enc.drop i = c :: rest) : i < enc.length := by
  by_contra hn
  rw [List.drop_of_length_le (by omega)] at h
  simp at h

theorem nextByteLoop_of_drop (enc : Str) : ∀ (k i : Nat) (acc bs rest : Str),
    enc.drop i = bs ++ rest → bs.length = k → nextByteLoop enc k i acc = .ok (acc ++ bs) := by
  intro k
  induction k with
  | zero =>
    intro i acc bs rest _ hlen
    have : bs = [] := List.length_eq_zero.1 hlen
    simp [nextByteLoop, this]
  | succ k ih =>
    intro i acc bs rest h hlen
    cases bs with
    | nil => simp at hlen
    | cons b bs =>
      have h1 : strAt enc i = .ok b := strAt_of_drop (bs ++ rest) (by simpa using h)
      have h2 : enc.drop (i + 1) = bs ++ rest := by
        have := drop_add_of_drop ([b]) (bs ++ rest) (by simpa using h)
        simpa using this
      simp only [nextByteLoop, h1]
      rw [ih (i + 1) (acc ++ [b]) bs rest h2 (by simpa using hlen)]
      simp

theorem nextByte_of_drop {enc : Str} {i : Nat} {bs : Str} (rest : Str)
    (h : enc.drop i = bs ++ rest) (hlen : bs.length = 8) : nextByte i enc = .ok bs := by
  unfold nextByte
  rw [nextByteLoop_of_drop enc 8 i [] bs rest h hlen]
  simp

theorem decodeLeaf_leaf (enc : Str) (st : DecState) (bits rest : Str)
    (h : enc.drop st.i = chr1 :: (bits ++ rest)) (hlen : bits.length = 8) :
    decodeLeaf enc st = .ok
      { i := st.i + 1 + 8, s := Node.ofName st.freqs.length (decodedName bits) :: st.s,
        freqs := st.freqs ++ [Node.ofName st.freqs.length (decodedName bits)],
        leavesFound := st.leavesFound + 1 } := by
  have h1 := strAt_of_drop _ h
  have h2 : nextByte (st.i + 1) enc = .ok bits := by
    apply nextByte_of_drop rest _ hlen
    have := drop_add_of_drop ([chr1]) (bits ++ rest) (by simpa using h)
    simpa using this
  simp only [decodeLeaf, h1, if_true, h2, decodedName]

theorem decodeLeaf_other {enc : Str} {st : DecState} {c : CChar} {rest : Str}
    (h : enc.drop st.i = c :: rest) (hc : c ≠ chr1) : decodeLeaf enc st = .ok st := by
  simp only [decodeLeaf, strAt_of_drop _ h, hc, if_false]

theorem decodeInternal_node {enc : Str} {st st1 : DecState} {rest : Str}
    (h : enc.drop st.i = chr0 :: rest) (hs : Tok.node.step st = some st1) :
    decodeInternal enc st = .ok st1 := by
  simp only [decodeInternal, strAt_of_drop _ h, if_true]
  cases hst : st.s with
  | nil => simp [Tok.step, hst] at hs
  | cons n1 tl =>
    cases tl with
    | nil => simp [Tok.step, hst] at hs
    | cons n2 tl =>
      simp only [Tok.step, hst, Option.some.injEq] at hs
      simp only [hs]

theorem decodeInternal_other {enc : Str} {st : DecState} {c : CChar} {rest : Str}
    (h : enc.drop st.i = c :: rest) (hc : c ≠ chr0) : decodeInternal enc st = .ok st := by
  simp only [decodeInternal, strAt_of_drop _ h, hc, if_false]

theorem step_node_i {st st1 : DecState} (hs : Tok.node.step st = some st1) : st1.i = st.i + 1 := by
  cases hst : st.s with
  | nil => simp [Tok.step, hst] at hs
  | cons n1 tl =>
    cases tl with
    | nil => simp [Tok.step, hst] at hs
    | cons n2 tl =>
      simp only [Tok.step, hst, Option.some.injEq] at hs
      rw [← hs]

/-- The loop of `decodeTree` follows the entries of a well-formed serialization,
one or two entries a pass, and stops behind the last one. -/
theorem decodeTreeLoop_of_runs (enc : Str) (numLeaves : Nat) : ∀ (fuel : Nat) (ts : List Tok)
    (st fin : DecState) (post : Str),
    enc.drop st.i = ts.flatMap Tok.render ++ post → Runs numLeaves ts st fin →
    ts.length + 1 ≤ fuel → decodeTreeLoop enc numLeaves fuel st = some (.ok fin) := by
  intro fuel
  induction fuel with
  | zero => intro ts st fin post _ _ h; omega
  | succ k ih =>
    intro ts st fin post hd hr hf
    match ts, hd, hr, hf with
    | [], _, hr, _ =>
      simp only [Runs] at hr
      simp only [decodeTreeLoop, hr.1, if_false, hr.2]
    | Tok.node :: ts, hd, hr, hf =>
      simp only [Runs] at hr
      obtain ⟨hc, st1, hs, hr1⟩ := hr
      have hd' : enc.drop st.i = chr0 :: (ts.flatMap Tok.render ++ post) := by
        simpa [List.flatMap_cons, Tok.render] using hd
      have hb : decodeTreeBody enc st = .ok st1 := by
        have hlt := lt_length_of_drop hd'
        simp only [decodeTreeBody, Nat.not_lt.2 (Nat.le_of_lt hlt), if_false,
          decodeLeaf_other hd' (by decide), decodeInternal_node hd' hs]
      have hd1 : enc.drop st1.i = ts.flatMap Tok.render ++ post := by
        rw [step_node_i hs]
        have := drop_add_of_drop ([chr0]) (ts.flatMap Tok.render ++ post)
          (by simpa using hd')
        simpa using this
      simp only [decodeTreeLoop, hc, if_true, hb]
      exact ih ts st1 fin post hd1 hr1 (by simp only [List.length_cons] at hf; omega)
    | Tok.leaf bits :: ts, hd, hr, hf =>
      simp only [Runs] at hr
      obtain ⟨hc, hlen, hne, st1, hs, hr1⟩ := hr
      have hd' : enc.drop st.i = chr1 :: (bits ++ (ts.flatMap Tok.render ++ post)) := by
        simpa [List.flatMap_cons, Tok.render] using hd
      have hlt := lt_length_of_drop hd'
      simp only [Tok.step, Option.some.injEq] at hs
      have hl := decodeLeaf_leaf _ _ _ _ hd' hlen
      rw [hs] at hl
      have hd1 : enc.drop st1.i = ts.flatMap Tok.render ++ post := by
        rw [← hs]
        have := drop_add_of_drop (chr1 :: bits) (ts.flatMap Tok.render ++ post)
          (by simpa using hd')
        simpa [hlen, Nat.add_assoc] using this
      match ts, hne, hr1, hd1, hf with
      | Tok.leaf bits2 :: ts2, _, hr1, hd1, hf =>
        have hd2 : enc.drop st1.i = chr1 :: (bits2 ++ (ts2.flatMap Tok.render ++ post)) := by
          simpa [List.flatMap_cons, Tok.render] using hd1
        have hb : decodeTreeBody enc st = .ok st1 := by
          simp only [decodeTreeBody, Nat.not_lt.2 (Nat.le_of_lt hlt), if_false, hl,
            decodeInternal_other hd2 (by decide)]
        simp only [decodeTreeLoop, hc, if_true, hb]
        exact ih _ st1 fin post hd1 hr1 (by simp only [List.length_cons] at hf ⊢; omega)
      | Tok.node :: ts2, _, hr1, hd1, hf =>
        simp only [Runs] at hr1
        obtain ⟨_, st2, hs2, hr2⟩ := hr1
        have hd2 : enc.drop st1.i = chr0 :: (ts2.flatMap Tok.render ++ post) := by
          simpa [List.flatMap_cons, Tok.render] using hd1
        have hb : decodeTreeBody enc st = .ok st2 := by
          simp only [decodeTreeBody, Nat.not_lt.2 (Nat.le_of_lt hlt), if_false, hl,
            decodeInternal_node hd2 hs2]
        have hd3 : enc.drop st2.i = ts2.flatMap Tok.render ++ post := by
          rw [step_node_i hs2]
          have := drop_add_of_drop ([chr0]) (ts2.flatMap Tok.render ++ post)
            (by simpa using hd2)
          simpa using this
        simp only [decodeTreeLoop, hc, if_true, hb]
        exact ih _ st2 fin post hd3 hr2 (by simp only [List.length_cons] at hf ⊢; omega)

/-! ## Deserializing a serialized tree -/

namespace Node

theorem serial_eq_toks (n : Node) : n.serial = n.toks.flatMap Tok.render := by
  induction n with
  | leaf a nm cd f => simp [serial, toks, List.flatMap_cons, Tok.render]
  | internal nm cd f l r ihl ihr =>
    simp [serial, toks, List.flatMap_append, ihl, ihr, List.flatMap_cons, Tok.render]

theorem length_toks (n : Node) : n.toks.length + 1 = 2 * n.leaves.length := by
  induction n with
  | leaf a nm cd f => simp [toks, leaves]
  | internal nm cd f l r ihl ihr =>
    simp only [toks, leaves, List.length_append, List.length_singleton]
    omega

@[simp] theorem leaves_ofChildren (l r : Node) : (ofChildren l r).leaves = l.leaves ++ r.leaves := rfl

@[simp] theorem length_leaves_rebuild (n : Node) : ∀ k : Nat,
    (rebuild k n).leaves.length = n.leaves.length := by
  induction n with
  | leaf a nm cd f => intro k; simp [rebuild, ofName, leaves]
  | internal nm cd f l r ihl ihr => intro k; simp [rebuild, leaves, ihl, ihr]

theorem toks_ne_nil (n : Node) : n.toks ≠ [] := by
  cases n <;> simp [toks]

end Node

theorem step_leaf_after (a : Nat) (nm cd : Str) (f : Nat) (st : DecState) :
    (Tok.leaf (symbolBits nm)).step st = some (st.after (Node.leaf a nm cd f)) := by
  simp only [Tok.step, DecState.after, Node.serial, Node.rebuild, Node.leaves, Node.ofName,
    List.length_cons, Node.length_symbolBits, List.length_singleton, List.length_nil]

theorem step_node_after (nm cd : Str) (f : Nat) (l r : Node) (st : DecState) :
    Tok.node.step ((st.after l).after r) = some (st.after (Node.internal nm cd f l r)) := by
  simp only [Tok.step, DecState.after, Node.serial, Node.rebuild, Node.leaves,
    List.length_append, Node.length_leaves_rebuild, List.length_singleton,
    Node.leaves_ofChildren, List.append_assoc, Nat.add_assoc]

theorem runs_tree (numLeaves : Nat) (n : Node) : ∀ (st fin : DecState) (ts : List Tok),
    st.leavesFound + n.leaves.length ≤ numLeaves → ts ≠ [] →
    Runs numLeaves ts (st.after n) fin → Runs numLeaves (n.toks ++ ts) st fin := by
  induction n with
  | leaf a nm cd f =>
    intro st fin ts hle hne hr
    simp only [Node.leaves, List.length_singleton] at hle
    simp only [Node.toks, List.singleton_append, Runs]
    exact ⟨Or.inl (by omega), Node.length_symbolBits nm, hne, _, step_leaf_after a nm cd f st, hr⟩
  | internal nm cd f l r ihl ihr =>
    intro st fin ts hle hne hr
    simp only [Node.leaves, List.length_append] at hle
    have e : (Node.internal nm cd f l r).toks ++ ts = l.toks ++ (r.toks ++ (Tok.node :: ts)) := by
      simp [Node.toks]
    rw [e]
    apply ihl st fin _ (by omega) (by simp)
    apply ihr (st.after l) fin _ (by simp only [DecState.after]; omega) (by simp)
    simp only [Runs]
    refine ⟨Or.inr (by simp [DecState.after]), _, step_node_after nm cd f l r st, hr⟩

/-- The entries of a tree with at least two leaves take the loop from its start to
the state that holds the rebuilt tree alone on the stack. -/
theorem runs_root (nm cd : Str) (f : Nat) (l r : Node) (i : Nat) :
    Runs (Node.internal nm cd f l r).leaves.length (Node.internal nm cd f l r).toks
      { i := i, s := [], freqs := [], leavesFound := 0 }
      (DecState.after (Node.internal nm cd f l r) { i := i, s := [], freqs := [], leavesFound := 0 }) := by
  have e : (Node.internal nm cd f l r).toks = l.toks ++ (r.toks ++ [Tok.node]) := by
    simp [Node.toks]
  rw [e]
  apply runs_tree _ l _ _ _ (by simp [Node.leaves]) (by simp)
  apply runs_tree _ r _ _ _ (by simp [Node.leaves, DecState.after]) (by simp)
  simp only [Runs]
  refine ⟨Or.inr (by simp [DecState.after]), _, step_node_after nm cd f l r _, ?_, rfl⟩
  simp [DecState.after, Node.leaves]

theorem decodeTreeEnd_after (r : Node) (i : Nat) :
    decodeTreeEnd (DecState.after r { i := i, s := [], freqs := [], leavesFound := 0 })
      = .ok (Tree.built (r.rebuild 0).leaves (r.rebuild 0)) := by
  simp only [decodeTreeEnd, DecState.after, Tree.postOrder, Node.postOrder_eq, Tree.built,
    List.nil_append, List.length_nil]

theorem val_ofNat_of_le {n : Nat} (h : n ≤ 255) : (Fin.ofNat n : CChar).val = n := by
  simp only [Fin.ofNat, Nat.mod_eq_of_lt (show n < 255 + 1 by omega)]

/-- Deserializing the serialization of a tree with 2 to 255 leaves, whatever
follows it, rebuilds the tree. -/
theorem decodeTree_serial (r : Node) (hint : r.isLeaf = false) (hL : r.leaves.length ≤ 255)
    (post : Str) (fuel : Nat) (hf : 2 * r.leaves.length ≤ fuel) :
    decodeTree fuel (charToByte (Fin.ofNat r.leaves.length) ++ r.serial ++ post)
      = some (.ok (Tree.built (r.rebuild 0).leaves (r.rebuild 0))) := by
  cases r with
  | leaf a nm cd f => simp at hint
  | internal nm cd f l r =>
    have hn : nextByte 0 (charToByte (Fin.ofNat (Node.internal nm cd f l r).leaves.length)
        ++ (Node.internal nm cd f l r).serial ++ post)
        = .ok (charToByte (Fin.ofNat (Node.internal nm cd f l r).leaves.length)) := by
      apply nextByte_of_drop ((Node.internal nm cd f l r).serial ++ post) _
        (charToByte_length _)
      simp
    have hrun := decodeTreeLoop_of_runs
      (charToByte (Fin.ofNat (Node.internal nm cd f l r).leaves.length)
        ++ (Node.internal nm cd f l r).serial ++ post)
      (Node.internal nm cd f l r).leaves.length fuel (Node.internal nm cd f l r).toks
      { i := 8, s := [], freqs := [], leavesFound := 0 } _ post
      (by
        have := @List.drop_left' _ _ ((Node.internal nm cd f l r).serial ++ post) _
          (charToByte_length (Fin.ofNat (Node.internal nm cd f l r).leaves.length))
        rw [← Node.serial_eq_toks]
        simpa using this)
      (runs_root nm cd f l r 8)
      (by have := Node.length_toks (Node.internal nm cd f l r); omega)
    simp only [decodeTree, decodeTreeRun, hn, byteToChar_charToByte, val_ofNat_of_le hL, hrun,
      decodeTreeEnd_after]

/-! ## Decoding the payload -/

theorem decodedName_symbolBits {nm : Str} (h : goodName nm) : decodedName (symbolBits nm) = nm := by
  rcases h with h | ⟨b, hb, h⟩
  · subst h; rfl
  · subst h
    have h1 : ([b] : Str) ≠ EOF := by simp
    have h2 : charToByte b ≠ allOnes := fun e => hb ((charToByte_eq_allOnes b).1 e)
    simp only [symbolBits, h1, if_false, List.headD_cons, ← charToByte_eq_bits8, decodedName, h2,
      byteToChar_charToByte]

theorem decodedName_ne_nil (bits : Str) : decodedName bits ≠ [] := by
  unfold decodedName; split <;> simp

namespace Node

theorem entries_assign_rebuild (n : Node) : ∀ (c : Str) (k : Nat),
    (∀ x ∈ n.leaves, goodName x.name) →
    (assign c (rebuild k n)).leaves.map entry = (assign c n).leaves.map entry := by
  induction n with
  | leaf a nm cd f =>
    intro c k h
    have hg : goodName nm := h (leaf a nm cd f) (by simp [leaves])
    simp [rebuild, ofName, assign, leaves, entry, decodedName_symbolBits hg]
  | internal nm cd f l r ihl ihr =>
    intro c k h
    simp only [leaves, List.mem_append] at h
    simp only [rebuild, ofChildren, assign, leaves, List.map_append]
    rw [ihl _ _ (fun x hx => h x (Or.inl hx)), ihr _ _ (fun x hx => h x (Or.inr hx))]

theorem map_addr_leaves_rebuild (n : Node) : ∀ k : Nat,
    (rebuild k n).leaves.map addr = (List.range' k n.leaves.length).map some := by
  induction n with
  | leaf a nm cd f => intro k; simp [rebuild, ofName, leaves, List.range']
  | internal nm cd f l r ihl ihr =>
    intro k
    simp only [rebuild, leaves_ofChildren, List.map_append, ihl, ihr, leaves, List.length_append]
    rw [← List.map_append, List.range'_append_1, Nat.add_comm r.leaves.length]

theorem nodup_addr_leaves_rebuild (n : Node) (k : Nat) :
    ((rebuild k n).leaves.map addr).Nodup := by
  rw [map_addr_leaves_rebuild]
  exact List.Nodup.map (fun a b h => by simpa using h) (List.nodup_range' _ _)

theorem name_ne_nil_of_mem_leaves_rebuild (n : Node) : ∀ (k : Nat) (x : Node),
    x ∈ (rebuild k n).leaves → x.name ≠ [] := by
  induction n with
  | leaf a nm cd f =>
    intro k x hx
    simp only [rebuild, ofName, leaves, List.mem_singleton] at hx
    subst hx
    exact decodedName_ne_nil _
  | internal nm cd f l r ihl ihr =>
    intro k x hx
    simp only [rebuild, leaves_ofChildren, List.mem_append] at hx
    rcases hx with hx | hx
    · exact ihl _ x hx
    · exact ihr _ x hx

theorem isLeaf_rebuild (n : Node) (k : Nat) : (rebuild k n).isLeaf = n.isLeaf := by
  cases n <;> rfl

theorem length_serial_rebuild (n : Node) (k : Nat) : (rebuild k n).serial.length = n.serial.length := by
  have h1 := length_serial (rebuild k n)
  have h2 := length_serial n
  rw [length_leaves_rebuild] at h1
  omega

end Node

namespace Tree

theorem containsCode_of_mem {t : Tree} (hnd : (t.freqs.map Node.code).Nodup) {x : Node}
    (hx : x ∈ t.freqs) : t.containsCode x.code = x.name := by
  unfold containsCode
  rw [find_unique Node.code t.freqs hnd x hx]

theorem containsCode_of_not_mem {t : Tree} {code : Str} (h : ∀ x ∈ t.freqs, x.code ≠ code) :
    t.containsCode code = [] := by
  unfold containsCode
  have : t.freqs.find? (fun n => decide (n.code = code)) = none := by
    rw [List.find?_eq_none]
    intro x hx
    simpa using h x hx
  rw [this]

theorem nodup_code_of_apart {l : List Node} (h : l.Pairwise apart) : (l.map Node.code).Nodup := by
  rw [List.Nodup, List.pairwise_map]
  exact h.imp (fun hab => apart_ne hab)

end Tree

/-- Bit by bit: no proper beginning of a code is a code, and the whole code
yields its symbol. -/
theorem decodeBytesLoop_code (t : Tree) (hap : t.freqs.Pairwise apart) (x : Node)
    (hx : x ∈ t.freqs) (hname : x.name ≠ []) (rest decoded : Str) :
    ∀ (q p : Str), p ++ q = x.code → q ≠ [] →
      decodeBytesLoop t (q ++ rest) p decoded
        = if x.name = EOF then decoded else decodeBytesLoop t rest [] (decoded ++ x.name) := by
  have hnd := Tree.nodup_code_of_apart hap
  intro q
  induction q with
  | nil => intro p _ h; exact absurd rfl h
  | cons b q ih =>
    intro p hpq _
    by_cases hq : q = []
    · subst hq
      have hc : t.containsCode (p ++ [b]) = x.name := by
        rw [hpq]; exact Tree.containsCode_of_mem hnd hx
      simp only [List.cons_append, List.nil_append, decodeBytesLoop, hc, ne_eq, hname,
        not_false_eq_true, if_true]
      rfl
    · have hc : t.containsCode (p ++ [b]) = [] := by
        apply Tree.containsCode_of_not_mem
        intro y hy hyc
        have hne : y ≠ x := by
          intro e
          rw [e, ← hpq] at hyc
          have := congrArg List.length hyc
          simp only [List.length_append, List.length_cons, List.length_nil] at this
          have : q.length = 0 := by omega
          exact hq (List.length_eq_zero.1 this)
        have hyx := List.Pairwise.forall (fun a b => apart_symm) hap hy hx hne
        apply hyx.1
        rw [hyc, ← hpq]
        exact ⟨q, by simp⟩
      simp only [List.cons_append, decodeBytesLoop, hc, ne_eq, not_true_eq_false, if_false]
      exact ih (p ++ [b]) (by simpa using hpq) hq

/-- The payload of a stream decodes to the symbols whose codes it is made of, up
to the first `EOF` code; what follows that code is ignored. -/
theorem decodeBytesLoop_payload (t : Tree) (hap : t.freqs.Pairwise apart)
    (hne : ∀ x ∈ t.freqs, x.name ≠ [] ∧ x.code ≠ [])
    (code : CChar → Str) (eofCode : Str)
    (hE : ∃ x ∈ t.freqs, x.name = EOF ∧ x.code = eofCode) (pad : Str) :
    ∀ (S : Str) (decoded : Str), (∀ c ∈ S, ∃ x ∈ t.freqs, x.name = [c] ∧ x.code = code c) →
      decodeBytesLoop t (S.flatMap code ++ eofCode ++ pad) [] decoded = decoded ++ S := by
  intro S
  induction S with
  | nil =>
    intro decoded _
    obtain ⟨x, hx, hxn, hxc⟩ := hE
    have := decodeBytesLoop_code t hap x hx (hne x hx).1 pad decoded x.code [] rfl (hne x hx).2
    rw [hxn, hxc] at this
    simpa using this
  | cons c S ih =>
    intro decoded h
    obtain ⟨x, hx, hxn, hxc⟩ := h c (List.mem_cons_self _ _)
    have := decodeBytesLoop_code t hap x hx (hne x hx).1
      (S.flatMap code ++ eofCode ++ pad) decoded x.code [] rfl (hne x hx).2
    have hne' : x.name ≠ EOF := by rw [hxn]; simp
    rw [hxn, hxc] at this
    simp only [List.flatMap_cons, List.append_assoc] at this ⊢
    rw [this, if_neg (by simp)]
    have := ih (decoded ++ [c]) (fun d hd => h d (List.mem_cons_of_mem _ hd))
    simp only [List.append_assoc] at this
    rw [this]
    simp

/-- `decodeBytes` on a stream that starts with the serialization of a tree with 2
to 255 leaves: the payload is decoded with the rebuilt tree. -/
theorem decodeBytes_serial (r : Node) (hint : r.isLeaf = false) (hL : r.leaves.length ≤ 255)
    (payload : Str) (fuel : Nat) (hf : 2 * r.leaves.length ≤ fuel) :
    decodeBytes fuel (charToByte (Fin.ofNat r.leaves.length) ++ r.serial ++ payload)
      = some (.ok (decodeBytesLoop (Tree.built (r.rebuild 0).leaves (r.rebuild 0)) payload [] [])) := by
  have hlen : (charToByte (Fin.ofNat (r.rebuild 0).leaves.length) ++ (r.rebuild 0).serial).length
      = (charToByte (Fin.ofNat r.leaves.length) ++ r.serial).length := by
    simp [charToByte_length, Node.length_serial_rebuild]
  simp only [decodeBytes, decodeTree_serial r hint hL payload fuel hf, Tree.Encode_built, hlen,
    List.drop_left]

/-! ## Round trip -/

namespace Node

theorem sameAs_assign_rebuild (n : Node) : ∀ (c : Str) (k : Nat),
    (∀ x ∈ n.leaves, goodName x.name) → sameAs (assign c (rebuild k n)) (assign c n) := by
  induction n with
  | leaf a nm cd f =>
    intro c k h
    have hg : goodName nm := h (leaf a nm cd f) (by simp [leaves])
    simp [rebuild, ofName, assign, sameAs, decodedName_symbolBits hg]
  | internal nm cd f l r ihl ihr =>
    intro c k h
    simp only [leaves, List.mem_append] at h
    simp only [rebuild, ofChildren, assign, sameAs]
    exact ⟨ihl _ _ (fun x hx => h x (Or.inl hx)), ihr _ _ (fun x hx => h x (Or.inr hx))⟩

end Node

/-- The tree `decodeTree` rebuilds: its `freqs` are its leaves in postorder, with
prefix-free, non-empty codes and non-empty names. -/
theorem built_rebuild_facts (r : Node) (hint : r.isLeaf = false) :
    (Tree.built (r.rebuild 0).leaves (r.rebuild 0)).freqs
        = (Node.assign [] (r.rebuild 0)).leaves ∧
      (Tree.built (r.rebuild 0).leaves (r.rebuild 0)).freqs.Pairwise apart ∧
      ∀ x ∈ (Tree.built (r.rebuild 0).leaves (r.rebuild 0)).freqs, x.name ≠ [] ∧ x.code ≠ [] := by
  have h1 : (Tree.built (r.rebuild 0).leaves (r.rebuild 0)).freqs
      = (Node.assign [] (r.rebuild 0)).leaves :=
    Tree.map_writeBack_leaves _ [] (Node.nodup_addr_leaves_rebuild r 0)
  refine ⟨h1, ?_, ?_⟩
  · rw [h1]; exact Node.pairwise_apart_assign _ _
  · rw [h1]
    intro x hx
    constructor
    · have hm : x.name ∈ (Node.assign [] (r.rebuild 0)).leaves.map Node.name :=
        List.mem_map_of_mem _ hx
      rw [Node.map_name_leaves_assign] at hm
      obtain ⟨y, hy, hyn⟩ := List.mem_map.1 hm
      rw [← hyn]
      exact Node.name_ne_nil_of_mem_leaves_rebuild r 0 y hy
    · exact Node.code_ne_nil_of_internal _ (by rw [Node.isLeaf_rebuild]; exact hint) [] x hx

theorem goodName_of_table (S : Str) (hFF : (255 : CChar) ∉ S) (r : Node)
    (hp : r.leaves.Perm (leavesFrom 0 (table S))) : ∀ x ∈ r.leaves, goodName x.name := by
  intro x hx
  have hm : x.name ∈ (leavesFrom 0 (table S)).map Node.name :=
    List.mem_map_of_mem _ (hp.subset hx)
  rw [map_name_leavesFrom, mem_keys_table] at hm
  rcases hm with h | ⟨c, hc, h⟩
  · exact Or.inl h
  · exact Or.inr ⟨c, fun e => hFF (e ▸ hc), h⟩

theorem one_le_distinct {S : Str} (hne : S ≠ []) : 1 ≤ distinct S := by
  cases S with
  | nil => exact absurd rfl hne
  | cons c S =>
    unfold distinct
    have : c ∈ (c :: S).dedup := List.mem_dedup.2 (List.mem_cons_self _ _)
    exact List.length_pos_of_mem this

/-- A leaf of the rebuilt tree for every leaf reached through `freqs` of the
built tree, with the same symbol and code. -/
theorem mem_rebuilt_of_mem (fs : List Node) (r : Node)
    (hperm : (Tree.built fs r).freqs.Perm (Node.assign [] r).leaves)
    (hg : ∀ x ∈ r.leaves, goodName x.name) (hint : r.isLeaf = false) (n : Node)
    (hn : n ∈ (Tree.built fs r).freqs) :
    ∃ x ∈ (Tree.built (r.rebuild 0).leaves (r.rebuild 0)).freqs,
      x.name = n.name ∧ x.code = n.code := by
  have h1 : n.entry ∈ (Node.assign [] r).leaves.map Node.entry :=
    List.mem_map_of_mem _ (hperm.subset hn)
  rw [← Node.entries_assign_rebuild r [] 0 hg] at h1
  obtain ⟨x, hx, hxe⟩ := List.mem_map.1 h1
  rw [← (built_rebuild_facts r hint).1] at hx
  simp only [Node.entry, Prod.mk.injEq] at hxe
  exact ⟨x, hx, hxe.1, hxe.2⟩

/-- The core of the round trip: for a non-empty input without the byte 0xFF and
with at most 254 distinct byte values, `decodeBytes` returns the input from the
bit string `encode` builds. -/
theorem round_trip_core (srt : StdSort) (S : Str) (hne : S ≠ []) (hFF : (255 : CChar) ∉ S) (hd : distinct S ≤ 254) :
    ∃ t r e, makeTree srt S = .ok t ∧ t.root = some (Node.assign [] r) ∧
      r.leaves.length = distinct S + 1 ∧
      t.Encode = .ok (charToByte (Fin.ofNat r.leaves.length) ++ r.serial, t) ∧
      encode S t = .ok e ∧
      e.fileBits = (charToByte (Fin.ofNat r.leaves.length) ++ r.serial
          ++ S.flatMap (fun c => t.codeOf [c]) ++ t.codeOf EOF)
        ++ List.replicate ((8 - (charToByte (Fin.ofNat r.leaves.length) ++ r.serial
          ++ S.flatMap (fun c => t.codeOf [c]) ++ t.codeOf EOF).length % 8) % 8) chr0 ∧
      e.encodedSize = e.fileBits.length / 8 ∧
      e.output = (writeLoop 0 e.fileBits [] ([], 0)).1 ∧
      ∀ fuel, 2 * r.leaves.length ≤ fuel → decodeBytes fuel e.fileBits = some (.ok S) := by
  obtain ⟨r, hmk, hp, hint, hlen, hperm, hnames, _⟩ := makeTree_facts srt S
  have hint' := hint (one_le_distinct hne)
  have hg := goodName_of_table S hFF r hp
  have hS : ∀ c ∈ S, [c] ∈ (Tree.built (leavesFrom 0 (table S)) r).freqs.map Node.name := by
    intro c hc
    rw [hnames, mem_keys_table]
    exact Or.inr ⟨c, hc, rfl⟩
  have hEOF : EOF ∈ (Tree.built (leavesFrom 0 (table S)) r).freqs.map Node.name := by
    rw [hnames, mem_keys_table]
    exact Or.inl rfl
  obtain ⟨e, he, hbits, hsize, hout⟩ := encode_eq _ _ S (Tree.Encode_built _ r) hS hEOF
  refine ⟨_, r, e, hmk, rfl, hlen, Tree.Encode_built _ r, he, hbits, hsize, hout, ?_⟩
  intro fuel hf
  obtain ⟨_, hap, hne2⟩ := built_rebuild_facts r hint'
  rw [hbits]
  simp only [List.append_assoc]
  rw [← List.append_assoc (charToByte _) r.serial]
  rw [decodeBytes_serial r hint' (by omega) _ fuel hf]
  have key := decodeBytesLoop_payload (Tree.built (r.rebuild 0).leaves (r.rebuild 0)) hap hne2
    (fun c => (Tree.built (leavesFrom 0 (table S)) r).codeOf [c])
    ((Tree.built (leavesFrom 0 (table S)) r).codeOf EOF)
    (by
      obtain ⟨n, hfind, hn, hnn⟩ := Tree.find_of_mem_names hEOF
      obtain ⟨x, hx, hxn, hxc⟩ := mem_rebuilt_of_mem _ r hperm hg hint' n hn
      exact ⟨x, hx, by rw [hxn, hnn], by rw [hxc, Tree.codeOf_of_find hfind]⟩)
    (List.replicate ((8 - (charToByte (Fin.ofNat r.leaves.length) ++ (r.serial
          ++ (S.flatMap (fun c => (Tree.built (leavesFrom 0 (table S)) r).codeOf [c])
          ++ (Tree.built (leavesFrom 0 (table S)) r).codeOf EOF))).length % 8) % 8) chr0)
    S []
    (by
      intro c hc
      obtain ⟨n, hfind, hn, hnn⟩ := Tree.find_of_mem_names (hS c hc)
      obtain ⟨x, hx, hxn, hxc⟩ := mem_rebuilt_of_mem _ r hperm hg hint' n hn
      exact ⟨x, hx, by rw [hxn, hnn], by
        show x.code = (Tree.built (leavesFrom 0 (table S)) r).codeOf [c]
        rw [hxc, Tree.codeOf_of_find hfind]⟩)
  simp only [List.append_assoc, List.nil_append] at key
  rw [key]

/-! ## Bits and bytes of the compressed file -/

theorem isBits_append {a b : Str} (ha : isBits a) (hb : isBits b) : isBits (a ++ b) := by
  intro c hc
  rcases List.mem_append.1 hc with h | h
  · exact ha c h
  · exact hb c h

theorem isBits_nil : isBits [] := by intro c hc; simp at hc

theorem isBits_replicate (k : Nat) : isBits (List.replicate k chr0) := by
  intro c hc
  exact Or.inl (List.eq_of_mem_replicate hc)

theorem isBits_flatMap {α : Type} (f : α → Str) (l : List α) (h : ∀ a ∈ l, isBits (f a)) :
    isBits (l.flatMap f) := by
  intro c hc
  obtain ⟨a, ha, hca⟩ := List.mem_flatMap.1 hc
  exact h a ha c hca

theorem isBits_bits8 (n : Nat) : isBits (bits8 n) := by
  intro c hc
  simp only [bits8, List.mem_map] at hc
  obtain ⟨k, _, hk⟩ := hc
  rcases Nat.mod_two_eq_zero_or_one (n / 2 ^ (7 - k)) with h | h
  · rw [h] at hk; exact Or.inl hk.symm
  · rw [h] at hk; exact Or.inr hk.symm

theorem isBits_charToByte (c : CChar) : isBits (charToByte c) := by
  rw [charToByte_eq_bits8]; exact isBits_bits8 _

theorem isBits_symbolBits (nm : Str) : isBits (symbolBits nm) := by
  unfold symbolBits
  split
  · intro c hc
    simp only [List.mem_cons, List.mem_singleton, List.not_mem_nil, or_false, or_self] at hc
    exact Or.inr hc
  · rw [← charToByte_eq_bits8]; exact isBits_charToByte _

theorem isBits_serial (n : Node) : isBits n.serial := by
  induction n with
  | leaf a nm cd f =>
    intro c hc
    simp only [Node.serial, List.mem_cons] at hc
    rcases hc with h | h
    · exact Or.inr h
    · exact isBits_symbolBits nm c h
  | internal nm cd f l r ihl ihr =>
    simp only [Node.serial]
    refine isBits_append (isBits_append ihl ihr) ?_
    intro c hc
    simp only [List.mem_singleton] at hc
    exact Or.inl hc

theorem isBits_code_of_mem_leaves_assign (n : Node) : ∀ (c : Str), isBits c →
    ∀ x ∈ (Node.assign c n).leaves, isBits x.code := by
  induction n with
  | leaf a nm cd f =>
    intro c hc x hx
    simp only [Node.assign, Node.leaves, List.mem_singleton] at hx
    subst hx
    exact hc
  | internal nm cd f l r ihl ihr =>
    intro c hc x hx
    simp only [Node.assign, Node.leaves, List.mem_append] at hx
    rcases hx with hx | hx
    · exact ihl _ (isBits_append hc (by intro d hd; simp at hd; exact Or.inl hd)) x hx
    · exact ihr _ (isBits_append hc (by intro d hd; simp at hd; exact Or.inr hd)) x hx

theorem isBits_codeOf (t : Tree) (h : ∀ x ∈ t.freqs, isBits x.code) (nm : Str) :
    isBits (t.codeOf nm) := by
  unfold Tree.codeOf
  cases hf : t.freqs.find? (fun n => decide (n.name = nm)) with
  | none => exact isBits_nil
  | some n => exact h n (List.mem_of_find?_eq_some hf)

/-- Eight characters `0`/`1` packed into a byte and unpacked again. -/
theorem charToByte_byteToChar (s : Str) (hlen : s.length = 8) (hb : isBits s) :
    charToByte (byteToChar s) = s := by
  match s, hlen, hb with
  | [a, b, c, d, e, f, g, h], _, hb =>
    have ha := hb a (by simp)
    have hb' := hb b (by simp)
    have hc := hb c (by simp)
    have hd := hb d (by simp)
    have he := hb e (by simp)
    have hf := hb f (by simp)
    have hg := hb g (by simp)
    have hh := hb h (by simp)
    rcases ha with rfl | rfl <;> rcases hb' with rfl | rfl <;> rcases hc with rfl | rfl <;>
      rcases hd with rfl | rfl <;> rcases he with rfl | rfl <;> rcases hf with rfl | rfl <;>
      rcases hg with rfl | rfl <;> rcases hh with rfl | rfl <;> rfl

theorem writeLoop_flatMap : ∀ (bits : Str) (i : Nat) (byte : Str) (acc : Str × Nat),
    byte.length = i % 8 → isBits (byte ++ bits) → (byte.length + bits.length) % 8 = 0 →
    (writeLoop i bits byte acc).1.flatMap charToByte = acc.1.flatMap charToByte ++ byte ++ bits := by
  intro bits
  induction bits with
  | nil =>
    intro i byte acc hlen _ hz
    have : byte = [] := by
      apply List.length_eq_zero.1
      simp only [List.length_nil, Nat.add_zero] at hz
      omega
    simp [writeLoop, this]
  | cons b rest ih =>
    intro i byte acc hlen hb hz
    simp only [List.length_cons] at hz
    by_cases h7 : i % 8 = 7
    · simp only [writeLoop, h7, if_true]
      have hb8 : isBits (byte ++ [b]) := by
        intro c hc
        apply hb c
        simp only [List.mem_append, List.mem_singleton, List.mem_cons] at hc ⊢
        tauto
      have hrest : isBits ([] ++ rest) := by
        intro c hc
        apply hb c
        simp only [List.nil_append] at hc
        simp [hc]
      rw [ih (i + 1) [] _ (by simp; omega) hrest (by simp; omega)]
      simp only [List.flatMap_append, List.flatMap_cons, List.flatMap_nil, List.append_nil,
        List.append_assoc]
      rw [charToByte_byteToChar (byte ++ [b]) (by simp; omega) hb8]
      simp
    · simp only [writeLoop, h7, if_false]
      rw [ih (i + 1) (byte ++ [b]) acc (by simp; omega) (by simpa using hb) (by simp; omega)]
      simp

/-- Unpacking the bytes `encode` writes gives back its bit string. -/
theorem flatMap_charToByte_output (bits : Str) (hb : isBits bits) (h8 : bits.length % 8 = 0) :
    (writeLoop 0 bits [] ([], 0)).1.flatMap charToByte = bits := by
  have := writeLoop_flatMap bits 0 [] ([], 0) rfl (by simpa using hb) (by simpa using h8)
  simpa using this

/-! ## Supporting facts for the stated properties -/

theorem encodeNode_eq_entryBits (n : Node) : Tree.encodeNode n = entryBits n := by
  cases n with
  | leaf a nm cd f => rw [encodeNode_leaf]; rfl
  | internal nm cd f l r => rfl

theorem serial_eq_flatMap_entryBits (n : Node) : n.serial = n.nodes.flatMap entryBits := by
  rw [← Node.flatMap_encodeNode_nodes]
  congr 1
  funext m
  exact encodeNode_eq_entryBits m

theorem symbolBits_eq_allOnes {nm : Str} (h : goodName nm) : symbolBits nm = allOnes ↔ nm = EOF := by
  constructor
  · intro e
    rcases h with h | ⟨b, hb, h⟩
    · exact h
    · subst h
      have h1 : ([b] : Str) ≠ EOF := by simp
      simp only [symbolBits, h1, if_false, List.headD_cons, ← charToByte_eq_bits8] at e
      exact absurd ((charToByte_eq_allOnes b).1 e) hb
  · intro e; subst e; rfl

theorem nodup_bytesBelow255 : bytesBelow255.Nodup := by
  unfold bytesBelow255
  apply List.Nodup.map_on _ (List.nodup_range 255)
  intro a ha b hb h
  rw [List.mem_range] at ha hb
  have := congrArg Fin.val h
  simp only [Fin.ofNat] at this
  omega

theorem distinct_bytesBelow255 : distinct bytesBelow255 = 255 := by
  unfold distinct
  rw [List.Nodup.dedup nodup_bytesBelow255]
  simp [bytesBelow255]

theorem fileBits_facts (body : Str) :
    (body ++ List.replicate ((8 - body.length % 8) % 8) chr0).length % 8 = 0 ∧
    (8 - body.length % 8) % 8 < 8 ∧
    ∀ j, j < (8 - body.length % 8) % 8 → (body.length + j) % 8 ≠ 0 := by
  refine ⟨?_, by omega, ?_⟩
  · simp only [List.length_append, List.length_replicate]; omega
  · intro j hj; omega

theorem built_freqs_isLeaf (fs : List Node) (r : Node)
    (hperm : (Tree.built fs r).freqs.Perm (Node.assign [] r).leaves) :
    ∀ n ∈ (Tree.built fs r).freqs, n.isLeaf = true :=
  fun _ hn => Node.isLeaf_of_mem_leaves (hperm.subset hn)

theorem built_freqs_isBits (fs : List Node) (r : Node)
    (hperm : (Tree.built fs r).freqs.Perm (Node.assign [] r).leaves) :
    ∀ n ∈ (Tree.built fs r).freqs, isBits n.code :=
  fun n hn => isBits_code_of_mem_leaves_assign r [] isBits_nil n (hperm.subset hn)

/-! ## The symbol table in first-occurrence order -/

theorem mem_firstSeen (S : Str) (x : CChar) : x ∈ firstSeen S ↔ x ∈ S := by
  induction S with
  | nil => simp [firstSeen]
  | cons c S ih =>
    simp only [firstSeen, List.mem_cons, List.mem_filter, ih, ne_eq, decide_not,
      Bool.not_eq_true', decide_eq_false_iff_not]
    by_cases h : x = c
    · simp [h]
    · simp [h]

theorem nodup_firstSeen (S : Str) : (firstSeen S).Nodup := by
  induction S with
  | nil => simp [firstSeen]
  | cons c S ih =>
    simp only [firstSeen, List.nodup_cons, List.mem_filter, ne_eq, decide_not,
      Bool.not_eq_true', decide_eq_false_iff_not, not_true_eq_false, and_false,
      not_false_eq_true, true_and]
    exact ih.filter _

theorem firstSeen_append_singleton (S : Str) (c : CChar) :
    firstSeen (S ++ [c]) = if c ∈ S then firstSeen S else firstSeen S ++ [c] := by
  induction S with
  | nil => simp [firstSeen]
  | cons d S ih =>
    show d :: (firstSeen (S ++ [c])).filter (fun x => decide (x ≠ d))
      = if c ∈ d :: S then firstSeen (d :: S) else firstSeen (d :: S) ++ [c]
    rw [ih]
    by_cases hS : c ∈ S
    · simp [hS, firstSeen]
    · by_cases hd : c = d
      · subst hd
        simp [hS, List.filter_append, firstSeen]
      · simp [hS, hd, List.filter_append, firstSeen]

theorem bumpAssoc_map_of_mem (f : CChar → Nat) (c : CChar) (L : Str) (hnd : L.Nodup)
    (hc : c ∈ L) :
    bumpAssoc [c] (L.map (fun x => ([x], f x)))
      = L.map (fun x => ([x], if x = c then f x + 1 else f x)) := by
  induction L with
  | nil => simp at hc
  | cons x L ih =>
    rw [List.nodup_cons] at hnd
    by_cases hx : x = c
    · subst hx
      simp only [List.map_cons, bumpAssoc, if_true, List.cons.injEq, true_and]
      apply List.map_congr_left
      intro y hy
      have : ¬ y = x := fun e => hnd.1 (e ▸ hy)
      simp [this]
    · have hx' : ¬ ([x] : Str) = [c] := by simpa using hx
      have hcL : c ∈ L := by
        rcases List.mem_cons.1 hc with h | h
        · exact absurd h.symm hx
        · exact h
      simp only [List.map_cons, bumpAssoc, hx', if_false, hx, ih hnd.2 hcL]

theorem bumpAssoc_map_of_not_mem (f : CChar → Nat) (c : CChar) (L : Str) (hc : c ∉ L) :
    bumpAssoc [c] (L.map (fun x => ([x], f x))) = L.map (fun x => ([x], f x)) ++ [([c], 1)] := by
  apply bumpAssoc_of_not_mem
  intro x hx
  obtain ⟨y, hy, rfl⟩ := List.mem_map.1 hx
  intro e
  simp only [List.cons.injEq, and_true] at e
  exact hc (e ▸ hy)

/-- The symbol table of the bytes alone: one entry per distinct byte, in the order
of first occurrence, with the number of occurrences. -/
theorem foldl_bumpAssoc_eq (S : Str) :
    S.foldl (fun l c => bumpAssoc [c] l) [] = (firstSeen S).map (fun x => ([x], S.count x)) := by
  induction S using List.reverseRecOn with
  | nil => simp [firstSeen]
  | append_singleton S c ih =>
    rw [foldl_bumpAssoc_append, ih, firstSeen_append_singleton]
    by_cases hc : c ∈ S
    · rw [if_pos hc, bumpAssoc_map_of_mem _ c _ (nodup_firstSeen S) ((mem_firstSeen S c).2 hc)]
      apply List.map_congr_left
      intro x _
      by_cases hx : x = c
      · subst hx; simp [List.count_append]
      · have hx' : ¬ c = x := fun e => hx e.symm
        simp [hx, hx', List.count_append, List.count_cons]
    · rw [if_neg hc, bumpAssoc_map_of_not_mem _ c _ (fun h => hc ((mem_firstSeen S c).1 h))]
      rw [List.map_append]
      congr 1
      · apply List.map_congr_left
        intro x hx
        have hxc : ¬ c = x := fun e => hc (e ▸ (mem_firstSeen S x).1 hx)
        simp [List.count_append, List.count_cons, hxc]
      · simp [List.count_append, List.count_eq_zero_of_not_mem hc]

theorem table_eq (S : Str) :
    table S = (firstSeen S).map (fun x => ([x], S.count x)) ++ [(EOF, 1)] := by
  unfold table
  rw [foldl_bumpAssoc_eq]
  apply bumpAssoc_of_not_mem
  intro x hx
  obtain ⟨y, _, rfl⟩ := List.mem_map.1 hx
  simp

theorem countingPass_eq (S : Str) : countingPass S = Tree.counting (table S) := by
  have h := Tree.foldl_addChar_counting S []
  unfold countingPass
  show Tree.addChar (S.foldl (fun t c => t.addChar [c]) (Tree.counting [])) EOF = _
  rw [h, Tree.addChar_counting]
  rfl

theorem makeTree_eq_countingPass (srt : StdSort) (S : Str) : makeTree srt S = (countingPass S).Huffman srt := rfl

/-! ## The merge loop, pass by pass -/

namespace Tree

theorem huffmanLoop_succ (fuel : Nat) (l : List Node) :
    huffmanLoop (fuel + 1) l = huffmanLoop fuel (mergeStep l) := by
  match l with
  | [] => cases fuel <;> rfl
  | [x] => cases fuel <;> rfl
  | a :: b :: rest => rfl

theorem huffmanLoop_eq_afterMerges : ∀ (fuel : Nat) (l : List Node),
    huffmanLoop fuel l = afterMerges fuel l := by
  intro fuel
  induction fuel with
  | zero => intro l; rfl
  | succ k ih => intro l; rw [huffmanLoop_succ, ih]; rfl

theorem mergeStep_cons_cons (a b : Node) (rest : List Node)
    (ha : 1 ≤ a.frequency) (hb : 1 ≤ b.frequency) :
    mergeStep (a :: b :: rest) = insertByFreq (Node.ofChildren a b) rest := by
  show (insertByFreq (Node.ofChildren a b) (a :: b :: rest)).drop 2 = _
  exact insertByFreq_drop_two a b rest ha hb

/-- The merge loop keeps the working list sorted by frequency, with positive
frequencies. -/
theorem mergeStep_sorted (l : List Node)
    (hs : l.Pairwise (fun a b => a.frequency ≤ b.frequency)) (hp : ∀ n ∈ l, 1 ≤ n.frequency) :
    (mergeStep l).Pairwise (fun a b => a.frequency ≤ b.frequency) ∧
      ∀ n ∈ mergeStep l, 1 ≤ n.frequency := by
  match l, hs, hp with
  | [], hs, hp => exact ⟨hs, hp⟩
  | [x], hs, hp => exact ⟨hs, hp⟩
  | a :: b :: rest, hs, hp =>
    have ha := hp a (by simp)
    have hb := hp b (by simp)
    have hrest : rest.Pairwise (fun a b => a.frequency ≤ b.frequency) :=
      (List.pairwise_cons.1 (List.pairwise_cons.1 hs).2).2
    rw [mergeStep_cons_cons a b rest ha hb]
    refine ⟨insertByFreq_sorted _ _ hrest, ?_⟩
    intro n hn
    rcases List.mem_cons.1 ((insertByFreq_perm _ rest).subset hn) with h | h
    · subst h; simp only [Node.ofChildren, Node.frequency_internal]; omega
    · exact hp n (by simp [h])

theorem afterMerges_sorted : ∀ (k : Nat) (l : List Node),
    l.Pairwise (fun a b => a.frequency ≤ b.frequency) → (∀ n ∈ l, 1 ≤ n.frequency) →
    (afterMerges k l).Pairwise (fun a b => a.frequency ≤ b.frequency) ∧
      ∀ n ∈ afterMerges k l, 1 ≤ n.frequency := by
  intro k
  induction k with
  | zero => intro l hs hp; exact ⟨hs, hp⟩
  | succ k ih =>
    intro l hs hp
    obtain ⟨h1, h2⟩ := mergeStep_sorted l hs hp
    exact ih _ h1 h2

theorem afterMerges_succ (k : Nat) (l : List Node) :
    afterMerges (k + 1) l = mergeStep (afterMerges k l) := by
  induction k generalizing l with
  | zero => rfl
  | succ k ih =>
    show afterMerges (k + 1) (mergeStep l) = mergeStep (afterMerges k (mergeStep l))
    exact ih _

/-- Where `insertByFreq` puts the node: behind the nodes of smaller frequency at
the front of the list, before the first node that has at least its frequency. -/
theorem insertByFreq_eq (n : Node) (l : List Node) :
    insertByFreq n l
      = l.takeWhile (fun x => decide (x.frequency < n.frequency))
        ++ n :: l.dropWhile (fun x => decide (x.frequency < n.frequency)) := by
  induction l with
  | nil => rfl
  | cons x xs ih =>
    by_cases h : x.frequency < n.frequency
    · simp [insertByFreq, List.takeWhile_cons, List.dropWhile_cons, h, ih]
    · have h' : ¬ n.frequency > x.frequency := h
      simp [insertByFreq, List.takeWhile_cons, List.dropWhile_cons, h, h']

theorem le_of_mem_dropWhile (n : Node) (l : List Node)
    (hs : l.Pairwise (fun a b => a.frequency ≤ b.frequency)) :
    ∀ x ∈ l.dropWhile (fun x => decide (x.frequency < n.frequency)),
      n.frequency ≤ x.frequency := by
  induction l with
  | nil => intro x hx; simp at hx
  | cons y ys ih =>
    rw [List.pairwise_cons] at hs
    intro x hx
    by_cases h : y.frequency < n.frequency
    · simp only [List.dropWhile_cons, h, decide_True, if_true] at hx
      exact ih hs.2 x hx
    · simp only [List.dropWhile_cons, h, decide_False] at hx
      rcases List.mem_cons.1 hx with e | e
      · subst e; omega
      · have := hs.1 x e; omega

end Tree

theorem countingPass_facts (S : Str) :
    (countingPass S).freqs = leavesFrom 0 (table S) ∧
      (countingPass S).huffList = leavesFrom 0 (table S) := by
  rw [countingPass_eq]; exact ⟨rfl, rfl⟩

theorem workingList_sorted (srt : StdSort) (S : Str) (k : Nat) :
    (workingList srt S k).Pairwise (fun a b => a.frequency ≤ b.frequency) ∧
      ∀ n ∈ workingList srt S k, 1 ≤ n.frequency := by
  unfold workingList
  apply Tree.afterMerges_sorted
  · exact srt.sorted_le _
  · intro n hn
    have hn' := (srt.perm _).subset hn
    rw [(countingPass_facts S).2] at hn'
    have hf : n.frequency ∈ (leavesFrom 0 (table S)).map Node.frequency :=
      List.mem_map_of_mem _ hn'
    rw [map_frequency_leavesFrom] at hf
    obtain ⟨x, hx, hxf⟩ := List.mem_map.1 hf
    rw [← hxf]; exact pos_table S x hx

/-! ## Paths and depths -/

namespace Node

theorem hasPathCodes_assign (n : Node) : ∀ c : Str, hasPathCodes c (assign c n) := by
  induction n with
  | leaf a nm cd f => intro c; rfl
  | internal nm cd f l r ihl ihr => intro c; exact ⟨rfl, ihl _, ihr _⟩

theorem eraseCodes_assign (n : Node) : ∀ c : Str, eraseCodes (assign c n) = eraseCodes n := by
  induction n with
  | leaf a nm cd f => intro c; rfl
  | internal nm cd f l r ihl ihr => intro c; simp [assign, eraseCodes, ihl, ihr]

theorem map_length_code_leaves_assign (n : Node) : ∀ c : Str,
    (assign c n).leaves.map (fun x => x.code.length) = depths c.length n := by
  induction n with
  | leaf a nm cd f => intro c; rfl
  | internal nm cd f l r ihl ihr =>
    intro c
    simp [assign, leaves, depths, ihl, ihr]

theorem isLeaf_of_length_leaves {n : Node} (h : n.leaves.length = 1) : n.isLeaf = true := by
  cases n with
  | leaf a nm cd f => rfl
  | internal nm cd f l r =>
    simp only [leaves, List.length_append] at h
    have h1 := List.length_pos.2 (leaves_ne_nil l)
    have h2 := List.length_pos.2 (leaves_ne_nil r)
    omega

end Node

/-! ## One byte repeated -/

theorem firstSeen_replicate (n : Nat) (c : CChar) : firstSeen (List.replicate (n + 1) c) = [c] := by
  induction n with
  | zero => rfl
  | succ k ih =>
    show c :: (firstSeen (List.replicate (k + 1) c)).filter (fun d => decide (d ≠ c)) = [c]
    rw [ih]
    simp

theorem table_replicate (n : Nat) (c : CChar) :
    table (List.replicate (n + 1) c) = [([c], n + 1), (EOF, 1)] := by
  rw [table_eq, firstSeen_replicate]
  simp [List.count_replicate_self]

theorem distinct_replicate (n : Nat) (c : CChar) : distinct (List.replicate (n + 1) c) = 1 := by
  have h := length_table (List.replicate (n + 1) c)
  rw [table_replicate] at h
  simp only [List.length_cons, List.length_nil] at h
  omega

theorem length_flatMap_replicate (n : Nat) (c : CChar) (f : CChar → Str) :
    ((List.replicate n c).flatMap f).length = n * (f c).length := by
  induction n with
  | zero => simp
  | succ k ih =>
    rw [List.replicate_succ, List.flatMap_cons, List.length_append, ih]
    rw [Nat.succ_mul]; omega

/-- In a tree with two leaves both codes are one bit long. -/
theorem length_code_of_two_leaves (r : Node) (h2 : r.leaves.length = 2) :
    ∀ x ∈ (Node.assign [] r).leaves, x.code.length = 1 := by
  cases r with
  | leaf a nm cd f => simp [Node.leaves] at h2
  | internal nm cd f l r =>
    simp only [Node.leaves, List.length_append] at h2
    have h1 := List.length_pos.2 (Node.leaves_ne_nil l)
    have h3 := List.length_pos.2 (Node.leaves_ne_nil r)
    have hl := Node.isLeaf_of_length_leaves (show l.leaves.length = 1 by omega)
    have hr := Node.isLeaf_of_length_leaves (show r.leaves.length = 1 by omega)
    cases l with
    | internal _ _ _ _ _ => simp at hl
    | leaf a1 n1 c1 f1 =>
      cases r with
      | internal _ _ _ _ _ => simp at hr
      | leaf a2 n2 c2 f2 =>
        intro x hx
        simp only [Node.assign, Node.leaves, List.nil_append, List.singleton_append,
          List.mem_cons, List.mem_singleton, List.not_mem_nil, or_false] at hx
        rcases hx with rfl | rfl <;> rfl

/-- The tree and the output size for `n + 1` copies of the byte `c`. -/
theorem replicate_facts (srt : StdSort) (n : Nat) (c : CChar) :
    ∃ t r e, makeTree srt (List.replicate (n + 1) c) = .ok t ∧ t.root = some r ∧
      r.leaves.length = 2 ∧ t.freqs.map Node.name = [[c], EOF] ∧
      t.freqs.map Node.frequency = [n + 1, 1] ∧
      (∀ x ∈ r.leaves, x.code.length = 1) ∧ (∀ x ∈ t.freqs, x.code.length = 1) ∧
      encode (List.replicate (n + 1) c) t = .ok e ∧
      e.fileBits.length = 8 * ((n + 1 + 28 + 7) / 8) ∧
      e.encodedSize = (n + 1 + 28 + 7) / 8 := by
  obtain ⟨r, hmk, _, _, hlen, hperm, hnames0, hfreq0⟩ := makeTree_facts srt (List.replicate (n + 1) c)
  rw [distinct_replicate] at hlen
  have hnames : (Tree.built (leavesFrom 0 (table (List.replicate (n + 1) c))) r).freqs.map
      Node.name = [[c], EOF] := by
    rw [hnames0, table_replicate]; rfl
  have hfreq : (Tree.built (leavesFrom 0 (table (List.replicate (n + 1) c))) r).freqs.map
      Node.frequency = [n + 1, 1] := by
    rw [hfreq0, table_replicate]; rfl
  have hc := length_code_of_two_leaves r hlen
  have hcf : ∀ x ∈ (Tree.built (leavesFrom 0 (table (List.replicate (n + 1) c))) r).freqs,
      x.code.length = 1 := fun x hx => hc x (hperm.subset hx)
  have hS : ∀ d ∈ List.replicate (n + 1) c,
      [d] ∈ (Tree.built (leavesFrom 0 (table (List.replicate (n + 1) c))) r).freqs.map Node.name := by
    intro d hd
    rw [List.eq_of_mem_replicate hd, hnames]
    simp
  have hEOF : EOF ∈ (Tree.built (leavesFrom 0 (table (List.replicate (n + 1) c))) r).freqs.map
      Node.name := by
    rw [hnames]; simp
  obtain ⟨e, he, hbits, hsize, _⟩ := encode_eq _ _ _ (Tree.Encode_built _ r) hS hEOF
  have hcode : ∀ nm, nm ∈ (Tree.built (leavesFrom 0 (table (List.replicate (n + 1) c))) r).freqs.map
      Node.name → ((Tree.built (leavesFrom 0 (table (List.replicate (n + 1) c))) r).codeOf
        nm).length = 1 := by
    intro nm hnm
    obtain ⟨x, hfind, hx, _⟩ := Tree.find_of_mem_names hnm
    rw [Tree.codeOf_of_find hfind]
    exact hcf x hx
  have hbody : (charToByte (Fin.ofNat r.leaves.length) ++ r.serial
      ++ (List.replicate (n + 1) c).flatMap
        (fun d => (Tree.built (leavesFrom 0 (table (List.replicate (n + 1) c))) r).codeOf [d])
      ++ (Tree.built (leavesFrom 0 (table (List.replicate (n + 1) c))) r).codeOf EOF).length
      = n + 1 + 28 := by
    have hs := Node.length_serial r
    simp only [List.length_append, charToByte_length, length_flatMap_replicate,
      hcode _ (hS c (List.mem_replicate.2 ⟨by omega, rfl⟩)), hcode _ hEOF]
    omega
  have hlenbits : e.fileBits.length = 8 * ((n + 1 + 28 + 7) / 8) := by
    rw [hbits, List.length_append, List.length_replicate, hbody]
    omega
  refine ⟨_, _, e, hmk, rfl, ?_, hnames, hfreq, ?_, hcf, he, hlenbits, ?_⟩
  · rw [Node.length_leaves_assign, hlen]
  · exact hc
  · rw [hsize, hlenbits]; omega

/-! ## The root left by the merge loop -/

/-- The merge loop of `Tree::Huffman`, run on the sorted leaves of the symbol
table, leaves exactly one node, the root; its leaves are the leaf objects of
the symbol table. -/
theorem huffman_root (srt : StdSort) (S : Str) :
    ∃ r, Tree.huffmanLoop (srt.run (countingPass S).huffList).length
          (srt.run (countingPass S).huffList) = [r] ∧
      r.leaves.Perm (countingPass S).freqs ∧
      makeTree srt S = .ok (Tree.built (countingPass S).freqs r) := by
  obtain ⟨hfr, hhl⟩ := countingPass_facts S
  rw [hfr, hhl]
  have hperm := srt.perm (leavesFrom 0 (table S))
  obtain ⟨r, hr, hleaves, _, _⟩ := Tree.huffmanLoop_spec
    (srt.run (leavesFrom 0 (table S))).length (srt.run (leavesFrom 0 (table S)))
    (srt.sorted_le _)
    (by
      intro n hn
      have hn' := hperm.subset hn
      have hf : n.frequency ∈ (leavesFrom 0 (table S)).map Node.frequency :=
        List.mem_map_of_mem _ hn'
      rw [map_frequency_leavesFrom] at hf
      obtain ⟨x, hx, hxf⟩ := List.mem_map.1 hf
      rw [← hxf]; exact pos_table S x hx)
    (Nat.le_refl _)
    (by
      intro h
      have := hperm.length_eq
      rw [h, length_leavesFrom, length_table] at this
      simp at this)
  refine ⟨r, hr, ?_, ?_⟩
  · refine hleaves.trans ?_
    refine (List.Perm.flatMap_right _ hperm).trans ?_
    rw [Tree.flatMap_leaves_leavesFrom]
  · rw [makeTree_eq]
    simp only [Tree.Huffman, Tree.counting, hr, Tree.postOrder, Node.postOrder_eq,
      List.nil_append, Tree.built]

theorem nodup_leavesFrom (k : Nat) (l : List (Str × Nat)) : (leavesFrom k l).Nodup :=
  List.Nodup.of_map _ (Tree.nodup_addr_leavesFrom k l)

/-! ## The loop of `decodeTree` on arbitrary bits -/

theorem decodeLeaf_counted {enc : Str} {st st1 : DecState} (h : decodeLeaf enc st = .ok st1)
    (hc : st.counted) : st1.counted ∧ st.leavesFound ≤ st1.leavesFound := by
  unfold decodeLeaf at h
  cases hs : strAt enc st.i with
  | error e => simp [hs] at h
  | ok c =>
    simp only [hs] at h
    by_cases h1 : c = chr1
    · simp only [h1, if_true] at h
      cases hn : nextByte (st.i + 1) enc with
      | error e => simp [hn] at h
      | ok byte =>
        simp only [hn, Except.ok.injEq] at h
        subst h
        obtain ⟨hc1, hc2⟩ := hc
        refine ⟨⟨?_, ?_⟩, Nat.le_succ _⟩
        · simp only [List.flatMap_cons, List.length_append, hc1, Node.ofName, Node.leaves,
            List.length_singleton]
          omega
        · simp only [List.length_append, List.length_singleton, hc2]
    · simp only [h1, if_false, Except.ok.injEq] at h
      subst h
      exact ⟨hc, Nat.le_refl _⟩

theorem decodeInternal_counted {enc : Str} {st st1 : DecState}
    (h : decodeInternal enc st = .ok st1) (hc : st.counted) :
    st1.counted ∧ st.leavesFound ≤ st1.leavesFound := by
  unfold decodeInternal at h
  cases hs : strAt enc st.i with
  | error e => simp [hs] at h
  | ok c =>
    simp only [hs] at h
    by_cases h0 : c = chr0
    · simp only [h0, if_true] at h
      cases hst : st.s with
      | nil => simp [hst] at h
      | cons n1 tl =>
        cases tl with
        | nil => simp [hst] at h
        | cons n2 tl =>
          simp only [hst, Except.ok.injEq] at h
          subst h
          obtain ⟨hc1, hc2⟩ := hc
          rw [hst] at hc1
          refine ⟨⟨?_, hc2⟩, Nat.le_refl _⟩
          simp only [List.flatMap_cons, List.length_append, Node.leaves_ofChildren] at hc1 ⊢
          omega
    · simp only [h0, if_false, Except.ok.injEq] at h
      subst h
      exact ⟨hc, Nat.le_refl _⟩

theorem decodeTreeBody_counted {enc : Str} {st st1 : DecState}
    (h : decodeTreeBody enc st = .ok st1) (hc : st.counted) :
    st1.counted ∧ st.leavesFound ≤ st1.leavesFound := by
  unfold decodeTreeBody at h
  split at h
  · simp at h
  · cases hl : decodeLeaf enc st with
    | error e => simp [hl] at h
    | ok st2 =>
      simp only [hl] at h
      obtain ⟨h1, h2⟩ := decodeLeaf_counted hl hc
      obtain ⟨h3, h4⟩ := decodeInternal_counted h h1
      exact ⟨h3, Nat.le_trans h2 h4⟩

/-- When the loop of `decodeTree` ends, its condition is false and the count of the
leaves is that of the nodes on the stack. -/
theorem decodeTreeLoop_counted (enc : Str) (numLeaves : Nat) : ∀ (fuel : Nat) (st fin : DecState),
    decodeTreeLoop enc numLeaves fuel st = some (.ok fin) → st.counted →
    fin.counted ∧ numLeaves ≤ fin.leavesFound ∧ fin.s.length ≤ 1 := by
  intro fuel
  induction fuel with
  | zero => intro st fin h _; simp [decodeTreeLoop] at h
  | succ k ih =>
    intro st fin h hc
    unfold decodeTreeLoop at h
    split at h
    · cases hb : decodeTreeBody enc st with
      | error e => simp [hb] at h
      | ok st1 =>
        simp only [hb] at h
        exact ih st1 fin h (decodeTreeBody_counted hb hc).1
    · rename_i hcond
      simp only [Option.some.injEq, Except.ok.injEq] at h
      subst h
      exact ⟨hc, by omega, by omega⟩

/-- What a successful `decodeTree` went through: the leaf-count byte, the state at
the end of the loop, and the node on the stack that became the root. -/
theorem decodeTree_ok {fuel : Nat} {b : Str} {t : Tree} (h : decodeTree fuel b = some (.ok t)) :
    ∃ leafByte fin top, nextByte 0 b = .ok leafByte ∧
      decodeTreeLoop b (byteToChar leafByte).val fuel
        { i := 8, s := [], freqs := [], leavesFound := 0 } = some (.ok fin) ∧
      decodeTreeRun fuel b = some (.ok fin) ∧ fin.s = top :: fin.s.tail ∧
      t = { freqs := fin.freqs.map (Tree.writeBack (Node.assign [] top).nodes),
            huffList := [top], root := some (Node.assign [] top) } := by
  unfold decodeTree at h
  cases hr : decodeTreeRun fuel b with
  | none => simp [hr] at h
  | some res =>
    cases res with
    | error e => simp [hr] at h
    | ok fin =>
      simp only [hr, Option.some.injEq] at h
      have hr' := hr
      unfold decodeTreeRun at hr
      cases hn : nextByte 0 b with
      | error e => simp [hn] at hr
      | ok leafByte =>
        simp only [hn] at hr
        unfold decodeTreeEnd at h
        cases hs : fin.s with
        | nil => simp [hs] at h
        | cons top tl =>
          simp only [hs, Tree.postOrder, Node.postOrder_eq, List.nil_append,
            Except.ok.injEq] at h
          exact ⟨leafByte, fin, top, rfl, hr, rfl, by simp [hs], h.symm⟩

theorem Encode_of_root {t : Tree} {r : Node} (h : t.root = some r) :
    ∃ enc t2, t.Encode = .ok (enc, t2) := by
  simp only [Tree.Encode, Tree.postOrder, h]
  exact ⟨_, _, rfl⟩

/-! ## The payload loop on a truncated payload -/

theorem decodeBytesLoop_acc (t : Tree) : ∀ (bits bitCode decoded : Str),
    decodeBytesLoop t bits bitCode decoded = decoded ++ decodeBytesLoop t bits bitCode [] := by
  intro bits
  induction bits with
  | nil => intro bitCode decoded; simp [decodeBytesLoop]
  | cons b rest ih =>
    intro bitCode decoded
    simp only [decodeBytesLoop]
    split
    · split
      · simp
      · rw [ih, ih [] ([] ++ _)]
        simp
    · exact ih _ _

/-- As long as the loop of `decodeBytes` does not meet an `EOF` code, what it has
decoded is the beginning of what it decodes from any longer payload. -/
theorem decodeBytesLoop_append (t : Tree) : ∀ (bits bitCode decoded more : Str),
    decodeBytesBreaks t bits bitCode = false →
    decodeBytesLoop t bits bitCode decoded <+: decodeBytesLoop t (bits ++ more) bitCode decoded := by
  intro bits
  induction bits with
  | nil =>
    intro bitCode decoded more _
    rw [List.nil_append, decodeBytesLoop_acc t more]
    simp [decodeBytesLoop]
  | cons b rest ih =>
    intro bitCode decoded more hb
    simp only [decodeBytesBreaks] at hb
    simp only [List.cons_append, decodeBytesLoop]
    split at hb
    · rename_i h1
      split at hb
      · simp at hb
      · rename_i h2
        rw [if_pos h1, if_pos h1, if_neg h2, if_neg h2]
        exact ih _ _ _ hb
    · rename_i h1
      rw [if_neg h1, if_neg h1]
      exact ih _ _ _ hb

/-! ## What every output of `encode` looks like -/

theorem length_le_length_flatMap (S : Str) (f : CChar → Str) (h : ∀ c ∈ S, 1 ≤ (f c).length) :
    S.length ≤ (S.flatMap f).length := by
  induction S with
  | nil => simp
  | cons c S ih =>
    have h1 := h c (List.mem_cons_self _ _)
    have h2 := ih (fun d hd => h d (List.mem_cons_of_mem _ hd))
    simp only [List.flatMap_cons, List.length_append, List.length_cons]
    omega

theorem distinct_le_length (S : Str) : distinct S ≤ S.length :=
  (List.dedup_sublist S).length_le

theorem distinct_le_256 (S : Str) : distinct S ≤ 256 := by
  have h := List.Nodup.length_le_card (List.nodup_dedup S)
  rw [Fintype.card_fin] at h
  exact h

/-- The bit string of `encode` starts with the leaf-count byte, is as long as the
serialized tree and one code of at least one bit per byte and for `EOF`
require, and is what the written bytes unpack to. -/
theorem encode_output_facts (srt : StdSort) (S : Str) (t : Tree) (e : Encoded) (hmk : makeTree srt S = .ok t)
    (he : encode S t = .ok e) :
    e.output.flatMap charToByte = e.fileBits ∧
      e.fileBits.take 8 = charToByte (Fin.ofNat (distinct S + 1)) ∧
      (1 ≤ distinct S →
        8 + (10 * (distinct S + 1) - 1) + (S.length + 1) ≤ e.fileBits.length) := by
  obtain ⟨r, hmk0, _, hint, hlen, hperm, hnames, _⟩ := makeTree_facts srt S
  have ht : t = Tree.built (leavesFrom 0 (table S)) r := by
    rw [hmk] at hmk0; exact Except.ok.inj hmk0
  subst ht
  have hS : ∀ c ∈ S, [c] ∈ (Tree.built (leavesFrom 0 (table S)) r).freqs.map Node.name := by
    intro c hc
    rw [hnames, mem_keys_table]
    exact Or.inr ⟨c, hc, rfl⟩
  have hEOF : EOF ∈ (Tree.built (leavesFrom 0 (table S)) r).freqs.map Node.name := by
    rw [hnames, mem_keys_table]
    exact Or.inl rfl
  obtain ⟨e0, he0, hbits, _, hout⟩ := encode_eq _ _ S (Tree.Encode_built _ r) hS hEOF
  have hee : e = e0 := by rw [he] at he0; exact Except.ok.inj he0
  subst hee
  have hc := built_freqs_isBits _ r hperm
  have hb : isBits e.fileBits := by
    rw [hbits]
    exact isBits_append
      (isBits_append
        (isBits_append (isBits_append (isBits_charToByte _) (isBits_serial r))
          (isBits_flatMap _ S (fun c _ => isBits_codeOf _ hc [c])))
        (isBits_codeOf _ hc EOF))
      (isBits_replicate _)
  have h8 : e.fileBits.length % 8 = 0 := by
    rw [hbits]; exact (fileBits_facts _).1
  refine ⟨?_, ?_, ?_⟩
  · rw [hout]; exact flatMap_charToByte_output e.fileBits hb h8
  · rw [hbits, hlen]
    simp only [List.append_assoc]
    exact take_8_charToByte_append _ _
  · intro hd
    have hint' := hint hd
    have hcode : ∀ nm, nm ∈ (Tree.built (leavesFrom 0 (table S)) r).freqs.map Node.name →
        1 ≤ ((Tree.built (leavesFrom 0 (table S)) r).codeOf nm).length := by
      intro nm hnm
      obtain ⟨x, hfind, hx, _⟩ := Tree.find_of_mem_names hnm
      rw [Tree.codeOf_of_find hfind]
      have := Node.code_ne_nil_of_internal r hint' [] x (hperm.subset hx)
      exact List.length_pos.2 this
    have h1 := length_le_length_flatMap S
      (fun c => (Tree.built (leavesFrom 0 (table S)) r).codeOf [c]) (fun c hc => hcode _ (hS c hc))
    have h2 := hcode _ hEOF
    have h3 := Node.length_serial r
    rw [hbits]
    simp only [List.length_append, charToByte_length, List.length_replicate]
    omega

/-- The bytes `stream6` are not what `encode` writes for any input: an output with
the leaf count 4 comes from an input with 3 distinct byte values and has at
least 51 bits. -/
theorem stream6_not_encoded (srt : StdSort) (S : Str) (t : Tree) (e : Encoded) (hmk : makeTree srt S = .ok t)
    (he : encode S t = .ok e) : e.output ≠ stream6 := by
  intro hout
  obtain ⟨h1, h2, h3⟩ := encode_output_facts srt S t e hmk he
  rw [hout] at h1
  have hbits : e.fileBits = stream6.flatMap charToByte := h1.symm
  have hlen : e.fileBits.length = 48 := by rw [hbits]; decide
  have htake : charToByte (Fin.ofNat (distinct S + 1)) = charToByte 4 := by
    rw [← h2, hbits]; decide
  have hfin : (Fin.ofNat (distinct S + 1) : CChar) = 4 := by
    have := congrArg byteToChar htake
    rwa [byteToChar_charToByte, byteToChar_charToByte] at this
  have hmod : (distinct S + 1) % 256 = 4 := by
    have := congrArg Fin.val hfin
    simpa [Fin.ofNat] using this
  have h256 := distinct_le_256 S
  have hd : distinct S = 3 := by omega
  have hS := distinct_le_length S
  have := h3 (by omega)
  omega

/-! ## `decodeBytes` after a successful `decodeTree` -/

theorem decodeBytes_of_decodeTree {fuel : Nat} {b : Str} {t : Tree}
    (h : decodeTree fuel b = some (.ok t)) :
    ∃ enc t2, t.Encode = .ok (enc, t2) ∧
      decodeBytes fuel b = some (.ok (decodeBytesLoop t2 (b.drop enc.length) [] [])) := by
  obtain ⟨_, _, top, _, _, _, _, ht⟩ := decodeTree_ok h
  have hroot : t.root = some (Node.assign [] top) := by rw [ht]
  obtain ⟨enc, t2, hE⟩ := Encode_of_root hroot
  exact ⟨enc, t2, hE, by simp only [decodeBytes, h, hE]⟩

/-! ## The read position of `decodeTree` -/

theorem Node.nodes_ofChildren (l r : Node) :
    (Node.ofChildren l r).nodes = l.nodes ++ r.nodes ++ [Node.ofChildren l r] := rfl

theorem strAt_ok_le {enc : Str} {i : Nat} {c : CChar} (h : strAt enc i = .ok c) :
    i ≤ enc.length ∧ (c ≠ 0 → i < enc.length) := by
  unfold strAt at h
  cases hg : enc.get? i with
  | some d =>
    have := List.get?_eq_some.1 hg
    obtain ⟨hlt, _⟩ := this
    exact ⟨Nat.le_of_lt hlt, fun _ => hlt⟩
  | none =>
    simp only [hg] at h
    split at h
    · rename_i heq
      simp only [Except.ok.injEq] at h
      exact ⟨Nat.le_of_eq heq, fun hc => absurd h.symm hc⟩
    · simp at h

theorem decodeLeaf_positioned {enc : Str} {st st1 : DecState} (h : decodeLeaf enc st = .ok st1)
    (hp : st.positioned) : st1.positioned := by
  unfold decodeLeaf at h
  cases hs : strAt enc st.i with
  | error e => simp [hs] at h
  | ok c =>
    simp only [hs] at h
    by_cases h1 : c = chr1
    · simp only [h1, if_true] at h
      cases hn : nextByte (st.i + 1) enc with
      | error e => simp [hn] at h
      | ok byte =>
        simp only [hn, Except.ok.injEq] at h
        subst h
        unfold DecState.positioned at hp ⊢
        simp only [List.flatMap_cons, List.length_append, Node.ofName, Node.nodes,
          List.length_singleton]
        omega
    · simp only [h1, if_false, Except.ok.injEq] at h
      subst h
      exact hp

theorem decodeInternal_positioned {enc : Str} {st st1 : DecState}
    (h : decodeInternal enc st = .ok st1) (hp : st.positioned) :
    st1.positioned ∧ st1.i ≤ enc.length := by
  unfold decodeInternal at h
  cases hs : strAt enc st.i with
  | error e => simp [hs] at h
  | ok c =>
    simp only [hs] at h
    obtain ⟨hle, hlt⟩ := strAt_ok_le hs
    by_cases h0 : c = chr0
    · simp only [h0, if_true] at h
      cases hst : st.s with
      | nil => simp [hst] at h
      | cons n1 tl =>
        cases tl with
        | nil => simp [hst] at h
        | cons n2 tl =>
          simp only [hst, Except.ok.injEq] at h
          subst h
          have hlt' : st.i < enc.length := hlt (by rw [h0]; decide)
          unfold DecState.positioned at hp ⊢
          rw [hst] at hp
          refine ⟨?_, hlt'⟩
          simp only [List.flatMap_cons, List.length_append, Node.nodes_ofChildren,
            List.length_singleton] at hp ⊢
          omega
    · simp only [h0, if_false, Except.ok.injEq] at h
      subst h
      exact ⟨hp, hle⟩

theorem decodeTreeBody_positioned {enc : Str} {st st1 : DecState}
    (h : decodeTreeBody enc st = .ok st1) (hp : st.positioned) :
    st1.positioned ∧ st1.i ≤ enc.length := by
  unfold decodeTreeBody at h
  split at h
  · simp at h
  · cases hl : decodeLeaf enc st with
    | error e => simp [hl] at h
    | ok st2 =>
      simp only [hl] at h
      exact decodeInternal_positioned h (decodeLeaf_positioned hl hp)

/-- When the loop of `decodeTree` ends, the read position counts the entries read
and, a node being on the stack, lies within the bit string or at its end. -/
theorem decodeTreeLoop_positioned (enc : Str) (numLeaves : Nat) :
    ∀ (fuel : Nat) (st fin : DecState),
    decodeTreeLoop enc numLeaves fuel st = some (.ok fin) → st.positioned →
    (st.s ≠ [] → st.i ≤ enc.length) →
    fin.positioned ∧ (fin.s ≠ [] → fin.i ≤ enc.length) := by
  intro fuel
  induction fuel with
  | zero => intro st fin h _ _; simp [decodeTreeLoop] at h
  | succ k ih =>
    intro st fin h hp hb
    unfold decodeTreeLoop at h
    split at h
    · cases hbody : decodeTreeBody enc st with
      | error e => simp [hbody] at h
      | ok st1 =>
        simp only [hbody] at h
        obtain ⟨h1, h2⟩ := decodeTreeBody_positioned hbody hp
        exact ih st1 fin h h1 (fun _ => h2)
    · simp only [Option.some.injEq, Except.ok.injEq] at h
      subst h
      exact ⟨hp, hb⟩

/-- The tree `decodeTree` returns is left as it is by the traversal of
`Tree::Encode`, whose result is the count byte followed by the entries of the
root. -/
theorem Encode_decoded (fs : List Node) (top : Node) :
    ({ freqs := fs.map (Tree.writeBack (Node.assign [] top).nodes), huffList := [top],
       root := some (Node.assign [] top) } : Tree).Encode
      = .ok (charToByte (Fin.ofNat top.leaves.length) ++ top.serial,
          { freqs := fs.map (Tree.writeBack (Node.assign [] top).nodes), huffList := [top],
            root := some (Node.assign [] top) }) :=
  Tree.Encode_built fs top

/-- A successful `decodeTree` ends at the position behind the bits that
`Tree::Encode` gives for the tree it returns. -/
theorem decodeTree_position {fuel : Nat} {b : Str} {t : Tree}
    (h : decodeTree fuel b = some (.ok t)) :
    ∃ fin top, decodeTreeRun fuel b = some (.ok fin) ∧ fin.s = [top] ∧
      t.Encode = .ok (charToByte (Fin.ofNat top.leaves.length) ++ top.serial, t) ∧
      (charToByte (Fin.ofNat top.leaves.length) ++ top.serial).length = fin.i ∧
      fin.i ≤ b.length := by
  obtain ⟨leafByte, fin, top, hn, hloop, hrun, hs, ht⟩ := decodeTree_ok h
  have hc := decodeTreeLoop_counted b _ fuel _ fin hloop ⟨rfl, rfl⟩
  have hp := decodeTreeLoop_positioned b _ fuel _ fin hloop rfl (fun hne => absurd rfl hne)
  obtain ⟨⟨hc1, _⟩, _, hlen⟩ := hc
  have hs1 : fin.s = [top] := by
    rw [hs] at hlen ⊢
    cases htl : fin.s.tail with
    | nil => rfl
    | cons x tl => rw [htl] at hlen; simp at hlen
  refine ⟨fin, top, hrun, hs1, ?_, ?_, hp.2 (by rw [hs1]; simp)⟩
  · rw [ht]; exact Encode_decoded _ _
  · have hpos := hp.1
    unfold DecState.positioned at hpos
    rw [hs1] at hpos hc1
    simp only [List.flatMap_cons, List.flatMap_nil, List.append_nil] at hpos hc1
    have h1 := Node.length_serial top
    have h2 := Node.length_nodes top
    simp only [List.length_append, charToByte_length]
    omega

/-! ## Depth assignments and the cost of the merges -/

theorem TreeDepths.split_cons {D : Multiset Nat} {d : Nat} (h : TreeDepths (d ::ₘ D)) :
    TreeDepths ((d + 1) ::ₘ (d + 1) ::ₘ D) := by
  have := TreeDepths.split (d ::ₘ D) d h (Multiset.mem_cons_self d D)
  rwa [Multiset.erase_cons_head] at this

theorem TreeDepths.subst {E : Multiset Nat} (hE : TreeDepths E) :
    ∀ (D : Multiset Nat) (d : Nat), TreeDepths (d ::ₘ D) → TreeDepths (D + E.map (· + d)) := by
  induction hE with
  | single =>
    intro D d hD
    have : D + Multiset.map (· + d) {0} = d ::ₘ D := by
      simp only [Multiset.map_singleton, Nat.zero_add]
      rw [add_comm, Multiset.singleton_add]
    rw [this]; exact hD
  | split E e _ he ih =>
    intro D d hD
    obtain ⟨E1, rfl⟩ := Multiset.exists_cons_of_mem he
    have h1 := ih D d hD
    have h2 : D + Multiset.map (· + d) (e ::ₘ E1) = (e + d) ::ₘ (D + E1.map (· + d)) := by
      simp [Multiset.add_cons]
    rw [h2] at h1
    have h3 := h1.split_cons
    have h4 : D + Multiset.map (· + d) ((e + 1) ::ₘ (e + 1) ::ₘ (e ::ₘ E1).erase e)
        = (e + d + 1) ::ₘ (e + d + 1) ::ₘ (D + E1.map (· + d)) := by
      simp [Multiset.add_cons, Nat.add_right_comm]
    rw [h4]; exact h3

theorem TreeDepths.join {A B : Multiset Nat} (hA : TreeDepths A) (hB : TreeDepths B) :
    TreeDepths (A.map (· + 1) + B.map (· + 1)) := by
  have h0 : TreeDepths (1 ::ₘ 1 ::ₘ (0 : Multiset Nat)) := by
    have := TreeDepths.single.split_cons (D := 0) (d := 0)
    simpa using this
  have h1 := hA.subst (1 ::ₘ 0) 1 h0
  have h2 : (1 ::ₘ (0 : Multiset Nat)) + A.map (· + 1) = 1 ::ₘ A.map (· + 1) := by
    simp
  rw [h2] at h1
  exact hB.subst _ 1 h1

theorem TreeDepths.card_pos {D : Multiset Nat} (h : TreeDepths D) : 1 ≤ Multiset.card D := by
  induction h with
  | single => simp
  | split D d _ _ _ => simp

/-- A deepest leaf has a sibling leaf: the greatest depth occurs twice, and the two
leaves can be taken back into their parent. -/
theorem TreeDepths.unsplit {D : Multiset Nat} (h : TreeDepths D) :
    ∀ m, 2 ≤ Multiset.card D → m ∈ D → (∀ x ∈ D, x ≤ m) →
      1 ≤ m ∧ ∃ D0, D = m ::ₘ m ::ₘ D0 ∧ TreeDepths ((m - 1) ::ₘ D0) := by
  induction h with
  | single => intro m hc; simp at hc
  | split D d hD hd ih =>
    intro m _ hm hmax
    obtain ⟨D1, rfl⟩ := Multiset.exists_cons_of_mem hd
    rw [Multiset.erase_cons_head] at hm hmax ⊢
    by_cases hmd : m = d + 1
    · subst hmd
      exact ⟨Nat.le_add_left 1 d, D1, rfl, by simpa using hD⟩
    · have hm1 : m ∈ D1 := by
        simp only [Multiset.mem_cons] at hm
        rcases hm with h | h | h
        · exact absurd h hmd
        · exact absurd h hmd
        · exact h
      have hdm : d + 1 < m := by
        have := hmax (d + 1) (Multiset.mem_cons_self _ _)
        omega
      have hmax1 : ∀ x ∈ d ::ₘ D1, x ≤ m := by
        intro x hx
        rcases Multiset.mem_cons.1 hx with h | h
        · omega
        · exact hmax x (Multiset.mem_cons_of_mem (Multiset.mem_cons_of_mem h))
      have hcard : 2 ≤ Multiset.card (d ::ₘ D1) := by
        have := Multiset.card_pos_iff_exists_mem.2 ⟨m, hm1⟩
        simp only [Multiset.card_cons]
        omega
      obtain ⟨hm0, D0, hD0, hT⟩ := ih m hcard (Multiset.mem_cons_of_mem hm1) hmax1
      have hd0 : d ∈ D0 := by
        have : d ∈ m ::ₘ m ::ₘ D0 := by rw [← hD0]; exact Multiset.mem_cons_self _ _
        simp only [Multiset.mem_cons] at this
        rcases this with h | h | h
        · omega
        · omega
        · exact h
      obtain ⟨D2, rfl⟩ := Multiset.exists_cons_of_mem hd0
      have hD1 : D1 = m ::ₘ m ::ₘ D2 := by
        have h1 : d ::ₘ D1 = d ::ₘ (m ::ₘ m ::ₘ D2) := by
          rw [hD0]
          simp only [← Multiset.singleton_add]
          abel
        exact (Multiset.cons_inj_right d).1 h1
      refine ⟨hm0, (d + 1) ::ₘ (d + 1) ::ₘ D2, ?_, ?_⟩
      · rw [hD1]
        simp only [← Multiset.singleton_add]
        abel
      · have h2 : (m - 1) ::ₘ d ::ₘ D2 = d ::ₘ ((m - 1) ::ₘ D2) := Multiset.cons_swap _ _ _
        rw [h2] at hT
        have h3 := hT.split_cons
        have h4 : (m - 1) ::ₘ (d + 1) ::ₘ (d + 1) ::ₘ D2
            = (d + 1) ::ₘ (d + 1) ::ₘ (m - 1) ::ₘ D2 := by
          simp only [← Multiset.singleton_add]
          abel
        rw [h4]; exact h3

theorem exists_max_of_card_pos (D : Multiset Nat) (h : 1 ≤ Multiset.card D) :
    ∃ m ∈ D, ∀ x ∈ D, x ≤ m := by
  induction D using Multiset.induction_on with
  | empty => simp at h
  | cons a D ih =>
    by_cases hD : Multiset.card D = 0
    · rw [Multiset.card_eq_zero] at hD
      subst hD
      exact ⟨a, by simp, by simp⟩
    · obtain ⟨m, hm, hmax⟩ := ih (by omega)
      by_cases ham : a ≤ m
      · refine ⟨m, Multiset.mem_cons_of_mem hm, ?_⟩
        intro x hx
        rcases Multiset.mem_cons.1 hx with h | h
        · omega
        · exact hmax x h
      · refine ⟨a, Multiset.mem_cons_self _ _, ?_⟩
        intro x hx
        rcases Multiset.mem_cons.1 hx with h | h
        · omega
        · have := hmax x h
          omega

theorem pairCost_cons (p : Nat × Nat) (P : Multiset (Nat × Nat)) :
    pairCost (p ::ₘ P) = p.1 * p.2 + pairCost P := by
  simp [pairCost]

theorem pairCost_add (P Q : Multiset (Nat × Nat)) :
    pairCost (P + Q) = pairCost P + pairCost Q := by
  simp [pairCost]

/-- Exchange step: the smallest weight can be given the greatest depth without
raising the cost. -/
theorem exchange (a da m : Nat) (Q : Multiset (Nat × Nat))
    (hmin : ∀ p ∈ Q, a ≤ p.1) (hm : m ∈ da ::ₘ Q.map Prod.snd)
    (hmax : ∀ x ∈ da ::ₘ Q.map Prod.snd, x ≤ m) :
    ∃ Q1 : Multiset (Nat × Nat), Q1.map Prod.fst = Q.map Prod.fst ∧
      m ::ₘ Q1.map Prod.snd = da ::ₘ Q.map Prod.snd ∧
      a * m + pairCost Q1 ≤ a * da + pairCost Q := by
  by_cases hda : da = m
  · subst hda
    exact ⟨Q, rfl, rfl, Nat.le_refl _⟩
  · have hmQ : m ∈ Q.map Prod.snd := by
      rcases Multiset.mem_cons.1 hm with h | h
      · exact absurd h.symm hda
      · exact h
    obtain ⟨p, hp, hpm⟩ := Multiset.mem_map.1 hmQ
    obtain ⟨Q0, rfl⟩ := Multiset.exists_cons_of_mem hp
    have hle : da ≤ m := hmax da (Multiset.mem_cons_self _ _)
    have hap : a ≤ p.1 := hmin p (Multiset.mem_cons_self _ _)
    refine ⟨(p.1, da) ::ₘ Q0, by simp, ?_, ?_⟩
    · simp only [Multiset.map_cons, hpm]
      exact Multiset.cons_swap _ _ _
    · rw [pairCost_cons, pairCost_cons, hpm]
      obtain ⟨k, hk⟩ := Nat.exists_eq_add_of_le hap
      obtain ⟨j, hj⟩ := Nat.exists_eq_add_of_le hle
      simp only []
      rw [hk, hj]
      nlinarith [Nat.zero_le (k * j)]

theorem mergeCost_succ (k a b : Nat) (rest : List Nat) :
    mergeCost (k + 1) (a :: b :: rest)
      = a + b + mergeCost k (List.orderedInsert (· ≤ ·) (a + b) rest) := rfl

/-- No assignment of tree depths to the weights `W` costs less than the merges. -/
theorem mergeCost_le : ∀ (n : Nat) (W : List Nat) (P : Multiset (Nat × Nat)),
    W.Sorted (· ≤ ·) → W.length = n + 1 → P.map Prod.fst = ↑W → TreeDepths (P.map Prod.snd) →
    mergeCost n W ≤ pairCost P := by
  intro n
  induction n with
  | zero => intro W P _ _ _ _; simp [mergeCost]
  | succ n ih =>
    intro W P hs hlen hfst hT
    match W, hlen with
    | a :: b :: rest, hlen =>
      rw [mergeCost_succ]
      have hsa : ∀ x ∈ b :: rest, a ≤ x := (List.sorted_cons.1 hs).1
      have hsb : ∀ x ∈ rest, b ≤ x := (List.sorted_cons.1 (List.sorted_cons.1 hs).2).1
      have hsr : rest.Sorted (· ≤ ·) := (List.sorted_cons.1 (List.sorted_cons.1 hs).2).2
      -- the entry of `a`
      have haP : a ∈ P.map Prod.fst := by rw [hfst]; simp
      obtain ⟨pa, hpa, hpa1⟩ := Multiset.mem_map.1 haP
      obtain ⟨Q, rfl⟩ := Multiset.exists_cons_of_mem hpa
      have hQfst : Q.map Prod.fst = ↑(b :: rest) := by
        have h1 : a ::ₘ Q.map Prod.fst = a ::ₘ ↑(b :: rest) := by
          have := hfst
          rw [Multiset.map_cons, hpa1] at this
          exact this
        exact (Multiset.cons_inj_right a).1 h1
      -- the greatest depth
      have hcard : Multiset.card ((pa ::ₘ Q).map Prod.snd) = n + 2 := by
        rw [Multiset.card_map, ← Multiset.card_map Prod.fst, hfst]
        simpa using hlen
      obtain ⟨m, hm, hmax⟩ := exists_max_of_card_pos ((pa ::ₘ Q).map Prod.snd) (by omega)
      obtain ⟨hm1, D0, hD0, hT0⟩ := hT.unsplit m (by omega) hm hmax
      rw [Multiset.map_cons] at hm hmax hD0
      -- `a` goes to depth `m`
      have hminQ : ∀ p ∈ Q, a ≤ p.1 := by
        intro p hp
        have : p.1 ∈ Q.map Prod.fst := Multiset.mem_map_of_mem _ hp
        rw [hQfst] at this
        exact hsa p.1 (by simpa using this)
      obtain ⟨Q1, hQ1fst, hQ1snd, hQ1cost⟩ := exchange a pa.2 m Q hminQ hm hmax
      have hQ1snd' : Q1.map Prod.snd = m ::ₘ D0 := by
        have : m ::ₘ Q1.map Prod.snd = m ::ₘ (m ::ₘ D0) := by rw [hQ1snd, hD0]
        exact (Multiset.cons_inj_right m).1 this
      -- the entry of `b`
      have hbQ : b ∈ Q1.map Prod.fst := by rw [hQ1fst, hQfst]; simp
      obtain ⟨pb, hpb, hpb1⟩ := Multiset.mem_map.1 hbQ
      obtain ⟨R, rfl⟩ := Multiset.exists_cons_of_mem hpb
      have hRfst : R.map Prod.fst = ↑rest := by
        have h1 : b ::ₘ R.map Prod.fst = b ::ₘ ↑rest := by
          have := hQ1fst
          rw [Multiset.map_cons, hpb1, hQfst] at this
          exact this
        exact (Multiset.cons_inj_right b).1 h1
      have hminR : ∀ p ∈ R, b ≤ p.1 := by
        intro p hp
        have : p.1 ∈ R.map Prod.fst := Multiset.mem_map_of_mem _ hp
        rw [hRfst] at this
        exact hsb p.1 (by simpa using this)
      rw [Multiset.map_cons] at hQ1snd'
      have hmR : m ∈ pb.2 ::ₘ R.map Prod.snd := by rw [hQ1snd']; exact Multiset.mem_cons_self _ _
      have hmaxR : ∀ x ∈ pb.2 ::ₘ R.map Prod.snd, x ≤ m := by
        intro x hx
        rw [hQ1snd'] at hx
        exact hmax x (by rw [hD0]; exact Multiset.mem_cons_of_mem hx)
      obtain ⟨R1, hR1fst, hR1snd, hR1cost⟩ := exchange b pb.2 m R hminR hmR hmaxR
      have hR1snd' : R1.map Prod.snd = D0 := by
        have : m ::ₘ R1.map Prod.snd = m ::ₘ D0 := by rw [hR1snd, hQ1snd']
        exact (Multiset.cons_inj_right m).1 this
      -- the merged entry
      have hfst' : ((a + b, m - 1) ::ₘ R1).map Prod.fst
          = ↑(List.orderedInsert (· ≤ ·) (a + b) rest) := by
        rw [Multiset.map_cons, hR1fst, hRfst]
        exact (Multiset.coe_eq_coe.2 (List.perm_orderedInsert _ _ _)).symm
      have hT' : TreeDepths (((a + b, m - 1) ::ₘ R1).map Prod.snd) := by
        rw [Multiset.map_cons, hR1snd']; exact hT0
      have hlen' : (List.orderedInsert (· ≤ ·) (a + b) rest).length = n + 1 := by
        rw [List.orderedInsert_length]
        simpa using hlen
      have hIH := ih _ _ (hsr.orderedInsert _ _) hlen' hfst' hT'
      rw [pairCost_cons] at hIH hQ1cost ⊢
      simp only [] at hIH
      rw [hpa1] at *
      rw [hpb1] at *
      have hexp : (a + b) * m = (a + b) * (m - 1) + (a + b) := by
        obtain ⟨j, rfl⟩ : ∃ j, m = j + 1 := ⟨m - 1, by omega⟩
        simp only [Nat.add_sub_cancel]; ring
      have e1 : (a + b) * m = a * m + b * m := by ring
      omega

/-! ## The weighted path length along the merge loop -/

theorem Node.weightedPath_succ (n : Node) : ∀ d : Nat,
    n.weightedPath (d + 1) = n.weightedPath d + (n.leaves.map Node.frequency).sum := by
  induction n with
  | leaf a nm c f => intro d; simp [Node.weightedPath, Node.leaves, Node.frequency, Nat.mul_succ]
  | internal nm c f l r ihl ihr =>
    intro d
    simp only [Node.weightedPath, Node.leaves, List.map_append, List.sum_append]
    rw [ihl (d + 1), ihr (d + 1)]
    omega

theorem Node.depths_succ (n : Node) : ∀ d : Nat,
    n.depths (d + 1) = (n.depths d).map (· + 1) := by
  induction n with
  | leaf a nm c f => intro d; rfl
  | internal nm c f l r ihl ihr =>
    intro d
    simp only [Node.depths, List.map_append]
    rw [ihl (d + 1), ihr (d + 1)]

theorem Node.treeDepths (n : Node) : TreeDepths ↑(n.depths 0) := by
  induction n with
  | leaf a nm c f => exact TreeDepths.single
  | internal nm c f l r ihl ihr =>
    have := ihl.join ihr
    simp only [Node.depths]
    rw [Node.depths_succ l 0, Node.depths_succ r 0, ← Multiset.coe_add]
    simpa using this

/-- The leaves of a tree with their depths, as an assignment of depths to the
frequencies. -/
theorem Node.exists_pairs (n : Node) : ∀ d : Nat, ∃ P : Multiset (Nat × Nat),
    P.map Prod.fst = ↑(n.leaves.map Node.frequency) ∧ P.map Prod.snd = ↑(n.depths d) ∧
      pairCost P = n.weightedPath d := by
  induction n with
  | leaf a nm c f =>
    intro d
    exact ⟨{(f, d)}, rfl, rfl, by simp [pairCost, Node.weightedPath]⟩
  | internal nm c f l r ihl ihr =>
    intro d
    obtain ⟨Pl, hl1, hl2, hl3⟩ := ihl (d + 1)
    obtain ⟨Pr, hr1, hr2, hr3⟩ := ihr (d + 1)
    refine ⟨Pl + Pr, ?_, ?_, ?_⟩
    · rw [Multiset.map_add, hl1, hr1]; simp [Node.leaves]
    · rw [Multiset.map_add, hl2, hr2]; simp [Node.depths]
    · rw [pairCost_add, hl3, hr3]; rfl

theorem Node.sum_leaves_assign (n : Node) : ∀ c : Str,
    ((Node.assign c n).leaves.map (fun x => x.frequency * x.code.length)).sum
      = n.weightedPath c.length := by
  induction n with
  | leaf a nm cd f => intro c; simp [Node.assign, Node.leaves, Node.weightedPath, Node.frequency, Node.code]
  | internal nm cd f l r ihl ihr =>
    intro c
    simp only [Node.assign, Node.leaves, List.map_append, List.sum_append, Node.weightedPath]
    rw [ihl, ihr]
    simp

theorem Tree.map_frequency_insertByFreq (n : Node) (l : List Node) :
    (Tree.insertByFreq n l).map Node.frequency
      = List.orderedInsert (· ≤ ·) n.frequency (l.map Node.frequency) := by
  induction l with
  | nil => rfl
  | cons x xs ih =>
    simp only [Tree.insertByFreq, List.map_cons, List.orderedInsert]
    by_cases h : n.frequency > x.frequency
    · rw [if_pos h, if_neg (by omega), List.map_cons, ih]
    · rw [if_neg h, if_pos (by omega)]; rfl

/-- The merge loop on nodes whose frequency is the sum of the frequencies of their
leaves: the weighted path length of the node it ends with is that of the nodes
it starts from and the frequencies of the nodes it makes. -/
theorem Tree.afterMerges_weightedPath : ∀ (k : Nat) (l : List Node),
    l.Pairwise (fun a b => a.frequency ≤ b.frequency) → (∀ n ∈ l, 1 ≤ n.frequency) →
    (∀ n ∈ l, (n.leaves.map Node.frequency).sum = n.frequency) → l.length = k + 1 →
    ∃ r, Tree.afterMerges k l = [r] ∧
      r.weightedPath 0 = (l.map (Node.weightedPath 0)).sum + mergeCost k (l.map Node.frequency) := by
  intro k
  induction k with
  | zero =>
    intro l _ _ _ hlen
    match l, hlen with
    | [r], _ => exact ⟨r, rfl, by simp [mergeCost]⟩
  | succ k ih =>
    intro l hs hp hw hlen
    match l, hlen with
    | a :: b :: rest, hlen =>
      have ha : 1 ≤ a.frequency := hp a (by simp)
      have hb : 1 ≤ b.frequency := hp b (by simp)
      have hstep := Tree.mergeStep_cons_cons a b rest ha hb
      have hsorted := Tree.mergeStep_sorted (a :: b :: rest) hs hp
      rw [hstep] at hsorted
      have hperm := Tree.insertByFreq_perm (Node.ofChildren a b) rest
      have hw' : ∀ n ∈ Tree.insertByFreq (Node.ofChildren a b) rest,
          (n.leaves.map Node.frequency).sum = n.frequency := by
        intro n hn
        rcases List.mem_cons.1 (hperm.subset hn) with h | h
        · subst h
          have h1 := hw a (by simp)
          have h2 := hw b (by simp)
          simp only [Node.leaves_ofChildren, List.map_append, List.sum_append, h1, h2]
          rfl
        · exact hw n (by simp [h])
      have hlen' : (Tree.insertByFreq (Node.ofChildren a b) rest).length = k + 1 := by
        rw [hperm.length_eq]
        simpa using hlen
      obtain ⟨r, hr, hcost⟩ := ih _ hsorted.1 hsorted.2 hw' hlen'
      refine ⟨r, ?_, ?_⟩
      · show Tree.afterMerges k (Tree.mergeStep (a :: b :: rest)) = [r]
        rw [hstep]; exact hr
      · rw [hcost, Tree.map_frequency_insertByFreq, (hperm.map _).sum_eq]
        simp only [List.map_cons, List.sum_cons, mergeCost_succ]
        have h1 := hw a (by simp)
        have h2 := hw b (by simp)
        have e1 : (Node.ofChildren a b).weightedPath 0
            = a.weightedPath 0 + b.weightedPath 0 + (a.frequency + b.frequency) := by
          show a.weightedPath (0 + 1) + b.weightedPath (0 + 1) = _
          rw [Node.weightedPath_succ, Node.weightedPath_succ, h1, h2]
          omega
        have e2 : (Node.ofChildren a b).frequency = a.frequency + b.frequency := rfl
        rw [e1, e2]
        omega

/-! ## The built tree against every tree -/

theorem Node.leaves_of_isLeaf {n : Node} (h : n.isLeaf = true) : n.leaves = [n] := by
  cases n with
  | leaf a nm c f => rfl
  | internal nm c f l r => simp [Node.isLeaf] at h

theorem Node.weightedPath_zero_of_isLeaf {n : Node} (h : n.isLeaf = true) :
    n.weightedPath 0 = 0 := by
  cases n with
  | leaf a nm c f => rfl
  | internal nm c f l r => simp [Node.isLeaf] at h

/-- The tree of `makeTree`: the weighted path length of its code is that of the
root the merge loop ends with, and no assignment of tree depths to the counts
of the symbol table costs less. -/
theorem makeTree_optimal (srt : StdSort) (S : Str) : ∃ t r, makeTree srt S = .ok t ∧
    t.root = some (Node.assign [] r) ∧ t.freqs.Perm (Node.assign [] r).leaves ∧
    r.leaves.Perm (countingPass S).freqs ∧
    t.weightedLength = r.weightedPath 0 ∧
    ∀ P : Multiset (Nat × Nat), P.map Prod.fst = ↑((table S).map Prod.snd) →
      TreeDepths (P.map Prod.snd) → t.weightedLength ≤ pairCost P := by
  obtain ⟨r, hloop, hperm, hmk⟩ := huffman_root srt S
  obtain ⟨hfreqs, hhuff⟩ := countingPass_facts S
  have hnd : ((countingPass S).freqs.map Node.addr).Nodup := by
    rw [hfreqs]; exact Tree.nodup_addr_leavesFrom 0 _
  have hbp := Tree.built_freqs_perm (countingPass S).freqs r hperm hnd
  have hwl : (Tree.built (countingPass S).freqs r).weightedLength = r.weightedPath 0 := by
    unfold Tree.weightedLength
    rw [(hbp.map _).sum_eq]
    exact Node.sum_leaves_assign r []
  refine ⟨_, r, hmk, rfl, hbp, hperm, hwl, ?_⟩
  intro P hfst hT
  rw [hwl]
  -- the sorted working list
  have hsorted := workingList_sorted srt S 0
  have hsp := srt.perm (countingPass S).huffList
  have hW : workingList srt S 0 = srt.run (countingPass S).huffList := rfl
  rw [hW] at hsorted
  have hleaf : ∀ n ∈ srt.run (countingPass S).huffList, n.isLeaf = true := by
    intro n hn
    have := hsp.subset hn
    rw [hhuff] at this
    exact (isLeaf_of_mem_leavesFrom this).1
  have hlen : (srt.run (countingPass S).huffList).length = distinct S + 1 := by
    rw [hsp.length_eq, hhuff, length_leavesFrom, length_table]
  obtain ⟨r2, hr2, hcost⟩ := Tree.afterMerges_weightedPath (distinct S) _ hsorted.1 hsorted.2
    (fun n hn => by rw [Node.leaves_of_isLeaf (hleaf n hn)]; simp) hlen
  have hrr : r2 = r := by
    have h1 : Tree.afterMerges (distinct S + 1) (srt.run (countingPass S).huffList)
        = [r2] := by
      rw [Tree.afterMerges_succ, hr2]; rfl
    rw [Tree.huffmanLoop_eq_afterMerges, hlen, h1] at hloop
    exact (List.cons.inj hloop).1
  subst hrr
  have hzero : ((srt.run (countingPass S).huffList).map (Node.weightedPath 0)).sum = 0 := by
    apply List.sum_eq_zero
    intro x hx
    obtain ⟨n, hn, rfl⟩ := List.mem_map.1 hx
    exact Node.weightedPath_zero_of_isLeaf (hleaf n hn)
  rw [hcost, hzero, Nat.zero_add]
  apply mergeCost_le (distinct S) _ P
  · exact List.pairwise_map.2 hsorted.1
  · rw [List.length_map, hlen]
  · rw [hfst]
    apply Multiset.coe_eq_coe.2
    have h1 : ((srt.run (countingPass S).huffList).map Node.frequency).Perm
        ((countingPass S).huffList.map Node.frequency) := hsp.map _
    rw [hhuff, map_frequency_leavesFrom] at h1
    rw [hhuff]
    exact h1.symm
  · exact hT

/-- The first formulation: no strictly binary tree over leaves with the counts of
the symbol table has a smaller weighted path length. -/
theorem makeTree_optimal_tree (srt : StdSort) (S : Str) (t : Tree) (hmk : makeTree srt S = .ok t) (T : Node)
    (hT : (T.leaves.map Node.frequency).Perm ((countingPass S).freqs.map Node.frequency)) :
    t.weightedLength ≤ T.weightedPath 0 := by
  obtain ⟨t2, r, hmk2, _, _, _, _, hopt⟩ := makeTree_optimal srt S
  rw [hmk] at hmk2
  cases hmk2
  obtain ⟨P, h1, h2, h3⟩ := T.exists_pairs 0
  rw [← h3]
  apply hopt P
  · rw [h1]
    apply Multiset.coe_eq_coe.2
    rw [(countingPass_facts S).1, map_frequency_leavesFrom] at hT
    exact hT
  · rw [h2]; exact T.treeDepths

/-! ## From a code whose words do not begin one another to tree depths -/

theorem pairCost_map_succ (P : Multiset (Nat × Nat)) :
    pairCost (P.map (fun p => (p.1, p.2 + 1))) = pairCost P + (P.map Prod.fst).sum := by
  induction P using Multiset.induction_on with
  | empty => simp [pairCost]
  | cons p P ih =>
    rw [Multiset.map_cons, pairCost_cons, ih, pairCost_cons, Multiset.map_cons,
      Multiset.sum_cons]
    simp only [Nat.mul_succ]
    omega

theorem eq_cons_tail_of_head? {s : Str} {b : CChar} (h : s.head? = some b) : s = b :: s.tail := by
  cases s with
  | nil => simp at h
  | cons c s => simp at h; simp [h]

theorem mem_filter_head {b : CChar} {L : List (Nat × Str)} {p : Nat × Str}
    (h : p ∈ L.filter (fun p => decide (p.2.head? = some b))) : p ∈ L ∧ p.2 = b :: p.2.tail := by
  rw [List.mem_filter] at h
  exact ⟨h.1, eq_cons_tail_of_head? (of_decide_eq_true h.2)⟩

theorem map_fst_tailsOf (b : CChar) (L : List (Nat × Str)) :
    (tailsOf b L).map Prod.fst
      = (L.filter (fun p => decide (p.2.head? = some b))).map Prod.fst := by
  simp [tailsOf, List.map_map, Function.comp_def]

theorem sum_tailsOf (b : CChar) (L : List (Nat × Str)) :
    ((L.filter (fun p => decide (p.2.head? = some b))).map (fun p => p.1 * p.2.length)).sum
      = ((tailsOf b L).map (fun p => p.1 * p.2.length)).sum
        + ((L.filter (fun p => decide (p.2.head? = some b))).map Prod.fst).sum := by
  unfold tailsOf
  rw [List.map_map, ← List.sum_map_add]
  congr 1
  apply List.map_congr_left
  intro p hp
  have h := (mem_filter_head hp).2
  simp only [Function.comp_def]
  conv_lhs => rw [h]
  rw [List.length_cons, Nat.mul_succ]

theorem tailsOf_facts (n : Nat) (b : CChar) (L : List (Nat × Str))
    (hlen : ∀ p ∈ L, p.2.length ≤ n + 1) (hbits : ∀ p ∈ L, isBits p.2)
    (hpw : L.Pairwise (fun p q => ¬ p.2 <+: q.2 ∧ ¬ q.2 <+: p.2)) :
    (∀ p ∈ tailsOf b L, p.2.length ≤ n) ∧ (∀ p ∈ tailsOf b L, isBits p.2) ∧
      (tailsOf b L).Pairwise (fun p q => ¬ p.2 <+: q.2 ∧ ¬ q.2 <+: p.2) := by
  refine ⟨?_, ?_, ?_⟩
  · intro p hp
    obtain ⟨q, hq, rfl⟩ := List.mem_map.1 hp
    obtain ⟨hqL, hq2⟩ := mem_filter_head hq
    have := hlen q hqL
    rw [hq2, List.length_cons] at this
    exact Nat.le_of_succ_le_succ this
  · intro p hp
    obtain ⟨q, hq, rfl⟩ := List.mem_map.1 hp
    obtain ⟨hqL, _⟩ := mem_filter_head hq
    intro c hc
    exact hbits q hqL c (List.mem_of_mem_tail hc)
  · unfold tailsOf
    rw [List.pairwise_map]
    have hsub : (L.filter (fun p => decide (p.2.head? = some b))).Pairwise
        (fun p q => ¬ p.2 <+: q.2 ∧ ¬ q.2 <+: p.2) :=
      hpw.sublist (List.filter_sublist _)
    refine hsub.imp_of_mem ?_
    intro p q hp hq hpq
    have h1 := (mem_filter_head hp).2
    have h2 := (mem_filter_head hq).2
    constructor
    · intro h
      apply hpq.1
      rw [h1, h2]
      exact (List.prefix_cons_inj b).2 h
    · intro h
      apply hpq.2
      rw [h1, h2]
      exact (List.prefix_cons_inj b).2 h

theorem perm_split_heads (L : List (Nat × Str))
    (h : ∀ p ∈ L, p.2.head? = some chr0 ∨ p.2.head? = some chr1) :
    L.Perm (L.filter (fun p => decide (p.2.head? = some chr0))
      ++ L.filter (fun p => decide (p.2.head? = some chr1))) := by
  induction L with
  | nil => simp
  | cons p L ih =>
    have ih' := ih (fun q hq => h q (List.mem_cons_of_mem _ hq))
    rcases h p (List.mem_cons_self _ _) with h0 | h1
    · have hn : ¬ p.2.head? = some chr1 := by rw [h0]; decide
      rw [List.filter_cons_of_pos (by simpa using h0), List.filter_cons_of_neg (by simpa using hn)]
      exact List.Perm.cons p ih'
    · have hn : ¬ p.2.head? = some chr0 := by rw [h1]; decide
      rw [List.filter_cons_of_neg (by simpa using hn), List.filter_cons_of_pos (by simpa using h1)]
      exact (List.Perm.cons p ih').trans List.perm_middle.symm

theorem head?_of_isBits {s : Str} (hb : isBits s) (hne : s ≠ []) :
    s.head? = some chr0 ∨ s.head? = some chr1 := by
  cases s with
  | nil => exact absurd rfl hne
  | cons c s =>
    rcases hb c (List.mem_cons_self _ _) with h | h
    · left; simp [h]
    · right; simp [h]

/-- Two or more code words none of which begins another: none is empty. -/
theorem ne_nil_of_apart (p q : Nat × Str) (rest : List (Nat × Str))
    (hpw : (p :: q :: rest).Pairwise (fun p q => ¬ p.2 <+: q.2 ∧ ¬ q.2 <+: p.2)) :
    ∀ x ∈ p :: q :: rest, x.2 ≠ [] := by
  intro x hx hnil
  rw [List.pairwise_cons] at hpw
  rcases List.mem_cons.1 hx with h | h
  · subst h
    have := (hpw.1 q (List.mem_cons_self _ _)).1
    rw [hnil] at this
    exact this (List.nil_prefix)
  · have := (hpw.1 x h).2
    rw [hnil] at this
    exact this (List.nil_prefix)

/-- A binary code none of whose words begins another can be laid out in a
strictly binary tree: there are tree depths, one for every code word and none
greater than its length. -/
theorem exists_depths_of_prefix_free : ∀ (n : Nat) (L : List (Nat × Str)),
    (∀ p ∈ L, p.2.length ≤ n) → (∀ p ∈ L, isBits p.2) →
    L.Pairwise (fun p q => ¬ p.2 <+: q.2 ∧ ¬ q.2 <+: p.2) → L ≠ [] →
    ∃ P : Multiset (Nat × Nat), P.map Prod.fst = ↑(L.map Prod.fst) ∧
      TreeDepths (P.map Prod.snd) ∧ pairCost P ≤ (L.map (fun p => p.1 * p.2.length)).sum := by
  intro n
  induction n with
  | zero =>
    intro L hlen _ hpw hne
    match L, hne with
    | [p], _ => exact ⟨{(p.1, 0)}, rfl, TreeDepths.single, by simp [pairCost]⟩
    | p :: q :: rest, _ =>
      have := ne_nil_of_apart p q rest hpw p (List.mem_cons_self _ _)
      have h0 := hlen p (List.mem_cons_self _ _)
      exact absurd (List.length_eq_zero.1 (Nat.le_zero.1 h0)) this
  | succ n ih =>
    intro L hlen hbits hpw hne
    match L, hne with
    | [p], _ => exact ⟨{(p.1, 0)}, rfl, TreeDepths.single, by simp [pairCost]⟩
    | p :: q :: rest, _ =>
      have hnn := ne_nil_of_apart p q rest hpw
      have hheads : ∀ x ∈ p :: q :: rest, x.2.head? = some chr0 ∨ x.2.head? = some chr1 :=
        fun x hx => head?_of_isBits (hbits x hx) (hnn x hx)
      have hperm := perm_split_heads (p :: q :: rest) hheads
      obtain ⟨a1, a2, a3⟩ := tailsOf_facts n chr0 (p :: q :: rest) hlen hbits hpw
      obtain ⟨b1, b2, b3⟩ := tailsOf_facts n chr1 (p :: q :: rest) hlen hbits hpw
      have hs0 := sum_tailsOf chr0 (p :: q :: rest)
      have hs1 := sum_tailsOf chr1 (p :: q :: rest)
      have hf0 := map_fst_tailsOf chr0 (p :: q :: rest)
      have hf1 := map_fst_tailsOf chr1 (p :: q :: rest)
      have hsum := (hperm.map (fun p : Nat × Str => p.1 * p.2.length)).sum_eq
      rw [List.map_append, List.sum_append, hs0, hs1] at hsum
      have hfst := hperm.map Prod.fst
      rw [List.map_append, ← hf0, ← hf1] at hfst
      have hneL : p :: q :: rest ≠ [] := List.cons_ne_nil _ _
      generalize p :: q :: rest = L at *
      by_cases h0 : tailsOf chr0 L = []
      · have h1 : tailsOf chr1 L ≠ [] := by
          intro h1
          rw [h0, h1] at hfst
          have := hfst.length_eq
          simp at this
          exact hneL this
        obtain ⟨P, hP1, hP2, hP3⟩ := ih _ b1 b2 b3 h1
        refine ⟨P, ?_, hP2, ?_⟩
        · rw [hP1]
          apply Multiset.coe_eq_coe.2
          rw [h0] at hfst
          exact hfst.symm
        · rw [hsum]; omega
      · by_cases h1 : tailsOf chr1 L = []
        · obtain ⟨P, hP1, hP2, hP3⟩ := ih _ a1 a2 a3 h0
          refine ⟨P, ?_, hP2, ?_⟩
          · rw [hP1]
            apply Multiset.coe_eq_coe.2
            rw [h1, List.map_nil, List.append_nil] at hfst
            exact hfst.symm
          · rw [hsum]; omega
        · obtain ⟨P0, hP1, hP2, hP3⟩ := ih _ a1 a2 a3 h0
          obtain ⟨Q0, hQ1, hQ2, hQ3⟩ := ih _ b1 b2 b3 h1
          refine ⟨P0.map (fun p => (p.1, p.2 + 1)) + Q0.map (fun p => (p.1, p.2 + 1)), ?_, ?_, ?_⟩
          · rw [Multiset.map_add, Multiset.map_map, Multiset.map_map]
            simp only [Function.comp_def]
            rw [hP1, hQ1, Multiset.coe_add]
            exact Multiset.coe_eq_coe.2 hfst.symm
          · rw [Multiset.map_add, Multiset.map_map, Multiset.map_map]
            have := hP2.join hQ2
            rw [Multiset.map_map, Multiset.map_map] at this
            exact this
          · rw [pairCost_add, pairCost_map_succ, pairCost_map_succ, hP1, hQ1, hsum]
            simp only [Multiset.sum_coe]
            rw [hf0, hf1]
            omega

/-! ## The payload as a weighted path length -/

theorem map_pair_eq {α β γ : Type} (f : α → β) (g : α → γ) : ∀ (l : List α) (t : List (β × γ)),
    l.map f = t.map Prod.fst → l.map g = t.map Prod.snd → l.map (fun n => (f n, g n)) = t := by
  intro l
  induction l with
  | nil =>
    intro t h1 _
    cases t with
    | nil => rfl
    | cons x t => simp at h1
  | cons a l ih =>
    intro t h1 h2
    cases t with
    | nil => simp at h1
    | cons x t =>
      simp only [List.map_cons, List.cons.injEq] at h1 h2 ⊢
      exact ⟨Prod.ext h1.1 h2.1, ih t h1.2 h2.2⟩

/-- The leaves of the tree of `makeTree` carry the symbols and counts of the symbol
table, in its order. -/
theorem makeTree_entries (srt : StdSort) (S : Str) (t : Tree) (hmk : makeTree srt S = .ok t) :
    t.freqs.map (fun n => (n.name, n.frequency)) = table S ∧
      t.freqs.map Node.name = (table S).map Prod.fst ∧ (t.freqs.map Node.name).Nodup ∧
      (∀ n ∈ t.freqs, isBits n.code) ∧
      t.freqs.Pairwise (fun a b => ¬ a.code <+: b.code ∧ ¬ b.code <+: a.code) := by
  obtain ⟨r, hmk2, _, _, _, hperm, hn, hf⟩ := makeTree_facts srt S
  rw [hmk] at hmk2
  cases hmk2
  refine ⟨map_pair_eq _ _ _ _ hn hf, hn, ?_, built_freqs_isBits _ r hperm, ?_⟩
  · rw [hn]; exact nodup_keys_table S
  · have h1 : (Node.assign [] r).leaves.Pairwise apart := Node.pairwise_apart_assign r []
    exact (hperm.pairwise_iff (fun {a b} => apart_symm)).2 h1

theorem sum_map_count (S : Str) (g : CChar → Nat) :
    (S.map g).sum = ((firstSeen S).map (fun x => S.count x * g x)).sum := by
  have h1 := Finset.sum_multiset_map_count (↑S : Multiset CChar) g
  rw [Multiset.map_coe, Multiset.sum_coe] at h1
  rw [h1]
  have h2 : (↑S : Multiset CChar).toFinset = (firstSeen S).toFinset := by
    ext x
    simp [mem_firstSeen]
  rw [h2, List.sum_toFinset _ (nodup_firstSeen S)]
  simp

/-- The length of the payload of the bytes `S` under a code is the sum over the
symbol table of count times length of the code word. -/
theorem payload_length (S : Str) (code : Str → Str) :
    (S.flatMap (fun c => code [c]) ++ code EOF).length
      = ((table S).map (fun x => x.2 * (code x.1).length)).sum := by
  rw [table_eq, List.length_append, List.length_flatMap, List.map_append, List.sum_append,
    List.map_map]
  have := sum_map_count S (fun c => (code [c]).length)
  simp only [Function.comp_def] at this ⊢
  rw [this]
  simp

theorem weightedLength_eq (srt : StdSort) (S : Str) (t : Tree) (hmk : makeTree srt S = .ok t) :
    t.weightedLength = ((table S).map (fun x => x.2 * (t.codeOf x.1).length)).sum := by
  obtain ⟨h1, _, hnd, _, _⟩ := makeTree_entries srt S t hmk
  rw [← h1, List.map_map]
  unfold Tree.weightedLength
  congr 1
  apply List.map_congr_left
  intro n hn
  simp only [Function.comp_def]
  rw [Tree.codeOf_of_mem hnd hn]

/-- The second formulation: the weighted path length of the tree of `makeTree` is
not above the cost of any binary code for the symbols none of whose words begins
another. -/
theorem makeTree_optimal_code (srt : StdSort) (S : Str) (t : Tree) (hmk : makeTree srt S = .ok t) (code : Str → Str)
    (hbits : ∀ x ∈ (table S).map Prod.fst, isBits (code x))
    (hpw : ((table S).map Prod.fst).Pairwise
      (fun x y => ¬ code x <+: code y ∧ ¬ code y <+: code x)) :
    t.weightedLength ≤ ((table S).map (fun x => x.2 * (code x.1).length)).sum := by
  obtain ⟨t2, r, hmk2, _, _, _, _, hopt⟩ := makeTree_optimal srt S
  rw [hmk] at hmk2
  cases hmk2
  have hL := exists_depths_of_prefix_free
    (((table S).map (fun x => (x.2, code x.1))).map (fun p => p.2.length)).sum
    ((table S).map (fun x => (x.2, code x.1))) ?_ ?_ ?_ ?_
  · obtain ⟨P, hP1, hP2, hP3⟩ := hL
    rw [List.map_map] at hP1 hP3
    exact Nat.le_trans (hopt P hP1 hP2) hP3
  · intro p hp
    exact List.single_le_sum (fun _ _ => Nat.zero_le _) _ (List.mem_map_of_mem _ hp)
  · intro p hp
    obtain ⟨x, hx, rfl⟩ := List.mem_map.1 hp
    exact hbits x.1 (List.mem_map_of_mem _ hx)
  · rw [List.pairwise_map] at hpw ⊢
    exact hpw
  · intro h
    have := congrArg List.length h
    rw [List.length_map, length_table] at this
    simp at this

/-! ## The payload in the output of `encode` -/

/-- What `encode` builds from the bytes `S` with the tree of `makeTree`: the
serialized tree, the payload, fewer than 8 padding bits. -/
theorem encode_payload (srt : StdSort) (S : Str) (t : Tree) (hmk : makeTree srt S = .ok t) :
    ∃ enc e k, t.Encode = .ok (enc, t) ∧ encode S t = .ok e ∧ k < 8 ∧
      e.fileBits
        = enc ++ (S.flatMap (fun c => t.codeOf [c]) ++ t.codeOf EOF) ++ List.replicate k chr0 := by
  obtain ⟨r, hmk2, _, _, _, _, hnames, _⟩ := makeTree_facts srt S
  rw [hmk] at hmk2
  cases hmk2
  have hS : ∀ c ∈ S, [c] ∈ (Tree.built (leavesFrom 0 (table S)) r).freqs.map Node.name := by
    intro c hc
    rw [hnames, mem_keys_table]
    exact Or.inr ⟨c, hc, rfl⟩
  have hEOF : EOF ∈ (Tree.built (leavesFrom 0 (table S)) r).freqs.map Node.name := by
    rw [hnames, mem_keys_table]
    exact Or.inl rfl
  obtain ⟨e, he, hbits, _, _⟩ := encode_eq _ _ S (Tree.Encode_built _ r) hS hEOF
  have hf := fileBits_facts (charToByte (Fin.ofNat r.leaves.length) ++ r.serial
    ++ S.flatMap (fun c => (Tree.built (leavesFrom 0 (table S)) r).codeOf [c])
    ++ (Tree.built (leavesFrom 0 (table S)) r).codeOf EOF)
  refine ⟨_, e, _, Tree.Encode_built _ r, he, hf.2.1, ?_⟩
  rw [hbits]
  simp only [List.append_assoc]

/-! ## The bits of a byte -/

theorem bits8_get (n k : Nat) (hk : k < 8) :
    (bits8 n).get? k = some (if n / 2 ^ (7 - k) % 2 = 1 then chr1 else chr0) := by
  unfold bits8
  rw [List.get?_eq_getElem?, List.getElem?_map, List.getElem?_range hk]
  simp only [Option.map_some']
  rcases Nat.mod_two_eq_zero_or_one (n / 2 ^ (7 - k)) with h | h
  · rw [h]; rfl
  · rw [h]; rfl

/-! ## What `std::sort` can do to one or two nodes -/

theorem StdSort.run_singleton (srt : StdSort) (a : Node) : srt.run [a] = [a] :=
  List.perm_singleton.1 (srt.perm [a])

theorem StdSort.run_pair (srt : StdSort) (a b : Node) :
    srt.run [a, b] = [a, b] ∨ srt.run [a, b] = [b, a] := by
  have hp := srt.perm [a, b]
  have hlen := hp.length_eq
  match h : srt.run [a, b], hlen with
  | [x, y], _ =>
    rw [h] at hp
    have hx : x ∈ [a, b] := hp.subset (List.mem_cons_self _ _)
    simp only [List.mem_cons, List.mem_singleton, List.not_mem_nil, or_false] at hx
    rcases hx with hx | hx
    · subst hx
      have := List.perm_singleton.1 ((List.perm_cons x).1 hp)
      left; rw [this]
    · subst hx
      have h2 : [x, y].Perm [x, a] := hp.trans (List.Perm.swap x a [])
      have := List.perm_singleton.1 ((List.perm_cons x).1 h2)
      right; rw [this]

theorem Tree.Huffman_eq_huffmanFrom (srt : StdSort) (t : Tree) :
    t.Huffman srt = Tree.huffmanFrom (srt.run t.huffList) t := rfl

theorem makeTree_nil (srt : StdSort) : makeTree srt [] = .ok emptyTree := by
  rw [makeTree_eq_countingPass, Tree.Huffman_eq_huffmanFrom]
  have h : (countingPass []).huffList = [Node.leaf 0 EOF [] 1] := by decide
  rw [h, srt.run_singleton]
  decide

/-- The two trees `makeTree` can build from the one-byte input `0xFF`, whose two
leaves have the same frequency. -/
theorem makeTree_FF (srt : StdSort) :
    makeTree srt [255] = .ok treeFF ∨ makeTree srt [255] = .ok treeFFr := by
  rw [makeTree_eq_countingPass, Tree.Huffman_eq_huffmanFrom]
  have h : (countingPass [255]).huffList = [Node.leaf 0 [255] [] 1, Node.leaf 1 EOF [] 1] := by
    decide
  rw [h]
  rcases srt.run_pair (Node.leaf 0 [255] [] 1) (Node.leaf 1 EOF [] 1) with h2 | h2
  · left; rw [h2]; decide
  · right; rw [h2]; decide

/-! ## The errors of the decoder -/

theorem strAt_error {s : Str} {i : Nat} {e : Fault} (h : strAt s i = .error e) :
    e = .undefined := by
  unfold strAt at h
  split at h
  · simp at h
  · split at h
    · simp at h
    · simp only [Except.error.injEq] at h
      exact h.symm

theorem nextByteLoop_error (code : Str) : ∀ (k i : Nat) (byte : Str) (e : Fault),
    nextByteLoop code k i byte = .error e → e = .undefined := by
  intro k
  induction k with
  | zero => intro i byte e h; simp [nextByteLoop] at h
  | succ k ih =>
    intro i byte e h
    unfold nextByteLoop at h
    cases hs : strAt code i with
    | error e2 =>
      simp only [hs, Except.error.injEq] at h
      subst h
      exact strAt_error hs
    | ok c =>
      simp only [hs] at h
      exact ih _ _ _ h

theorem nextByteLoop_ok_le (code : Str) : ∀ (k i : Nat) (byte out : Str),
    nextByteLoop code (k + 1) i byte = .ok out → i + k ≤ code.length := by
  intro k
  induction k with
  | zero =>
    intro i byte out h
    unfold nextByteLoop at h
    cases hs : strAt code i with
    | error e => simp [hs] at h
    | ok c => exact (strAt_ok_le hs).1
  | succ k ih =>
    intro i byte out h
    unfold nextByteLoop at h
    cases hs : strAt code i with
    | error e => simp [hs] at h
    | ok c =>
      simp only [hs] at h
      have := ih _ _ _ h
      omega

theorem decodeLeaf_error {enc : Str} {st : DecState} {e : Fault}
    (h : decodeLeaf enc st = .error e) : e = .undefined := by
  unfold decodeLeaf at h
  cases hs : strAt enc st.i with
  | error e2 =>
    simp only [hs, Except.error.injEq] at h
    subst h; exact strAt_error hs
  | ok c =>
    simp only [hs] at h
    by_cases h1 : c = chr1
    · simp only [h1, if_true] at h
      cases hn : nextByte (st.i + 1) enc with
      | error e2 =>
        simp only [hn, Except.error.injEq] at h
        subst h
        exact nextByteLoop_error enc 8 _ _ _ hn
      | ok byte => simp [hn] at h
    · simp [h1] at h

theorem decodeInternal_error {enc : Str} {st : DecState} {e : Fault}
    (h : decodeInternal enc st = .error e) : e = .undefined := by
  unfold decodeInternal at h
  cases hs : strAt enc st.i with
  | error e2 =>
    simp only [hs, Except.error.injEq] at h
    subst h; exact strAt_error hs
  | ok c =>
    simp only [hs] at h
    by_cases h0 : c = chr0
    · simp only [h0, if_true] at h
      cases hst : st.s with
      | nil => simp only [hst, Except.error.injEq] at h; exact h.symm
      | cons n1 tl =>
        cases tl with
        | nil => simp only [hst, Except.error.injEq] at h; exact h.symm
        | cons n2 tl => simp [hst] at h
    · simp [h0] at h

theorem decodeTreeBody_error {enc : Str} {st : DecState} {e : Fault}
    (h : decodeTreeBody enc st = .error e) (hi : st.i ≤ enc.length) : e = .undefined := by
  unfold decodeTreeBody at h
  rw [if_neg (by omega)] at h
  cases hl : decodeLeaf enc st with
  | error e2 =>
    simp only [hl, Except.error.injEq] at h
    subst h; exact decodeLeaf_error hl
  | ok st1 =>
    simp only [hl] at h
    exact decodeInternal_error h

/-- From a read position within the bit string, the loop of `decodeTree` does not
reach the `throw`: what it can end in besides a tree is undefined behaviour. -/
theorem decodeTreeLoop_error (enc : Str) (numLeaves : Nat) :
    ∀ (fuel : Nat) (st : DecState) (e : Fault),
    decodeTreeLoop enc numLeaves fuel st = some (.error e) → st.positioned →
    st.i ≤ enc.length → e = .undefined := by
  intro fuel
  induction fuel with
  | zero => intro st e h _ _; simp [decodeTreeLoop] at h
  | succ k ih =>
    intro st e h hp hi
    unfold decodeTreeLoop at h
    split at h
    · cases hb : decodeTreeBody enc st with
      | error e2 =>
        simp only [hb, Option.some.injEq, Except.error.injEq] at h
        subst h
        exact decodeTreeBody_error hb hi
      | ok st1 =>
        simp only [hb] at h
        obtain ⟨h1, h2⟩ := decodeTreeBody_positioned hb hp
        exact ih st1 e h h1 h2
    · simp at h

theorem decodeTreeEnd_error {st : DecState} {e : Fault} (h : decodeTreeEnd st = .error e) :
    e = .undefined := by
  unfold decodeTreeEnd at h
  cases hs : st.s with
  | nil => simp only [hs, Except.error.injEq] at h; exact h.symm
  | cons top tl => simp [hs, Tree.postOrder] at h

/-- On a bit string of whole bytes `decodeTree` never throws `invalid_argument`. -/
theorem decodeTree_error {fuel : Nat} {b : Str} {e : Fault} (h8 : b.length % 8 = 0)
    (h : decodeTree fuel b = some (.error e)) : e = .undefined := by
  unfold decodeTree at h
  cases hr : decodeTreeRun fuel b with
  | none => simp [hr] at h
  | some res =>
    cases res with
    | ok st =>
      simp only [hr, Option.some.injEq] at h
      exact decodeTreeEnd_error h
    | error e2 =>
      simp only [hr, Option.some.injEq, Except.error.injEq] at h
      subst h
      unfold decodeTreeRun at hr
      cases hn : nextByte 0 b with
      | error e3 =>
        simp only [hn, Option.some.injEq, Except.error.injEq] at hr
        subst hr
        exact nextByteLoop_error b 8 _ _ _ hn
      | ok leafByte =>
        simp only [hn] at hr
        have hle := nextByteLoop_ok_le b 7 0 [] leafByte hn
        exact decodeTreeLoop_error b _ fuel _ _ hr rfl (by show 8 ≤ b.length; omega)

theorem length_flatMap_charToByte (file : Str) :
    (file.flatMap charToByte).length = 8 * file.length := by
  induction file with
  | nil => rfl
  | cons c file ih =>
    simp only [List.flatMap_cons, List.length_append, charToByte_length, ih, List.length_cons]
    omega

/-- Whatever the bytes of the file, `decode` does not end in the `throw` of
`decodeTree`. -/
theorem decode_error {fuel : Nat} {file : Str} {e : Fault}
    (h : decode fuel file = some (.error e)) : e = .undefined := by
  unfold decode decodeBytes at h
  have h8 : (file.flatMap charToByte).length % 8 = 0 := by
    rw [length_flatMap_charToByte]; omega
  cases hr : decodeTree fuel (file.flatMap charToByte) with
  | none => simp [hr] at h
  | some res =>
    cases res with
    | error e2 =>
      simp only [hr, Option.some.injEq, Except.error.injEq] at h
      subst h
      exact decodeTree_error h8 hr
    | ok t =>
      simp only [hr] at h
      obtain ⟨_, _, top, _, _, _, _, ht⟩ := decodeTree_ok hr
      obtain ⟨enc, t2, henc⟩ := Encode_of_root (t := t) (r := Node.assign [] top) (by rw [ht])
      simp [henc] at h

theorem head_bits8 (n : Nat) (h : n < 128) : ∃ tl, bits8 n = chr0 :: tl := by
  refine ⟨(bits8 n).tail, ?_⟩
  unfold bits8
  have h0 : n / 128 = 0 := Nat.div_eq_of_lt h
  simp [List.range_succ_eq_map, h0]
  rfl

/-- A file of two or more bytes whose first byte is not 0 and whose second byte is
below 128, as in every ASCII text: the first byte is read as a leaf count, the
first bit of the second byte as an internal node, and two nodes are popped off
the empty stack. -/
theorem decode_text (c1 c2 : CChar) (rest : Str) (h1 : c1 ≠ 0) (h2 : c2.val < 128)
    (fuel : Nat) : decode (fuel + 1) (c1 :: c2 :: rest) = some (.error .undefined) := by
  obtain ⟨tl, htl⟩ := head_bits8 c2.val h2
  have hb : (c1 :: c2 :: rest).flatMap charToByte
      = charToByte c1 ++ (chr0 :: (tl ++ rest.flatMap charToByte)) := by
    simp only [List.flatMap_cons, charToByte_eq_bits8 c2, htl, List.cons_append]
  have hnb : nextByte 0 ((c1 :: c2 :: rest).flatMap charToByte) = .ok (charToByte c1) :=
    nextByte_of_drop (chr0 :: (tl ++ rest.flatMap charToByte)) (by rw [hb]; rfl)
      (charToByte_length c1)
  have hpos : 0 < c1.val := by
    rcases Nat.eq_zero_or_pos c1.val with h | h
    · exact absurd (Fin.ext h) h1
    · exact h
  have hdrop : ((c1 :: c2 :: rest).flatMap charToByte).drop 8
      = chr0 :: (tl ++ rest.flatMap charToByte) := by
    rw [hb]
    have := charToByte_length c1
    rw [← this, List.drop_left]
  have hlen : 8 ≤ ((c1 :: c2 :: rest).flatMap charToByte).length := by
    rw [length_flatMap_charToByte]; simp
  have hs := strAt_of_drop (i := 8) _ hdrop
  have hrun : decodeTreeRun (fuel + 1) ((c1 :: c2 :: rest).flatMap charToByte)
      = some (.error .undefined) := by
    unfold decodeTreeRun
    rw [hnb]
    simp only [byteToChar_charToByte]
    unfold decodeTreeLoop
    rw [if_pos (Or.inl hpos)]
    have hbody : decodeTreeBody ((c1 :: c2 :: rest).flatMap charToByte)
        { i := 8, s := [], freqs := [], leavesFound := 0 } = .error .undefined := by
      unfold decodeTreeBody
      rw [if_neg (by show ¬ 8 > _; omega)]
      have hleaf : decodeLeaf ((c1 :: c2 :: rest).flatMap charToByte)
          { i := 8, s := [], freqs := [], leavesFound := 0 }
          = .ok { i := 8, s := [], freqs := [], leavesFound := 0 } :=
        @decodeLeaf_other _ { i := 8, s := [], freqs := [], leavesFound := 0 } _ _ hdrop
          (by decide)
      rw [hleaf]
      simp only [decodeInternal, hs, if_true]
    rw [hbody]
  unfold decode decodeBytes decodeTree
  rw [hrun]

/-- The bytes of the text `go go gophers` are not what `encode` writes for any
input: an output with the leaf count 103 comes from an input with 102 distinct
byte values and has more than the 104 bits of 13 bytes. -/
theorem gophers_not_encoded (srt : StdSort) (S : Str) (t : Tree) (e : Encoded)
    (hmk : makeTree srt S = .ok t) (he : encode S t = .ok e) : e.output ≠ gophers := by
  intro hout
  obtain ⟨h1, h2, h3⟩ := encode_output_facts srt S t e hmk he
  rw [hout] at h1
  have hbits : e.fileBits = gophers.flatMap charToByte := h1.symm
  have hlen : e.fileBits.length = 104 := by rw [hbits]; decide
  have htake : charToByte (Fin.ofNat (distinct S + 1)) = charToByte 103 := by
    rw [← h2, hbits]; decide
  have hfin : (Fin.ofNat (distinct S + 1) : CChar) = 103 := by
    have := congrArg byteToChar htake
    rwa [byteToChar_charToByte, byteToChar_charToByte] at this
  have hmod : (distinct S + 1) % 256 = 103 := by
    have := congrArg Fin.val hfin
    simpa [Fin.ofNat] using this
  have h256 := distinct_le_256 S
  have hd : distinct S = 102 := by omega
  have hS := distinct_le_length S
  have := h3 (by omega)
  omega

/-- The six bytes `stream6`, which `encode` writes for no input, are decoded to the
text `a`. -/
theorem decode_stream6 : ∀ fuel, decode (fuel + 7) stream6 = some (.ok [97]) :=
  fun _ => rfl

/-! ## The input `0xFF` under every `std::sort` -/

theorem decodeBytes_ne_of_three {bits : Str}
    (h : ∀ fuel, decodeBytes (fuel + 3) bits = some (.ok []))
    (h0 : decodeBytes 0 bits ≠ some (.ok [255])) (h1 : decodeBytes 1 bits ≠ some (.ok [255]))
    (h2 : decodeBytes 2 bits ≠ some (.ok [255])) :
    ∀ fuel, decodeBytes fuel bits ≠ some (.ok [255]) := by
  intro fuel
  match fuel with
  | 0 => exact h0
  | 1 => exact h1
  | 2 => exact h2
  | k + 3 => rw [h k]; decide

/-- Whatever `std::sort` does with the two leaves of the input `0xFF`, decoding what
`encode` builds returns the empty sequence. -/
theorem round_trip_FF (srt : StdSort) :
    ∃ t e, makeTree srt [255] = .ok t ∧ encode [255] t = .ok e ∧
      (∀ fuel, decodeBytes (fuel + 3) e.fileBits = some (.ok [])) ∧
      ∀ fuel, decodeBytes fuel e.fileBits ≠ some (.ok [255]) := by
  rcases makeTree_FF srt with h | h
  · have he : encode [255] treeFF
        = .ok { fileBits := bitsFF, output := [2, 255, 255, 200], encodedSize := 4 } := by
      decide
    have h3 : ∀ fuel, decodeBytes (fuel + 3) bitsFF = some (.ok []) := fun _ => rfl
    exact ⟨_, _, h, he, h3,
      decodeBytes_ne_of_three h3 (by decide) (by decide) (by decide)⟩
  · have he : encode [255] treeFFr
        = .ok { fileBits := serialFF ++ [49, 48, 48, 48, 48], output := [2, 255, 255, 208],
                encodedSize := 4 } := by
      decide
    have h3 : ∀ fuel, decodeBytes (fuel + 3) (serialFF ++ [49, 48, 48, 48, 48])
        = some (.ok []) := fun _ => rfl
    exact ⟨_, _, h, he, h3,
      decodeBytes_ne_of_three h3 (by decide) (by decide) (by decide)⟩

/-- Whatever `std::sort` does with the two leaves of the input `0xFF`, the
serialized tree is `serialFF`, with the all-ones symbol field for both leaves. -/
theorem tree_codec_FF (srt : StdSort) :
    ∃ t r, makeTree srt [255] = .ok t ∧ t.root = some r ∧ t.Encode = .ok (serialFF, t) ∧
      [255] ∈ r.leaves.map Node.name ∧
      ∃ n ∈ r.nodes, n.isLeaf = true ∧ n.name = [255] ∧
        Tree.encodeNode n = chr1 :: allOnes := by
  rcases makeTree_FF srt with h | h
  · exact ⟨_, _, h, rfl, by decide, by decide, Node.leaf 0 [255] [48] 1, by decide, rfl, rfl,
      by decide⟩
  · exact ⟨_, _, h, rfl, by decide, by decide, Node.leaf 0 [255] [49] 1, by decide, rfl, rfl,
      by decide⟩

/-! ## The text `abcdefghijklmnop` under the order of libstdc++ -/

theorem huffList_aToP : (countingPass aToP).huffList = aToPLeaves := by decide

theorem run_tracedSort_aToP : tracedSort.run (countingPass aToP).huffList = aToPSorted := by
  rw [huffList_aToP]; rfl

set_option maxRecDepth 100000 in
theorem output_tracedSort_aToP :
    ∃ t e, makeTree tracedSort aToP = .ok t ∧ encode aToP t = .ok e ∧ e.output = aToPBytes := by
  have h : ((Tree.huffmanFrom aToPSorted (countingPass aToP)).bind
      (fun t => (encode aToP t).map (fun e => e.output))) = .ok aToPBytes := by decide
  have hmk : makeTree tracedSort aToP = Tree.huffmanFrom aToPSorted (countingPass aToP) := by
    rw [makeTree_eq_countingPass, Tree.Huffman_eq_huffmanFrom, run_tracedSort_aToP]
  rw [← hmk] at h
  cases hm : makeTree tracedSort aToP with
  | error e => rw [hm] at h; simp [Except.bind] at h
  | ok t =>
    rw [hm] at h
    cases he : encode aToP t with
    | error e => simp [Except.bind, he, Except.map] at h
    | ok e =>
      simp only [Except.bind, he, Except.map, Except.ok.injEq] at h
      exact ⟨t, e, rfl, he, h⟩

theorem fileBits_tracedSort_aToP (t : Tree) (e : Encoded) (hmk : makeTree tracedSort aToP = .ok t)
    (he : encode aToP t = .ok e) : e.output = aToPBytes ∧ e.fileBits.length = 248 := by
  obtain ⟨t2, e2, hmk2, he2, hout⟩ := output_tracedSort_aToP
  rw [hmk] at hmk2
  cases hmk2
  rw [he] at he2
  cases he2
  refine ⟨hout, ?_⟩
  have h := (encode_output_facts tracedSort aToP t e hmk he).1
  rw [← h, hout, length_flatMap_charToByte]
  rfl

set_option maxRecDepth 100000 in
theorem weightedLength_tracedSort_aToP (t : Tree) (hmk : makeTree tracedSort aToP = .ok t) :
    t.weightedLength = 70 := by
  have h : (Tree.huffmanFrom aToPSorted (countingPass aToP)).map Tree.weightedLength
      = .ok 70 := by decide
  have hmk2 : makeTree tracedSort aToP = Tree.huffmanFrom aToPSorted (countingPass aToP) := by
    rw [makeTree_eq_countingPass, Tree.Huffman_eq_huffmanFrom, run_tracedSort_aToP]
  rw [← hmk2, hmk] at h
  simpa [Except.map] using h

theorem isBits_fiveBits (x : Str) : isBits (fiveBits x) := by
  unfold fiveBits
  split
  · intro c hc
    simp only [List.mem_cons, List.mem_singleton, List.not_mem_nil, or_false] at hc
    rcases hc with h | h | h | h | h
    · right; exact h
    · left; exact h
    · left; exact h
    · left; exact h
    · left; exact h
  · intro c hc
    rcases List.mem_cons.1 hc with h | h
    · left; exact h
    · exact isBits_bits8 _ c (List.mem_of_mem_drop h)

/-! ## The stated properties -/

/-- C1, as amended: whatever order `std::sort` leaves nodes of equal frequency in,
for every non-empty byte sequence `S` without the byte 0xFF and with at most 254
distinct byte values, the tree is built, `encode` succeeds, and decoding returns
exactly `S`, both from the bit string of `encode` (`decodeBytes`) and from the
bytes it writes to the compressed file (`decode`). -/
theorem round_trip (srt : StdSort) (S : Str) (hne : S ≠ []) (hFF : (255 : CChar) ∉ S)
    (hd : distinct S ≤ 254) :
    ∃ t e, makeTree srt S = .ok t ∧ encode S t = .ok e ∧
      ∀ fuel, e.fileBits.length ≤ fuel →
        decodeBytes fuel e.fileBits = some (.ok S) ∧ decode fuel e.output = some (.ok S) := by
  obtain ⟨t, r, e, hmk, _, hlen, _, he, hbits, _, hout, hdec⟩ := round_trip_core srt S hne hFF hd
  obtain ⟨r0, hmk0, _, _, _, hperm, _, _⟩ := makeTree_facts srt S
  have ht : t = Tree.built (leavesFrom 0 (table S)) r0 := by
    rw [hmk] at hmk0; exact Except.ok.inj hmk0
  refine ⟨t, e, hmk, he, ?_⟩
  intro fuel hf
  have hL : 2 * r.leaves.length ≤ fuel := by
    have h1 := congrArg List.length hbits
    have h2 := Node.length_serial r
    simp only [List.length_append, charToByte_length] at h1
    omega
  have hb : isBits e.fileBits := by
    rw [hbits]
    have hc : ∀ n ∈ t.freqs, isBits n.code := by
      rw [ht]; exact built_freqs_isBits _ r0 hperm
    exact isBits_append
      (isBits_append
        (isBits_append (isBits_append (isBits_charToByte _) (isBits_serial r))
          (isBits_flatMap _ S (fun c _ => isBits_codeOf t hc [c])))
        (isBits_codeOf t hc EOF))
      (isBits_replicate _)
  have h8 : e.fileBits.length % 8 = 0 := by
    rw [hbits]; exact (fileBits_facts _).1
  refine ⟨hdec fuel hL, ?_⟩
  unfold decode
  rw [hout, flatMap_charToByte_output e.fileBits hb h8]
  exact hdec fuel hL

/-- C1 at the text `abcdefghijklmnop`: its 17 leaves all have the frequency 1, so
the tree and the bits depend on what `std::sort` does with equal frequencies;
the round trip holds whatever it does. With the order of libstdc++
(`tracedSort`) `encode` writes the 31 bytes `aToPBytes`, and `decode` returns the
text from them. -/
theorem round_trip_a_to_p :
    aToP ≠ [] ∧ (255 : CChar) ∉ aToP ∧ distinct aToP ≤ 254 ∧
      (∀ srt : StdSort, ∃ t e, makeTree srt aToP = .ok t ∧ encode aToP t = .ok e ∧
        ∀ fuel, e.fileBits.length ≤ fuel →
          decodeBytes fuel e.fileBits = some (.ok aToP) ∧
            decode fuel e.output = some (.ok aToP)) ∧
      ∃ t e, makeTree tracedSort aToP = .ok t ∧ encode aToP t = .ok e ∧
        e.output = aToPBytes ∧
        ∀ fuel, 248 ≤ fuel → decode fuel aToPBytes = some (.ok aToP) := by
  refine ⟨by decide, by decide, by decide,
    fun srt => round_trip srt aToP (by decide) (by decide) (by decide), ?_⟩
  obtain ⟨t, e, hmk, he, hrt⟩ := round_trip tracedSort aToP (by decide) (by decide) (by decide)
  obtain ⟨hout, hlen⟩ := fileBits_tracedSort_aToP t e hmk he
  refine ⟨t, e, hmk, he, hout, ?_⟩
  intro fuel hf
  rw [← hout]
  exact (hrt fuel (by omega)).2

/-- C1, counterexample: for the one-byte input `0xFF` the tree is built and
`encode` produces `bitsFF` (when `std::sort` leaves the two leaves as
`insertionSort` does), but decoding it returns the empty sequence, and no
amount of fuel makes `decodeBytes` return the input; and whatever `std::sort`
does with the two leaves, decoding what `encode` builds returns the empty
sequence and never the input. -/
theorem round_trip_fails_on_0xFF :
    makeTree insertionSort [255] = .ok treeFF ∧
      encode [255] treeFF
        = .ok { fileBits := bitsFF, output := [2, 255, 255, 200], encodedSize := 4 } ∧
      (∀ fuel, decodeBytes (fuel + 3) bitsFF = some (.ok [])) ∧
      (∀ fuel, decodeBytes fuel bitsFF ≠ some (.ok [255])) ∧
      ∀ srt : StdSort, ∃ t e, makeTree srt [255] = .ok t ∧ encode [255] t = .ok e ∧
        (∀ fuel, decodeBytes (fuel + 3) e.fileBits = some (.ok [])) ∧
        ∀ fuel, decodeBytes fuel e.fileBits ≠ some (.ok [255]) :=
  ⟨by decide, by decide, fun _ => rfl,
    decodeBytes_ne_of_three (fun _ => rfl) (by decide) (by decide) (by decide), round_trip_FF⟩

/-- C2: whatever order `std::sort` leaves nodes of equal frequency in, for every
non-empty byte sequence `S` that contains no byte 0xFF and has at most 254
distinct byte values, the tree built from `S` has between 2 and 255
leaves, the bit string of `encode` is the serialized tree, the leaf codes of the
bytes, the `EOF` code and `k < 8` zero bits, and `decodeBytes` returns exactly `S`
from it. -/
theorem restricted_round_trip (srt : StdSort) (S : Str) (hne : S ≠ []) (hFF : (255 : CChar) ∉ S)
    (hd : distinct S ≤ 254) :
    ∃ t enc e k, makeTree srt S = .ok t ∧ t.Encode = .ok (enc, t) ∧ encode S t = .ok e ∧
      2 ≤ t.freqs.length ∧ t.freqs.length ≤ 255 ∧ k < 8 ∧
      e.fileBits
        = enc ++ S.flatMap (fun c => t.codeOf [c]) ++ t.codeOf EOF ++ List.replicate k chr0 ∧
      ∀ fuel, e.fileBits.length ≤ fuel → decodeBytes fuel e.fileBits = some (.ok S) := by
  obtain ⟨t, r, e, hmk, _, hlen, henc, he, hbits, _, _, hdec⟩ := round_trip_core srt S hne hFF hd
  obtain ⟨r0, hmk0, _, _, hlen0, hperm, _, _⟩ := makeTree_facts srt S
  have ht : t = Tree.built (leavesFrom 0 (table S)) r0 := by
    rw [hmk] at hmk0; exact Except.ok.inj hmk0
  have hfl : t.freqs.length = distinct S + 1 := by
    rw [ht, hperm.length_eq, Node.length_leaves_assign, hlen0]
  have h1 := one_le_distinct hne
  refine ⟨t, _, e, _, hmk, henc, he, by omega, by omega, (fileBits_facts _).2.1, hbits, ?_⟩
  intro fuel hf
  apply hdec
  have h1 := congrArg List.length hbits
  have h2 := Node.length_serial r
  simp only [List.length_append, charToByte_length] at h1
  omega

/-- C2 at the text `abcdefghijklmnop`, whose 17 leaves all have the frequency 1: it
satisfies the hypotheses of `restricted_round_trip`, hence round-trips whatever
`std::sort` does with equal frequencies. -/
theorem restricted_round_trip_a_to_p :
    aToP ≠ [] ∧ (255 : CChar) ∉ aToP ∧ distinct aToP ≤ 254 ∧
      ∀ srt : StdSort, ∃ t enc e k, makeTree srt aToP = .ok t ∧ t.Encode = .ok (enc, t) ∧
        encode aToP t = .ok e ∧ 2 ≤ t.freqs.length ∧ t.freqs.length ≤ 255 ∧ k < 8 ∧
        e.fileBits = enc ++ aToP.flatMap (fun c => t.codeOf [c]) ++ t.codeOf EOF
          ++ List.replicate k chr0 ∧
        ∀ fuel, e.fileBits.length ≤ fuel → decodeBytes fuel e.fileBits = some (.ok aToP) :=
  ⟨by decide, by decide, by decide,
    fun srt => restricted_round_trip srt aToP (by decide) (by decide) (by decide)⟩

/-- C3, the code at the failing input: for the empty input the tree is the `EOF`
leaf alone, whatever `std::sort` is, and `encode` produces the byte-aligned bit string `emptyBits`, but
`decodeBytes` on it ends in undefined behaviour. After the leaf, the second `if`
of the loop of `decodeTree` takes the first padding bit `0` for an internal
node and pops two nodes off a stack that holds one. -/
theorem empty_input_decode_undefined :
    (∀ srt : StdSort, makeTree srt [] = .ok emptyTree) ∧
      emptyTree.root = some (Node.leaf 0 EOF [] 1) ∧
      encode [] emptyTree
        = .ok { fileBits := emptyBits, output := [1, 255, 128], encodedSize := 3 } ∧
      emptyBits.length % 8 = 0 ∧
      ∀ fuel, decodeBytes (fuel + 1) emptyBits = some (.error .undefined) := by
  refine ⟨makeTree_nil, rfl, by decide, by decide, fun fuel => rfl⟩

/-- C4, as amended: whatever order `std::sort` leaves nodes of equal frequency in,
for every non-empty byte sequence `S` without the byte 0xFF and with at most 254
distinct byte values, `decodeTree` applied to the serialization
of the built tree, whatever bits follow it, returns a tree of the same shape
with the same symbol and the same code at every leaf position; its `freqs` are
its leaves in postorder, and they carry the same symbols with the same codes
as the leaves of the built tree. -/
theorem tree_codec_round_trip (srt : StdSort) (S : Str) (hne : S ≠ []) (hFF : (255 : CChar) ∉ S)
    (hd : distinct S ≤ 254) :
    ∃ t r enc, makeTree srt S = .ok t ∧ t.root = some r ∧ t.Encode = .ok (enc, t) ∧
      ∀ (post : Str) (fuel : Nat), enc.length ≤ fuel →
        ∃ t2 r2, decodeTree fuel (enc ++ post) = some (.ok t2) ∧ t2.root = some r2 ∧
          r2.sameAs r ∧ t2.freqs = r2.leaves ∧
          (t2.freqs.map Node.entry).Perm (t.freqs.map Node.entry) := by
  obtain ⟨r, hmk, hp, hint, hlen, hperm, _, _⟩ := makeTree_facts srt S
  have hint' := hint (one_le_distinct hne)
  have hg := goodName_of_table S hFF r hp
  refine ⟨_, _, _, hmk, rfl, Tree.Encode_built _ r, ?_⟩
  intro post fuel hf
  have hL : 2 * r.leaves.length ≤ fuel := by
    have h2 := Node.length_serial r
    simp only [List.length_append, charToByte_length] at hf
    omega
  obtain ⟨hfreqs, _, _⟩ := built_rebuild_facts r hint'
  refine ⟨_, _, decodeTree_serial r hint' (by omega) post fuel hL, rfl,
    Node.sameAs_assign_rebuild r [] 0 hg, hfreqs, ?_⟩
  rw [hfreqs, Node.entries_assign_rebuild r [] 0 hg]
  exact (hperm.map Node.entry).symm

/-- C4 at the text `abcdefghijklmnop`, whose 17 leaves all have the frequency 1: the
hypotheses of `tree_codec_round_trip` hold, and so does its conclusion whatever
`std::sort` does with equal frequencies. -/
theorem tree_codec_round_trip_a_to_p :
    aToP ≠ [] ∧ (255 : CChar) ∉ aToP ∧ distinct aToP ≤ 254 ∧
      ∀ srt : StdSort,
      ∃ t r enc, makeTree srt aToP = .ok t ∧ t.root = some r ∧ t.Encode = .ok (enc, t) ∧
        ∀ (post : Str) (fuel : Nat), enc.length ≤ fuel →
          ∃ t2 r2, decodeTree fuel (enc ++ post) = some (.ok t2) ∧ t2.root = some r2 ∧
            r2.sameAs r ∧ t2.freqs = r2.leaves ∧
            (t2.freqs.map Node.entry).Perm (t.freqs.map Node.entry) :=
  ⟨by decide, by decide, by decide,
    fun srt => tree_codec_round_trip srt aToP (by decide) (by decide) (by decide)⟩

/-- C4, counterexample: the tree built from the one-byte input `0xFF` (`treeFF` when
`std::sort` leaves the two leaves as `insertionSort` does) has the leaves `0xFF`
and `EOF`; deserializing its serialization gives a tree whose leaves are both
named `EOF`. Whatever `std::sort` does with the two leaves, the built tree has a
leaf named `0xFF`, its serialization is `serialFF`, and the tree read back from
it has none. -/
theorem tree_codec_renames_0xFF :
    makeTree insertionSort [255] = .ok treeFF ∧ treeFF.Encode = .ok (serialFF, treeFF) ∧
      (∀ fuel, decodeTree (fuel + 3) serialFF = some (.ok decodedFF)) ∧
      (treeFF.root.map fun r => r.leaves.map Node.name) = some [[255], EOF] ∧
      (decodedFF.root.map fun r => r.leaves.map Node.name) = some [EOF, EOF] ∧
      ∀ srt : StdSort, ∃ t r, makeTree srt [255] = .ok t ∧ t.root = some r ∧
        t.Encode = .ok (serialFF, t) ∧ [255] ∈ r.leaves.map Node.name :=
  ⟨by decide, by decide, fun fuel => rfl, by decide, by decide,
    fun srt => (tree_codec_FF srt).imp fun _ h => h.imp fun _ h2 =>
      ⟨h2.1, h2.2.1, h2.2.2.1, h2.2.2.2.1⟩⟩

/-- C5: whatever order `std::sort` leaves nodes of equal frequency in, for every
input byte sequence the tree is built, `freqs` holds exactly the
leaves of the tree, and no leaf code is a beginning of the code of another
leaf, neither among the leaves of the tree nor seen through `freqs`; in
particular the leaf codes are pairwise distinct. -/
theorem prefix_free_codes (srt : StdSort) (S : Str) :
    ∃ t r, makeTree srt S = .ok t ∧ t.root = some r ∧ t.freqs.Perm r.leaves ∧
      r.leaves.Pairwise (fun a b => ¬ a.code <+: b.code ∧ ¬ b.code <+: a.code) ∧
      t.freqs.Pairwise (fun a b => ¬ a.code <+: b.code ∧ ¬ b.code <+: a.code) ∧
      (t.freqs.map Node.code).Nodup := by
  obtain ⟨r, hmk, _, _, _, hperm, _, _⟩ := makeTree_facts srt S
  have h1 : (Node.assign [] r).leaves.Pairwise apart := Node.pairwise_apart_assign r []
  have h2 : (Tree.built (leavesFrom 0 (table S)) r).freqs.Pairwise apart :=
    (hperm.pairwise_iff (fun {a b} => apart_symm)).2 h1
  exact ⟨_, _, hmk, rfl, hperm, h1, h2, Tree.nodup_code_of_apart h2⟩

/-- C6, as amended: for every input byte sequence without the byte 0xFF (and
whatever `std::sort` is), the serialized tree is the leaf-count byte followed by the entries of the nodes in
postorder, and the entry of a leaf is `1 11111111` if and only if the leaf is
the `EOF` leaf; the leaf step of `decodeTree` reads every leaf entry back
under the name of that leaf. -/
theorem all_ones_reserved (srt : StdSort) (S : Str) (hFF : (255 : CChar) ∉ S) :
    ∃ t r, makeTree srt S = .ok t ∧ t.root = some r ∧
      t.Encode
        = .ok (charToByte (Fin.ofNat r.leaves.length) ++ r.nodes.flatMap Tree.encodeNode, t) ∧
      ∀ n ∈ r.nodes, n.isLeaf = true →
        (Tree.encodeNode n = chr1 :: allOnes ↔ n.name = EOF) ∧
        decodeLeaf (Tree.encodeNode n) { i := 0, s := [], freqs := [], leavesFound := 0 }
          = .ok { i := 9, s := [Node.ofName 0 n.name], freqs := [Node.ofName 0 n.name],
                  leavesFound := 1 } := by
  obtain ⟨r, hmk, hp, _, _, _, _, _⟩ := makeTree_facts srt S
  have hg := goodName_of_table S hFF r hp
  refine ⟨_, _, hmk, rfl, ?_, ?_⟩
  · rw [Tree.Encode_built, Node.flatMap_encodeNode_nodes, Node.serial_assign,
      Node.length_leaves_assign]
  · intro n hn hleaf
    have hnl : n ∈ (Node.assign [] r).leaves := by
      rw [← Node.filter_isLeaf_nodes]
      exact List.mem_filter.2 ⟨hn, hleaf⟩
    have hgn : goodName n.name := by
      have hm : n.name ∈ (Node.assign [] r).leaves.map Node.name := List.mem_map_of_mem _ hnl
      rw [Node.map_name_leaves_assign] at hm
      obtain ⟨y, hy, hyn⟩ := List.mem_map.1 hm
      rw [← hyn]; exact hg y hy
    cases n with
    | internal nm cd f l r => simp at hleaf
    | leaf a nm cd f =>
      simp only [Node.name_leaf] at hgn ⊢
      rw [encodeNode_leaf]
      constructor
      · rw [List.cons.injEq]
        simp only [true_and]
        exact symbolBits_eq_allOnes hgn
      · have h := decodeLeaf_leaf (chr1 :: symbolBits nm)
          { i := 0, s := [], freqs := [], leavesFound := 0 } (symbolBits nm) []
          (by simp) (Node.length_symbolBits nm)
        rw [decodedName_symbolBits hgn] at h
        exact h

/-- C6, the hypothesis of `all_ones_reserved` holds for the text `go go gophers`. -/
theorem all_ones_reserved_gophers :
    (255 : CChar) ∉ gophers ∧
      ∀ srt : StdSort, ∃ t r, makeTree srt gophers = .ok t ∧ t.root = some r ∧
        t.Encode
          = .ok (charToByte (Fin.ofNat r.leaves.length) ++ r.nodes.flatMap Tree.encodeNode, t) ∧
        ∀ n ∈ r.nodes, n.isLeaf = true →
          (Tree.encodeNode n = chr1 :: allOnes ↔ n.name = EOF) ∧
          decodeLeaf (Tree.encodeNode n) { i := 0, s := [], freqs := [], leavesFound := 0 }
            = .ok { i := 9, s := [Node.ofName 0 n.name], freqs := [Node.ofName 0 n.name],
                    leavesFound := 1 } :=
  ⟨by decide, fun srt => all_ones_reserved srt gophers (by decide)⟩

/-- C6, counterexample: in the tree built from the one-byte input `0xFF` (`treeFF`
when `std::sort` leaves the two leaves as `insertionSort` does) the leaf of the
byte 0xFF is not the `EOF` leaf, yet its entry in the serialized tree is
`1 11111111`, and the leaf step of `decodeTree` names it `EOF`. Whatever
`std::sort` does with the two leaves, the built tree has a leaf named `0xFF`
whose entry is `1 11111111`. -/
theorem all_ones_used_by_0xFF :
    makeTree insertionSort [255] = .ok treeFF ∧
      (treeFF.root.map fun r => decide (Node.leaf 0 [255] [48] 1 ∈ r.nodes)) = some true ∧
      (Node.leaf 0 [255] [48] 1).name ≠ EOF ∧
      Tree.encodeNode (Node.leaf 0 [255] [48] 1) = chr1 :: allOnes ∧
      decodeLeaf (Tree.encodeNode (Node.leaf 0 [255] [48] 1))
          { i := 0, s := [], freqs := [], leavesFound := 0 }
        = .ok { i := 9, s := [Node.ofName 0 EOF], freqs := [Node.ofName 0 EOF],
                leavesFound := 1 } ∧
      ∀ srt : StdSort, ∃ t r, makeTree srt [255] = .ok t ∧ t.root = some r ∧
        ∃ n ∈ r.nodes, n.isLeaf = true ∧ n.name = [255] ∧
          Tree.encodeNode n = chr1 :: allOnes :=
  ⟨by decide, by decide, by decide, by decide, by decide,
    fun srt => (tree_codec_FF srt).imp fun _ h => h.imp fun _ h2 =>
      ⟨h2.1, h2.2.1, h2.2.2.2.2⟩⟩

/-- C7, as amended: for every input byte sequence with at most 254 distinct byte
values (and whatever `std::sort` is), the first 8 bits of the serialized tree are the number of distinct byte
values plus one, most significant bit first; `byteToChar` reads that number
back. -/
theorem leaf_count_byte (srt : StdSort) (S : Str) (hd : distinct S ≤ 254) :
    ∃ t enc, makeTree srt S = .ok t ∧ t.Encode = .ok (enc, t) ∧
      enc.take 8 = bits8 (distinct S + 1) ∧ msbValue (enc.take 8) = distinct S + 1 ∧
      (byteToChar (enc.take 8)).val = distinct S + 1 := by
  obtain ⟨r, hmk, _, _, hlen, _, _, _⟩ := makeTree_facts srt S
  have hv : (Fin.ofNat (distinct S + 1) : CChar).val = distinct S + 1 :=
    val_ofNat_of_le (by omega)
  refine ⟨_, _, hmk, Tree.Encode_built _ r, ?_, ?_, ?_⟩
  · rw [take_8_charToByte_append, hlen, charToByte_eq_bits8, hv]
  · rw [take_8_charToByte_append, hlen, charToByte_eq_bits8, msbValue_bits8, hv]
  · rw [take_8_charToByte_append, hlen, byteToChar_charToByte, hv]

/-- C7, the hypothesis of `leaf_count_byte` holds for the text `go go gophers`,
which has 8 distinct byte values. -/
theorem leaf_count_byte_gophers :
    distinct gophers ≤ 254 ∧
      ∀ srt : StdSort, ∃ t enc, makeTree srt gophers = .ok t ∧ t.Encode = .ok (enc, t) ∧
        enc.take 8 = bits8 (distinct gophers + 1) ∧
        msbValue (enc.take 8) = distinct gophers + 1 ∧
        (byteToChar (enc.take 8)).val = distinct gophers + 1 :=
  ⟨by decide, fun srt => leaf_count_byte srt gophers (by decide)⟩

/-- C7, counterexample: the input `0, 1, ..., 254` has 255 distinct byte values, its
tree has 256 leaves, and the first 8 bits of the serialized tree are `00000000`,
the number 0 and not 256. -/
theorem leaf_count_byte_wraps :
    distinct bytesBelow255 = 255 ∧
      ∀ srt : StdSort,
      ∃ t r enc, makeTree srt bytesBelow255 = .ok t ∧ t.root = some r ∧ r.leaves.length = 256 ∧
        t.Encode = .ok (enc, t) ∧ enc.take 8 = [48, 48, 48, 48, 48, 48, 48, 48] ∧
        msbValue (enc.take 8) = 0 ∧ (byteToChar (enc.take 8)).val = 0 := by
  refine ⟨distinct_bytesBelow255, ?_⟩
  intro srt
  obtain ⟨r, hmk, _, _, hlen, _, _, _⟩ := makeTree_facts srt bytesBelow255
  rw [distinct_bytesBelow255] at hlen
  have h0 : charToByte (Fin.ofNat r.leaves.length) = [48, 48, 48, 48, 48, 48, 48, 48] := by
    rw [hlen]; decide
  refine ⟨_, _, _, hmk, rfl, ?_, Tree.Encode_built _ r, ?_, ?_, ?_⟩
  · rw [Node.length_leaves_assign, hlen]
  · rw [take_8_charToByte_append, h0]
  · rw [take_8_charToByte_append, h0]; decide
  · rw [take_8_charToByte_append, h0]; decide

/-- C8: whatever order `std::sort` leaves nodes of equal frequency in, for every
input byte sequence with at most 254 distinct byte values, the built tree has `L` leaves, `L` being the number of distinct byte values plus
one, and `2 L - 1` nodes; `Tree::Encode` returns the 8 bits of `L`, most
significant first, followed by the entries of the nodes in postorder, `0` for
an internal node and `1` with the 8 symbol bits for a leaf, which is
`8 + 9 L + (L - 1)` bits. -/
theorem serialized_tree_format (srt : StdSort) (S : Str) (hd : distinct S ≤ 254) :
    ∃ t r, makeTree srt S = .ok t ∧ t.root = some r ∧
      r.leaves.length = distinct S + 1 ∧ r.nodes.length = 2 * r.leaves.length - 1 ∧
      t.Encode = .ok (bits8 r.leaves.length ++ r.serial, t) ∧
      r.serial = r.nodes.flatMap entryBits ∧
      (bits8 r.leaves.length ++ r.serial).length
        = 8 + 9 * r.leaves.length + (r.leaves.length - 1) := by
  obtain ⟨r, hmk, _, _, hlen, _, _, _⟩ := makeTree_facts srt S
  have hv : (Fin.ofNat (distinct S + 1) : CChar).val = distinct S + 1 :=
    val_ofNat_of_le (by omega)
  have hl : (Node.assign [] r).leaves.length = distinct S + 1 := by
    rw [Node.length_leaves_assign, hlen]
  refine ⟨_, _, hmk, rfl, hl, ?_, ?_, serial_eq_flatMap_entryBits _, ?_⟩
  · have := Node.length_nodes (Node.assign [] r)
    omega
  · rw [Tree.Encode_built, hl, hlen, charToByte_eq_bits8, hv, Node.serial_assign]
  · have := Node.length_serial (Node.assign [] r)
    simp only [List.length_append, length_bits8]
    omega

/-- C8 at the text `abcdefghijklmnop`, whose 17 leaves all have the frequency 1: the
hypothesis of `serialized_tree_format` holds, and so does its conclusion
whatever `std::sort` does with equal frequencies. -/
theorem serialized_tree_format_a_to_p :
    distinct aToP ≤ 254 ∧
      ∀ srt : StdSort, ∃ t r, makeTree srt aToP = .ok t ∧ t.root = some r ∧
        r.leaves.length = distinct aToP + 1 ∧ r.nodes.length = 2 * r.leaves.length - 1 ∧
        t.Encode = .ok (bits8 r.leaves.length ++ r.serial, t) ∧
        r.serial = r.nodes.flatMap entryBits ∧
        (bits8 r.leaves.length ++ r.serial).length
          = 8 + 9 * r.leaves.length + (r.leaves.length - 1) :=
  ⟨by decide, fun srt => serialized_tree_format srt aToP (by decide)⟩

/-- C9: whatever order `std::sort` leaves nodes of equal frequency in, for every
input byte sequence `S`, with `t` the tree built from it, `t` has
a leaf for every byte of `S` and for `EOF`, and the bit string of `encode` is
the serialized tree, the code of the leaf of each byte of `S` in order, the
code of the `EOF` leaf, and `k` zero bits, `k < 8` being the least number that
makes the length a multiple of 8; `encode` returns that length divided by 8. -/
theorem encoder_output_layout (srt : StdSort) (S : Str) :
    ∃ t enc e k, makeTree srt S = .ok t ∧ t.Encode = .ok (enc, t) ∧ encode S t = .ok e ∧
      (∀ c ∈ S, ∃ n ∈ t.freqs, n.isLeaf = true ∧ n.name = [c] ∧ n.code = t.codeOf [c]) ∧
      (∃ n ∈ t.freqs, n.isLeaf = true ∧ n.name = EOF ∧ n.code = t.codeOf EOF) ∧
      e.fileBits
        = enc ++ S.flatMap (fun c => t.codeOf [c]) ++ t.codeOf EOF ++ List.replicate k chr0 ∧
      k < 8 ∧ e.fileBits.length % 8 = 0 ∧
      (∀ j, j < k →
        ((enc ++ S.flatMap (fun c => t.codeOf [c]) ++ t.codeOf EOF).length + j) % 8 ≠ 0) ∧
      e.encodedSize = e.fileBits.length / 8 := by
  obtain ⟨r, hmk, _, _, _, hperm, hnames, _⟩ := makeTree_facts srt S
  have hS : ∀ c ∈ S, [c] ∈ (Tree.built (leavesFrom 0 (table S)) r).freqs.map Node.name := by
    intro c hc
    rw [hnames, mem_keys_table]
    exact Or.inr ⟨c, hc, rfl⟩
  have hEOF : EOF ∈ (Tree.built (leavesFrom 0 (table S)) r).freqs.map Node.name := by
    rw [hnames, mem_keys_table]
    exact Or.inl rfl
  have hleaf := built_freqs_isLeaf _ r hperm
  obtain ⟨e, he, hbits, hsize, _⟩ := encode_eq _ _ S (Tree.Encode_built _ r) hS hEOF
  have hf := fileBits_facts (charToByte (Fin.ofNat r.leaves.length) ++ r.serial
    ++ S.flatMap (fun c => (Tree.built (leavesFrom 0 (table S)) r).codeOf [c])
    ++ (Tree.built (leavesFrom 0 (table S)) r).codeOf EOF)
  refine ⟨_, _, e, _, hmk, Tree.Encode_built _ r, he, ?_, ?_, hbits, hf.2.1, ?_, hf.2.2, hsize⟩
  · intro c hc
    obtain ⟨n, hfind, hn, hnn⟩ := Tree.find_of_mem_names (hS c hc)
    exact ⟨n, hn, hleaf n hn, hnn, (Tree.codeOf_of_find hfind).symm⟩
  · obtain ⟨n, hfind, hn, hnn⟩ := Tree.find_of_mem_names hEOF
    exact ⟨n, hn, hleaf n hn, hnn, (Tree.codeOf_of_find hfind).symm⟩
  · rw [hbits]; exact hf.1

/-- C9 at the text `abcdefghijklmnop` with the order of libstdc++ (`tracedSort`): the
bit string has the layout stated, it is 248 bits long, and the 31 bytes written
are `aToPBytes`. -/
theorem encoder_output_layout_a_to_p :
    ∃ t enc e k, makeTree tracedSort aToP = .ok t ∧ t.Encode = .ok (enc, t) ∧
      encode aToP t = .ok e ∧
      e.fileBits
        = enc ++ aToP.flatMap (fun c => t.codeOf [c]) ++ t.codeOf EOF ++ List.replicate k chr0 ∧
      k < 8 ∧ e.output = aToPBytes ∧ e.encodedSize = 31 := by
  obtain ⟨t, enc, e, k, hmk, henc, he, _, _, hbits, hk, _, _, hsize⟩ :=
    encoder_output_layout tracedSort aToP
  obtain ⟨hout, hlen⟩ := fileBits_tracedSort_aToP t e hmk he
  exact ⟨t, enc, e, k, hmk, henc, he, hbits, hk, hout, by rw [hsize, hlen]⟩

/-- C10, the code at a failing input: on the bit string `00000001` (one leaf
announced, no bit left) the read position 8 equals the length, the bounds check
`i > encoding.size()` lets it pass, the character read is the terminating
`\0`, which is neither `1` nor `0`, and the loop of `decodeTree` runs without
end: no amount of fuel yields a result, neither a tree nor the framing error.
On `000000010` the internal-node branch pops an empty stack. -/
theorem decodeTree_loops_at_end :
    (∀ fuel, decodeTree fuel [48, 48, 48, 48, 48, 48, 48, 49] = none) ∧
      decodeTreeBody [48, 48, 48, 48, 48, 48, 48, 49]
          { i := 8, s := [], freqs := [], leavesFound := 0 }
        = .ok { i := 8, s := [], freqs := [], leavesFound := 0 } ∧
      ∀ fuel, decodeTree (fuel + 1) [48, 48, 48, 48, 48, 48, 48, 49, 48]
        = some (.error .undefined) := by
  refine ⟨?_, by decide, fun fuel => rfl⟩
  intro fuel
  have h : decodeTreeRun fuel [48, 48, 48, 48, 48, 48, 48, 49] = none := by
    show decodeTreeLoop [48, 48, 48, 48, 48, 48, 48, 49] 1 fuel
      { i := 8, s := [], freqs := [], leavesFound := 0 } = none
    induction fuel with
    | zero => rfl
    | succ k ih => exact ih
  simp only [decodeTree, h]

/-- C14: for every input byte sequence `S`, after the counting pass of `makeTree`
the vector `freqs` (and with it `huffList`) holds exactly one leaf per distinct
byte of `S`, in the order of first occurrence, each with the number of its
occurrences in `S` as frequency, followed by one `EOF` leaf of frequency 1; for
the empty `S` it holds the `EOF` leaf alone. `makeTree` then runs
`Tree::Huffman`, with whatever `std::sort` the program has, on that tree
object. -/
theorem symbol_table (srt : StdSort) (S : Str) :
    (countingPass S).freqs
        = leavesFrom 0 ((firstSeen S).map (fun c => ([c], S.count c)) ++ [(EOF, 1)]) ∧
      (countingPass S).huffList = (countingPass S).freqs ∧
      (firstSeen S).Nodup ∧ (∀ c, c ∈ firstSeen S ↔ c ∈ S) ∧
      (countingPass S).freqs.map (fun n => (n.isLeaf, n.name, n.frequency))
        = (firstSeen S).map (fun c => (true, [c], S.count c)) ++ [(true, EOF, 1)] ∧
      (countingPass []).freqs = [Node.leaf 0 EOF [] 1] ∧
      makeTree srt S = (countingPass S).Huffman srt := by
  obtain ⟨hfr, hhl⟩ := countingPass_facts S
  have hmap : ∀ (k : Nat) (l : List (Str × Nat)),
      (leavesFrom k l).map (fun n => (n.isLeaf, n.name, n.frequency))
        = l.map (fun x => (true, x.1, x.2)) := by
    intro k l
    induction l generalizing k with
    | nil => rfl
    | cons x l ih => simp [leavesFrom, ih]
  refine ⟨?_, ?_, nodup_firstSeen S, mem_firstSeen S, ?_, by decide, rfl⟩
  · rw [hfr, table_eq]
  · rw [hfr, hhl]
  · rw [hfr, table_eq, hmap]
    simp

/-- C15: for every `n >= 1` and every byte `c` (and whatever `std::sort` is), the
tree built from `n` copies of `c`
has exactly 2 leaves, named `c` and `EOF` in `freqs`, each with a code of one bit,
and `encode` returns `ceil((n + 28) / 8)`, the bit string being that many bytes
long. -/
theorem repetitive_input_size (srt : StdSort) (n : Nat) (c : CChar) (hn : 1 ≤ n) :
    ∃ t r e, makeTree srt (List.replicate n c) = .ok t ∧ t.root = some r ∧
      r.leaves.length = 2 ∧ t.freqs.map Node.name = [[c], EOF] ∧
      (∀ x ∈ r.leaves, x.code.length = 1) ∧ (∀ x ∈ t.freqs, x.code.length = 1) ∧
      encode (List.replicate n c) t = .ok e ∧
      e.fileBits.length = 8 * e.encodedSize ∧
      e.encodedSize = (n + 28 + 7) / 8 ∧
      n + 28 ≤ 8 * e.encodedSize ∧ 8 * e.encodedSize < n + 28 + 8 := by
  obtain ⟨m, rfl⟩ : ∃ m, n = m + 1 := ⟨n - 1, by omega⟩
  obtain ⟨t, r, e, hmk, hroot, h2, hnames, _, hc, hcf, he, hlen, hsize⟩ := replicate_facts srt m c
  refine ⟨t, r, e, hmk, hroot, h2, hnames, hc, hcf, he, ?_, hsize, ?_, ?_⟩
  · rw [hlen, hsize]
  · rw [hsize]; omega
  · rw [hsize]; omega

/-- C15, the hypothesis of `repetitive_input_size` holds for one million copies of
the byte `e`, for which `encode` returns 125004. -/
theorem repetitive_input_size_million :
    1 ≤ 1000000 ∧
      ∀ srt : StdSort, ∃ t e, makeTree srt (List.replicate 1000000 101) = .ok t ∧
        encode (List.replicate 1000000 101) t = .ok e ∧ e.encodedSize = 125004 := by
  refine ⟨by decide, ?_⟩
  intro srt
  obtain ⟨t, _, e, hmk, _, _, _, _, _, he, _, hsize, _, _⟩ :=
    repetitive_input_size srt 1000000 101 (by decide)
  exact ⟨t, e, hmk, he, hsize⟩

/-- C16: whatever order `std::sort` leaves nodes of equal frequency in, for every
input byte sequence the merge loop of `Tree::Huffman` ends with
`huffList` holding a single node, the root; the leaves of its tree are exactly
the leaf objects `freqs` points to after the counting pass, each exactly once;
the tree has `2 L - 1` nodes for its `L` leaves, every internal node having two
children; `makeTree` returns that tree with the codes assigned. -/
theorem tree_builder_output (srt : StdSort) (S : Str) :
    ∃ r t, Tree.huffmanLoop (srt.run (countingPass S).huffList).length
          (srt.run (countingPass S).huffList) = [r] ∧
      workingList srt S (srt.run (countingPass S).huffList).length = [r] ∧
      r.leaves.Perm (countingPass S).freqs ∧ r.leaves.Nodup ∧ (countingPass S).freqs.Nodup ∧
      r.nodes.length = 2 * r.leaves.length - 1 ∧
      (r.nodes.filter (fun n => !n.isLeaf)).length = r.leaves.length - 1 ∧
      makeTree srt S = .ok t ∧ t.root = some (Node.assign [] r) ∧
      (Node.assign [] r).eraseCodes = r.eraseCodes := by
  obtain ⟨r, hr, hp, hmk⟩ := huffman_root srt S
  have hnd : (countingPass S).freqs.Nodup := by
    rw [(countingPass_facts S).1]; exact nodup_leavesFrom 0 _
  have hn := Node.length_nodes r
  have hfilter : (r.nodes.filter (fun n => !n.isLeaf)).length + r.leaves.length
      = r.nodes.length := by
    rw [← Node.filter_isLeaf_nodes]
    have := List.length_eq_length_filter_add (l := r.nodes) Node.isLeaf
    omega
  refine ⟨r, _, hr, ?_, hp, hp.nodup_iff.2 hnd, hnd, by omega, by omega, hmk, rfl,
    Node.eraseCodes_assign r []⟩
  unfold workingList
  rw [← Tree.huffmanLoop_eq_afterMerges, hr]

/-- C17: whatever order `std::sort` leaves nodes of equal frequency in, for every
input byte sequence, whenever a pass of the merge loop of `Tree::Huffman` starts on a working list `a, b, rest` (so `a` is `huffList[0]`
and `b` is `huffList[1]`), no node of the list has a smaller frequency than `a`,
no node besides `a` has a smaller frequency than `b`, the node the pass makes
has `a` as left child, `b` as right child and the sum of their frequencies, and
the pass ends with that node inserted among `rest`, `a` and `b` being gone,
which is the working list the loop goes on with. -/
theorem merge_step_picks_minima (srt : StdSort) (S : Str) (k : Nat) (a b : Node)
    (rest : List Node) (h : workingList srt S k = a :: b :: rest) :
    (∀ x ∈ workingList srt S k, a.frequency ≤ x.frequency) ∧
      (∀ x ∈ b :: rest, b.frequency ≤ x.frequency) ∧
      Node.ofChildren a b
        = Node.internal (a.name ++ [32] ++ b.name) [] (a.frequency + b.frequency) a b ∧
      workingList srt S (k + 1) = Tree.insertByFreq (Node.ofChildren a b) rest ∧
      Node.ofChildren a b ∈ workingList srt S (k + 1) ∧
      (workingList srt S (k + 1)).Perm (Node.ofChildren a b :: rest) ∧
      ∀ fuel, Tree.huffmanLoop (fuel + 1) (workingList srt S k)
        = Tree.huffmanLoop fuel (workingList srt S (k + 1)) := by
  obtain ⟨hs, hp⟩ := workingList_sorted srt S k
  rw [h] at hs hp
  have hnext : workingList srt S (k + 1) = Tree.insertByFreq (Node.ofChildren a b) rest := by
    show Tree.afterMerges (k + 1) _ = _
    rw [Tree.afterMerges_succ]
    show Tree.mergeStep (workingList srt S k) = _
    rw [h]
    exact Tree.mergeStep_cons_cons a b rest (hp a (by simp)) (hp b (by simp))
  have hperm := Tree.insertByFreq_perm (Node.ofChildren a b) rest
  rw [List.pairwise_cons] at hs
  refine ⟨?_, ?_, rfl, hnext, ?_, ?_, ?_⟩
  · intro x hx
    rw [h] at hx
    rcases List.mem_cons.1 hx with e | e
    · subst e; exact Nat.le_refl _
    · exact hs.1 x e
  · intro x hx
    rcases List.mem_cons.1 hx with e | e
    · subst e; exact Nat.le_refl _
    · exact (List.pairwise_cons.1 hs.2).1 x e
  · rw [hnext]; exact hperm.symm.subset (List.mem_cons_self _ _)
  · rw [hnext]; exact hperm
  · intro fuel
    rw [Tree.huffmanLoop_succ]
    show Tree.huffmanLoop fuel (Tree.mergeStep (workingList srt S k))
      = Tree.huffmanLoop fuel (Tree.afterMerges (k + 1) _)
    rw [Tree.afterMerges_succ]
    rfl

/-- C17, the first pass of the merge loop for the input `aab` under two sorts. With
`insertionSort` the working list is `b:1, EOF:1, a:2` and the pass merges `b`
and `EOF`; with `reverseSort` it is `EOF:1, b:1, a:2` and the pass merges `EOF`
and `b`. For the text `abcdefghijklmnop` with the order of libstdc++
(`tracedSort`) the working list starts with `i` and `EOF`, and the pass merges
these two. -/
theorem merge_step_picks_minima_aab :
    workingList insertionSort [97, 97, 98] 0
        = Node.leaf 1 [98] [] 1 :: Node.leaf 2 EOF [] 1 :: [Node.leaf 0 [97] [] 2] ∧
      workingList insertionSort [97, 97, 98] 1
        = Tree.insertByFreq (Node.ofChildren (Node.leaf 1 [98] [] 1) (Node.leaf 2 EOF [] 1))
            [Node.leaf 0 [97] [] 2] ∧
      workingList reverseSort [97, 97, 98] 0
        = Node.leaf 2 EOF [] 1 :: Node.leaf 1 [98] [] 1 :: [Node.leaf 0 [97] [] 2] ∧
      workingList reverseSort [97, 97, 98] 1
        = Tree.insertByFreq (Node.ofChildren (Node.leaf 2 EOF [] 1) (Node.leaf 1 [98] [] 1))
            [Node.leaf 0 [97] [] 2] ∧
      workingList tracedSort aToP 0
        = Node.leaf 8 [105] [] 1 :: Node.leaf 16 EOF [] 1 :: aToPSorted.drop 2 ∧
      workingList tracedSort aToP 1
        = Tree.insertByFreq (Node.ofChildren (Node.leaf 8 [105] [] 1) (Node.leaf 16 EOF [] 1))
            (aToPSorted.drop 2) :=
  ⟨by decide,
    (merge_step_picks_minima insertionSort [97, 97, 98] 0 (Node.leaf 1 [98] [] 1)
      (Node.leaf 2 EOF [] 1) [Node.leaf 0 [97] [] 2] (by decide)).2.2.2.1,
    by decide,
    (merge_step_picks_minima reverseSort [97, 97, 98] 0 (Node.leaf 2 EOF [] 1)
      (Node.leaf 1 [98] [] 1) [Node.leaf 0 [97] [] 2] (by decide)).2.2.2.1,
    run_tracedSort_aToP,
    (merge_step_picks_minima tracedSort aToP 0 (Node.leaf 8 [105] [] 1)
      (Node.leaf 16 EOF [] 1) (aToPSorted.drop 2) run_tracedSort_aToP).2.2.2.1⟩

/-- C18, as amended: for every working list sorted ascending by frequency and every
new node `n`, `insertByFreq` places `n` at the position of the first existing
node whose frequency is greater than or equal to the frequency of `n`, that is,
behind all nodes of smaller frequency and before all existing nodes whose
frequency equals that of `n`. -/
theorem insertByFreq_tie_rule (l : List Node) (n : Node)
    (hs : l.Pairwise (fun a b => a.frequency ≤ b.frequency)) :
    ∃ pre post, l = pre ++ post ∧ Tree.insertByFreq n l = pre ++ n :: post ∧
      (∀ x ∈ pre, x.frequency < n.frequency) ∧ (∀ x ∈ post, n.frequency ≤ x.frequency) ∧
      (Tree.insertByFreq n l).Pairwise (fun a b => a.frequency ≤ b.frequency) := by
  refine ⟨l.takeWhile (fun x => decide (x.frequency < n.frequency)),
    l.dropWhile (fun x => decide (x.frequency < n.frequency)),
    (List.takeWhile_append_dropWhile _ l).symm, Tree.insertByFreq_eq n l, ?_,
    Tree.le_of_mem_dropWhile n l hs, Tree.insertByFreq_sorted n l hs⟩
  intro x hx
  have := List.mem_takeWhile_imp hx
  simpa using this

/-- C18, the hypothesis of `insertByFreq_tie_rule` holds for the working list `a:2`
of the input `aab` after its first merge. -/
theorem insertByFreq_tie_rule_aab :
    [Node.leaf 0 [97] [] 2].Pairwise (fun a b => a.frequency ≤ b.frequency) ∧
      ∃ pre post, [Node.leaf 0 [97] [] 2] = pre ++ post ∧
        Tree.insertByFreq (Node.ofChildren (Node.leaf 1 [98] [] 1) (Node.leaf 2 EOF [] 1))
            [Node.leaf 0 [97] [] 2]
          = pre ++ Node.ofChildren (Node.leaf 1 [98] [] 1) (Node.leaf 2 EOF [] 1) :: post ∧
        (∀ x ∈ pre, x.frequency
          < (Node.ofChildren (Node.leaf 1 [98] [] 1) (Node.leaf 2 EOF [] 1)).frequency) ∧
        (∀ x ∈ post, (Node.ofChildren (Node.leaf 1 [98] [] 1) (Node.leaf 2 EOF [] 1)).frequency
          ≤ x.frequency) ∧
        (Tree.insertByFreq (Node.ofChildren (Node.leaf 1 [98] [] 1) (Node.leaf 2 EOF [] 1))
            [Node.leaf 0 [97] [] 2]).Pairwise (fun a b => a.frequency ≤ b.frequency) :=
  ⟨by simp, insertByFreq_tie_rule _ _ (by simp)⟩

/-- C18, counterexample: in the first merge for the input `aab` the new node `b EOF`
of frequency 2 is inserted into the sorted working list `a:2`. No existing node
has a strictly greater frequency and `a` has an equal one, yet the new node
goes to position 0, before `a`, not behind it; the second pass then makes it
the left child of the root (the working list is that of `insertionSort`, which
leaves `b` before `EOF`). -/
theorem insertByFreq_puts_ties_first :
    (Node.ofChildren (Node.leaf 1 [98] [] 1) (Node.leaf 2 EOF [] 1)).frequency
        = (Node.leaf 0 [97] [] 2).frequency ∧
      Tree.insertByFreq (Node.ofChildren (Node.leaf 1 [98] [] 1) (Node.leaf 2 EOF [] 1))
          [Node.leaf 0 [97] [] 2]
        = [Node.ofChildren (Node.leaf 1 [98] [] 1) (Node.leaf 2 EOF [] 1),
            Node.leaf 0 [97] [] 2] ∧
      Tree.insertByFreq (Node.ofChildren (Node.leaf 1 [98] [] 1) (Node.leaf 2 EOF [] 1))
          [Node.leaf 0 [97] [] 2]
        ≠ [Node.leaf 0 [97] [] 2,
            Node.ofChildren (Node.leaf 1 [98] [] 1) (Node.leaf 2 EOF [] 1)] ∧
      workingList insertionSort [97, 97, 98] 1
        = [Node.ofChildren (Node.leaf 1 [98] [] 1) (Node.leaf 2 EOF [] 1),
            Node.leaf 0 [97] [] 2] := by
  refine ⟨by decide, by decide, by decide, by decide⟩

/-- C19: for every tree, `Node::postOrder` called on the root with the empty string
and the empty list returns the nodes in postorder (left subtree, right subtree,
node) and leaves every node with its path from the root as its code, `0` for a
descent to the left and `1` to the right, nothing else being changed; the code
of the root is empty and the length of a leaf code is the depth of the leaf.
With a path `c` and a list the nodes are appended to the list and the codes
start from `c`. -/
theorem code_assignment (n : Node) :
    (n.postOrder [] []).2 = (n.postOrder [] []).1.nodes ∧
      (n.postOrder [] []).1.hasPathCodes [] ∧
      (n.postOrder [] []).1.eraseCodes = n.eraseCodes ∧
      (n.postOrder [] []).1.code = [] ∧
      (n.postOrder [] []).1.leaves.map (fun x => x.code.length) = Node.depths 0 n ∧
      ∀ (c : Str) (list : List Node),
        (n.postOrder c list).2 = list ++ (n.postOrder c list).1.nodes ∧
        (n.postOrder c list).1.hasPathCodes c := by
  have h : ∀ (c : Str) (list : List Node),
      n.postOrder c list = (Node.assign c n, list ++ (Node.assign c n).nodes) :=
    Node.postOrder_eq n
  refine ⟨?_, ?_, ?_, ?_, ?_, ?_⟩
  · rw [h]; rfl
  · rw [h]; exact Node.hasPathCodes_assign n []
  · rw [h]; exact Node.eraseCodes_assign n []
  · rw [h]; exact Node.code_assign [] n
  · rw [h]; exact Node.map_length_code_leaves_assign n []
  · intro c list
    rw [h]
    exact ⟨rfl, Node.hasPathCodes_assign n c⟩

/-- C11, as amended: for every bit string whose tree prefix deserializes
successfully, `decodeBytes` reports no failure; it returns what its loop has
decoded from the bits behind the serialized tree, and when these bits are
exhausted without the accumulated buffer ever matching the code of an `EOF`
leaf, that result is the partially decoded sequence: the beginning of what
would be decoded from any longer payload. -/
theorem truncated_payload_returns_partial (fuel : Nat) (b : Str) (t : Tree)
    (h : decodeTree fuel b = some (.ok t)) :
    ∃ enc t2, t.Encode = .ok (enc, t2) ∧
      decodeBytes fuel b = some (.ok (decodeBytesLoop t2 (b.drop enc.length) [] [])) ∧
      (decodeBytesBreaks t2 (b.drop enc.length) [] = false →
        ∀ more : Str, decodeBytesLoop t2 (b.drop enc.length) [] []
          <+: decodeBytesLoop t2 (b.drop enc.length ++ more) [] []) := by
  obtain ⟨enc, t2, hE, hd⟩ := decodeBytes_of_decodeTree h
  refine ⟨enc, t2, hE, hd, ?_⟩
  intro hb more
  exact decodeBytesLoop_append t2 _ [] [] more hb

/-- C11, the hypothesis of `truncated_payload_returns_partial` holds for the
serialized tree of the input `a` followed by the one payload bit `0`, the code
of `a`: `decodeBytes` returns `a`. -/
theorem truncated_payload_returns_partial_a :
    decodeTree 3 (serialA ++ [48]) = some (.ok decodedA) ∧
      ∃ enc t2, decodedA.Encode = .ok (enc, t2) ∧
        decodeBytes 3 (serialA ++ [48])
          = some (.ok (decodeBytesLoop t2 ((serialA ++ [48]).drop enc.length) [] [])) ∧
        (decodeBytesBreaks t2 ((serialA ++ [48]).drop enc.length) [] = false →
          ∀ more : Str, decodeBytesLoop t2 ((serialA ++ [48]).drop enc.length) [] []
            <+: decodeBytesLoop t2 ((serialA ++ [48]).drop enc.length ++ more) [] []) :=
  ⟨by decide, truncated_payload_returns_partial 3 (serialA ++ [48]) decodedA (by decide)⟩

/-- C11, counterexample: the serialized tree of the input `a` followed by the single
payload bit `0`. The tree prefix deserializes, the payload is exhausted without
the buffer matching the code `1` of `EOF`, and `decodeBytes` reports no failure:
it returns the partially decoded `a`. -/
theorem truncated_payload_not_reported :
    (∀ fuel, decodeTree (fuel + 3) (serialA ++ [48]) = some (.ok decodedA)) ∧
      decodedA.Encode = .ok (serialA, decodedA) ∧
      decodedA.codeOf EOF = [49] ∧
      decodeBytesBreaks decodedA ((serialA ++ [48]).drop serialA.length) [] = false ∧
      ∀ fuel, decodeBytes (fuel + 3) (serialA ++ [48]) = some (.ok [97]) := by
  refine ⟨fun fuel => rfl, by decide, by decide, by decide, fun fuel => rfl⟩

/-- C12, the code at a failing input: the 13 bytes of the text `go go gophers` are
not the output of `encode` for any input, whatever `std::sort` is. `decode` takes
the first byte for the leaf count 103 and the first bit of the second byte for
an internal node, pops two nodes off the empty stack and ends in undefined
behaviour: the error is not raised. The same happens to every file of two or
more bytes whose first byte is not 0 and whose second byte is below 128, as in
every ASCII text. And whatever the bytes of the file, `decode` does not end in
the `throw` of `decodeTree`: the read position never exceeds the length of a
string of whole bytes, so the check `i > encoding.size()` cannot fire. -/
theorem decoder_raises_no_error :
    (∀ (srt : StdSort) (S : Str) (t : Tree) (e : Encoded),
        makeTree srt S = .ok t → encode S t = .ok e → e.output ≠ gophers) ∧
      (∀ fuel, decode (fuel + 1) gophers = some (.error .undefined)) ∧
      (∀ (c1 c2 : CChar) (rest : Str), c1 ≠ 0 → c2.val < 128 →
        ∀ fuel, decode (fuel + 1) (c1 :: c2 :: rest) = some (.error .undefined)) ∧
      (∀ (fuel : Nat) (file : Str), decode fuel file ≠ some (.error .invalid_argument)) ∧
      ∀ (fuel : Nat) (file : Str) (e : Fault),
        decode fuel file = some (.error e) → e = .undefined := by
  refine ⟨gophers_not_encoded, fun fuel => rfl, decode_text, ?_, fun _ _ _ h => decode_error h⟩
  intro fuel file h
  have := decode_error h
  exact absurd this (by decide)

/-- C13, the code at a failing input: `truncatedA` is the serialized tree of the
input `a` (the leaf of `a` first, as `insertionSort` leaves it) without its
last bit. After two passes the loop of `decodeTree` stands
at position 26, the length of the bit string, with two nodes on the stack; the
check `i > encoding.size()` lets the pass go on, position 26 is read (the
terminating `\0`), neither branch is taken and the state stays as it is: the
loop does not end and no framing error is raised. -/
theorem decodeTree_reads_at_end :
    (∃ t, makeTree insertionSort [97] = .ok t ∧ t.Encode = .ok (serialA, t)) ∧
      serialA = truncatedA ++ [48] ∧
      ∃ st : DecState,
        (∀ fuel, decodeTreeLoop truncatedA 2 (fuel + 2)
            { i := 8, s := [], freqs := [], leavesFound := 0 }
          = decodeTreeLoop truncatedA 2 fuel st) ∧
        st.i = truncatedA.length ∧ st.s.length = 2 ∧
        strAt truncatedA st.i = .ok 0 ∧
        decodeTreeBody truncatedA st = .ok st ∧
        ∀ fuel, decodeTree fuel truncatedA = none := by
  refine ⟨⟨_, rfl, by decide⟩, by decide,
    { i := 26, s := [Node.leaf 1 EOF [] 0, Node.leaf 0 [97] [] 0],
      freqs := [Node.leaf 0 [97] [] 0, Node.leaf 1 EOF [] 0], leavesFound := 2 },
    fun fuel => rfl, by decide, by decide, by decide, by decide, ?_⟩
  have hloop : ∀ fuel, decodeTreeLoop truncatedA 2 fuel
      { i := 26, s := [Node.leaf 1 EOF [] 0, Node.leaf 0 [97] [] 0],
        freqs := [Node.leaf 0 [97] [] 0, Node.leaf 1 EOF [] 0], leavesFound := 2 } = none := by
    intro fuel
    induction fuel with
    | zero => rfl
    | succ k ih => exact ih
  intro fuel
  have hrun : decodeTreeRun fuel truncatedA = none := by
    match fuel with
    | 0 => rfl
    | 1 => rfl
    | k + 2 => exact hloop k
  simp only [decodeTree, hrun]

/-- C20, as amended: for every bit string on which `decodeTree` returns a tree, at
the moment the loop ends the number of leaves read is at least the leading
leaf-count byte `L` and the stack holds exactly one node, which becomes the
root; the returned tree has exactly as many leaves as were read, in the tree and
in `freqs`. -/
theorem decodeTree_stops (fuel : Nat) (b : Str) (t : Tree)
    (h : decodeTree fuel b = some (.ok t)) :
    ∃ leafByte fin top, nextByte 0 b = .ok leafByte ∧
      decodeTreeRun fuel b = some (.ok fin) ∧
      (byteToChar leafByte).val ≤ fin.leavesFound ∧ fin.s = [top] ∧
      t.root = some (Node.assign [] top) ∧
      (Node.assign [] top).leaves.length = fin.leavesFound ∧
      t.freqs.length = fin.leavesFound := by
  obtain ⟨leafByte, fin, top, hn, hloop, hrun, hs, ht⟩ := decodeTree_ok h
  obtain ⟨hc, hL, h1⟩ := decodeTreeLoop_counted b _ fuel _ fin hloop ⟨rfl, rfl⟩
  have hs1 : fin.s = [top] := by
    rw [hs] at h1 ⊢
    simp only [List.length_cons] at h1
    have : fin.s.tail = [] := List.length_eq_zero.1 (by omega)
    rw [this]
  refine ⟨leafByte, fin, top, hn, hrun, hL, hs1, by rw [ht], ?_, ?_⟩
  · have := hc.1
    rw [hs1] at this
    rw [Node.length_leaves_assign, ← this]
    simp
  · rw [ht]
    simp only [List.length_map]
    exact hc.2

/-- C20, the hypothesis of `decodeTree_stops` holds for the serialized tree of the
input `a` with 3 units of fuel. -/
theorem decodeTree_stops_a :
    decodeTree 3 serialA = some (.ok decodedA) ∧
      ∃ leafByte fin top, nextByte 0 serialA = .ok leafByte ∧
        decodeTreeRun 3 serialA = some (.ok fin) ∧
        (byteToChar leafByte).val ≤ fin.leavesFound ∧ fin.s = [top] ∧
        decodedA.root = some (Node.assign [] top) ∧
        (Node.assign [] top).leaves.length = fin.leavesFound ∧
        decodedA.freqs.length = fin.leavesFound :=
  ⟨by decide, decodeTree_stops 3 serialA decodedA (by decide)⟩

/-- C20, counterexample: on `threeLeaves` the leaf-count byte is 2; after the second
leaf the stack holds two nodes, so the loop goes on and reads a third leaf
before the two internal entries leave one node. `decodeTree` returns a tree,
the loop having ended with 3 leaves read, and the tree has 3 leaves. -/
theorem decodeTree_reads_extra_leaf :
    nextByte 0 threeLeaves = .ok [48, 48, 48, 48, 48, 48, 49, 48] ∧
      (byteToChar [48, 48, 48, 48, 48, 48, 49, 48]).val = 2 ∧
      ∃ fin t, (∀ fuel, decodeTreeRun (fuel + 5) threeLeaves = some (.ok fin)) ∧
        (∀ fuel, decodeTree (fuel + 5) threeLeaves = some (.ok t)) ∧
        fin.leavesFound = 3 ∧ fin.s.length = 1 ∧
        t.freqs.map Node.name = [[97], [98], [99]] ∧
        (t.root.map fun r => r.leaves.length) = some 3 := by
  refine ⟨by decide, by decide, _, _, fun fuel => rfl, fun fuel => rfl, by decide, by decide,
    by decide, by decide⟩

/-- C21: for every bit string `b` on which `decodeTree` succeeds, `Tree::Encode`
applied to the tree it returns succeeds, and the length of its result equals
the read position `i` at which the loop of `decodeTree` ended, which lies within
`b` or at its end; so the loop of `decodeBytes`, which starts at
`i = enc.size()`, decodes exactly the bits of `b` behind those `decodeTree`
consumed. -/
theorem payload_offset (fuel : Nat) (b : Str) (t : Tree)
    (h : decodeTree fuel b = some (.ok t)) :
    ∃ fin enc, decodeTreeRun fuel b = some (.ok fin) ∧ t.Encode = .ok (enc, t) ∧
      enc.length = fin.i ∧ fin.i ≤ b.length ∧
      decodeBytes fuel b = some (.ok (decodeBytesLoop t (b.drop fin.i) [] [])) := by
  obtain ⟨fin, top, hrun, _, henc, hlen, hle⟩ := decodeTree_position h
  refine ⟨fin, _, hrun, henc, hlen, hle, ?_⟩
  simp only [decodeBytes, h, henc, hlen]

/-- C21 at the serialized tree of the input `a` followed by the payload bits `0 1`:
the loop of `decodeTree` ends at position 27, the length of the encoding of the
tree it returns. -/
theorem payload_offset_a :
    decodeTree 3 (serialA ++ [48, 49]) = some (.ok decodedA) ∧
      ∃ fin enc, decodeTreeRun 3 (serialA ++ [48, 49]) = some (.ok fin) ∧
        decodedA.Encode = .ok (enc, decodedA) ∧
        enc.length = fin.i ∧ fin.i ≤ (serialA ++ [48, 49]).length ∧
        decodeBytes 3 (serialA ++ [48, 49])
          = some (.ok (decodeBytesLoop decodedA ((serialA ++ [48, 49]).drop fin.i) [] [])) :=
  ⟨by decide, payload_offset 3 (serialA ++ [48, 49]) decodedA (by decide)⟩

/-- C22: whatever order `std::sort` leaves nodes of equal frequency in, for every
input byte sequence `S` (with at least one byte, or empty), the tree `makeTree`
builds by `Tree::Huffman` is a strictly binary tree over the
leaves of the symbol table, and the weighted path length of its code, the sum
over the leaves of frequency times code length, is not above that of any
strictly binary tree `T` over leaves with the same symbols and frequencies, the
codes of `T` being those `postOrder` assigns. That sum is the length of the
payload, the codes of all bytes of `S` followed by the code of `EOF`, which
`encode` puts between the serialized tree and the padding; the code of the tree
is a binary code none of whose words begins another, and the payload is no
longer than under any other such code `code` for the symbols. -/
theorem huffman_code_optimal (srt : StdSort) (S : Str) :
    ∃ t r, makeTree srt S = .ok t ∧ t.root = some r ∧
      (r.leaves.map (fun n => (n.name, n.frequency))).Perm
        ((countingPass S).freqs.map (fun n => (n.name, n.frequency))) ∧
      t.weightedLength = (r.leaves.map (fun n => n.frequency * n.code.length)).sum ∧
      (∀ T : Node, (T.leaves.map (fun n => (n.name, n.frequency))).Perm
          ((countingPass S).freqs.map (fun n => (n.name, n.frequency))) →
        t.weightedLength
          ≤ ((T.postOrder [] []).1.leaves.map (fun n => n.frequency * n.code.length)).sum) ∧
      (∃ enc e k, t.Encode = .ok (enc, t) ∧ encode S t = .ok e ∧ k < 8 ∧
        e.fileBits
          = enc ++ (S.flatMap (fun c => t.codeOf [c]) ++ t.codeOf EOF) ++ List.replicate k chr0) ∧
      (S.flatMap (fun c => t.codeOf [c]) ++ t.codeOf EOF).length = t.weightedLength ∧
      (∀ x ∈ t.freqs.map Node.name, isBits (t.codeOf x)) ∧
      (t.freqs.map Node.name).Pairwise
        (fun x y => ¬ t.codeOf x <+: t.codeOf y ∧ ¬ t.codeOf y <+: t.codeOf x) ∧
      ∀ code : Str → Str, (∀ x ∈ t.freqs.map Node.name, isBits (code x)) →
        (t.freqs.map Node.name).Pairwise
          (fun x y => ¬ code x <+: code y ∧ ¬ code y <+: code x) →
        (S.flatMap (fun c => t.codeOf [c]) ++ t.codeOf EOF).length
          ≤ (S.flatMap (fun c => code [c]) ++ code EOF).length := by
  obtain ⟨t, r, hmk, hroot, hperm, hleaves, hwl, _⟩ := makeTree_optimal srt S
  obtain ⟨hent, hnames, hnd, hbits, hapart⟩ := makeTree_entries srt S t hmk
  have hpay : (S.flatMap (fun c => t.codeOf [c]) ++ t.codeOf EOF).length = t.weightedLength := by
    rw [payload_length, weightedLength_eq srt S t hmk]
  refine ⟨t, _, hmk, hroot, ?_, ?_, ?_, encode_payload srt S t hmk, hpay, ?_, ?_, ?_⟩
  · have h1 := Node.map_name_leaves_assign r []
    have h2 := Node.map_frequency_leaves_assign r []
    have h3 : (Node.assign [] r).leaves.map (fun n => (n.name, n.frequency))
        = r.leaves.map (fun n => (n.name, n.frequency)) :=
      map_pair_eq _ _ _ _ (by rw [h1, List.map_map]; rfl) (by rw [h2, List.map_map]; rfl)
    rw [h3]
    exact hleaves.map _
  · unfold Tree.weightedLength
    exact (hperm.map _).sum_eq
  · intro T hT
    rw [Node.postOrder_eq, Node.sum_leaves_assign]
    apply makeTree_optimal_tree srt S t hmk T
    have := hT.map Prod.snd
    rw [List.map_map, List.map_map] at this
    exact this
  · intro x _
    exact isBits_codeOf t hbits x
  · rw [List.pairwise_map]
    refine hapart.imp_of_mem ?_
    intro a b ha hb hab
    rw [Tree.codeOf_of_mem hnd ha, Tree.codeOf_of_mem hnd hb]
    exact hab
  · intro code hcb hcp
    rw [hpay, payload_length]
    rw [hnames] at hcb hcp
    exact makeTree_optimal_code srt S t hmk code hcb hcp

/-- C22 at the input `aab`, `std::sort` being `insertionSort`: the built code has
the weighted path length 6, the tree `otherAab` has 7, and the payload of 6 bits
is no longer than the 7 bits under the code `codeAab`. For the text
`abcdefghijklmnop` with the order of libstdc++ (`tracedSort`) the payload has 70
bits, against 85 under the code `fiveBits`. -/
theorem huffman_code_optimal_aab :
    makeTree insertionSort [97, 97, 98] = .ok treeAab ∧ treeAab.weightedLength = 6 ∧
      ((otherAab.postOrder [] []).1.leaves.map (fun n => n.frequency * n.code.length)).sum = 7 ∧
      treeAab.weightedLength
        ≤ ((otherAab.postOrder [] []).1.leaves.map (fun n => n.frequency * n.code.length)).sum ∧
      ([97, 97, 98].flatMap (fun c => codeAab [c]) ++ codeAab EOF).length = 7 ∧
      ([97, 97, 98].flatMap (fun c => treeAab.codeOf [c]) ++ treeAab.codeOf EOF).length
        ≤ ([97, 97, 98].flatMap (fun c => codeAab [c]) ++ codeAab EOF).length ∧
      ∃ t, makeTree tracedSort aToP = .ok t ∧
        (aToP.flatMap (fun c => t.codeOf [c]) ++ t.codeOf EOF).length = 70 ∧
        (aToP.flatMap (fun c => fiveBits [c]) ++ fiveBits EOF).length = 85 ∧
        (aToP.flatMap (fun c => t.codeOf [c]) ++ t.codeOf EOF).length
          ≤ (aToP.flatMap (fun c => fiveBits [c]) ++ fiveBits EOF).length := by
  obtain ⟨t, r, hmk, _, _, _, htree, _, _, _, _, hcode⟩ :=
    huffman_code_optimal insertionSort [97, 97, 98]
  have h0 : makeTree insertionSort [97, 97, 98] = .ok treeAab := by decide
  rw [h0] at hmk
  cases hmk
  refine ⟨h0, by decide, by decide, htree otherAab (by decide), by decide,
    hcode codeAab ?_ ?_, ?_⟩
  · intro x hx
    simp only [treeAab, List.map_cons, List.map_nil, Node.name, List.mem_cons,
      List.mem_singleton, List.not_mem_nil, or_false] at hx
    rcases hx with h | h | h <;> subst h <;> simp [codeAab, isBits]
  · decide
  · obtain ⟨t2, _, hmk2, _, _, _, _, _, hpay, _, _, hcode2⟩ :=
      huffman_code_optimal tracedSort aToP
    have hn : t2.freqs.map Node.name = (table aToP).map Prod.fst :=
      (makeTree_entries tracedSort aToP t2 hmk2).2.1
    refine ⟨t2, hmk2, ?_, by decide, hcode2 fiveBits (fun x _ => isBits_fiveBits x) ?_⟩
    · rw [hpay]; exact weightedLength_tracedSort_aToP t2 hmk2
    · rw [hn]; decide

/-- C23: for every working list `l` of at least two nodes that is sorted ascending
by frequency with all frequencies at least 1, `a` and `b` being its first two
nodes: `insertByFreq` inserts the merged node, whose frequency is the sum of
theirs, at an index `i` of at least 2, behind nodes of smaller frequency only,
so the first two positions of the vector still hold `a` and `b` and the erase
removes exactly them; the list after the pass is one shorter, again sorted
ascending with all frequencies at least 1, and consists of the nodes of `l`
behind its first two and the merged node. -/
theorem merge_step_invariant (l : List Node) (h2 : 2 ≤ l.length)
    (hs : l.Pairwise (fun x y => x.frequency ≤ y.frequency))
    (hp : ∀ n ∈ l, 1 ≤ n.frequency) :
    ∃ a b rest i, l = a :: b :: rest ∧
      (Node.ofChildren a b).frequency = a.frequency + b.frequency ∧
      2 ≤ i ∧ i ≤ l.length ∧
      Tree.insertByFreq (Node.ofChildren a b) l = l.take i ++ Node.ofChildren a b :: l.drop i ∧
      (∀ x ∈ l.take i, x.frequency < (Node.ofChildren a b).frequency) ∧
      (∀ x ∈ l.drop i, (Node.ofChildren a b).frequency ≤ x.frequency) ∧
      (Tree.insertByFreq (Node.ofChildren a b) l).take 2 = [a, b] ∧
      Tree.mergeStep l = (Tree.insertByFreq (Node.ofChildren a b) l).drop 2 ∧
      Tree.mergeStep l = Tree.insertByFreq (Node.ofChildren a b) rest ∧
      (Tree.mergeStep l).length + 1 = l.length ∧
      (Tree.mergeStep l).Pairwise (fun x y => x.frequency ≤ y.frequency) ∧
      (∀ n ∈ Tree.mergeStep l, 1 ≤ n.frequency) ∧
      (Tree.mergeStep l).Perm (Node.ofChildren a b :: rest) ∧
      ∀ fuel, Tree.huffmanLoop (fuel + 1) l = Tree.huffmanLoop fuel (Tree.mergeStep l) := by
  match l, h2 with
  | a :: b :: rest, _ =>
    have ha : 1 ≤ a.frequency := hp a (by simp)
    have hb : 1 ≤ b.frequency := hp b (by simp)
    have hm : (Node.ofChildren a b).frequency = a.frequency + b.frequency := rfl
    have hstep := Tree.mergeStep_cons_cons a b rest ha hb
    have hperm := Tree.insertByFreq_perm (Node.ofChildren a b) rest
    have hsorted := Tree.mergeStep_sorted (a :: b :: rest) hs hp
    have heq := Tree.insertByFreq_eq (Node.ofChildren a b) (a :: b :: rest)
    have hsplit := List.takeWhile_append_dropWhile
      (fun x : Node => decide (x.frequency < (Node.ofChildren a b).frequency)) (a :: b :: rest)
    have htake : (a :: b :: rest).take ((a :: b :: rest).takeWhile
        (fun x : Node => decide (x.frequency < (Node.ofChildren a b).frequency))).length
        = (a :: b :: rest).takeWhile
            (fun x : Node => decide (x.frequency < (Node.ofChildren a b).frequency)) := by
      conv_lhs => arg 2; rw [← hsplit]
      exact List.take_left' rfl
    have hdrop : (a :: b :: rest).drop ((a :: b :: rest).takeWhile
        (fun x : Node => decide (x.frequency < (Node.ofChildren a b).frequency))).length
        = (a :: b :: rest).dropWhile
            (fun x : Node => decide (x.frequency < (Node.ofChildren a b).frequency)) := by
      conv_lhs => arg 2; rw [← hsplit]
      exact List.drop_left' rfl
    have htw : (a :: b :: rest).takeWhile
        (fun x : Node => decide (x.frequency < (Node.ofChildren a b).frequency))
        = a :: b :: rest.takeWhile
            (fun x : Node => decide (x.frequency < (Node.ofChildren a b).frequency)) := by
      have h1 : decide (a.frequency < (Node.ofChildren a b).frequency) = true := by
        rw [hm]; exact decide_eq_true (by omega)
      have h2 : decide (b.frequency < (Node.ofChildren a b).frequency) = true := by
        rw [hm]; exact decide_eq_true (by omega)
      rw [List.takeWhile_cons, h1, List.takeWhile_cons, h2]
      rfl
    refine ⟨a, b, rest, ((a :: b :: rest).takeWhile
        (fun x : Node => decide (x.frequency < (Node.ofChildren a b).frequency))).length,
      rfl, hm, ?_, ?_, ?_, ?_, ?_, ?_, rfl, hstep, ?_, hsorted.1, hsorted.2, ?_, ?_⟩
    · rw [htw]; simp
    · have := congrArg List.length hsplit
      rw [List.length_append] at this
      omega
    · rw [htake, hdrop]; exact heq
    · intro x hx
      rw [htake] at hx
      exact of_decide_eq_true (@List.mem_takeWhile_imp _
        (fun y : Node => decide (y.frequency < (Node.ofChildren a b).frequency)) _ _ hx)
    · intro x hx
      rw [hdrop] at hx
      exact Tree.le_of_mem_dropWhile (Node.ofChildren a b) (a :: b :: rest) hs x hx
    · rw [heq, htw]; rfl
    · rw [hstep, hperm.length_eq]; rfl
    · rw [hstep]; exact hperm
    · intro fuel; exact Tree.huffmanLoop_succ fuel _

/-- C23 at the working list of the input `aab` before the first pass: the leaves of
`b` and `EOF` with frequency 1, then the leaf of `a` with frequency 2. -/
theorem merge_step_invariant_aab :
    2 ≤ [Node.leaf 1 [98] [] 1, Node.leaf 2 EOF [] 1, Node.leaf 0 [97] [] 2].length ∧
      Tree.mergeStep [Node.leaf 1 [98] [] 1, Node.leaf 2 EOF [] 1, Node.leaf 0 [97] [] 2]
        = [Node.ofChildren (Node.leaf 1 [98] [] 1) (Node.leaf 2 EOF [] 1),
            Node.leaf 0 [97] [] 2] ∧
      ∃ a b rest i,
        [Node.leaf 1 [98] [] 1, Node.leaf 2 EOF [] 1, Node.leaf 0 [97] [] 2] = a :: b :: rest ∧
        (Node.ofChildren a b).frequency = a.frequency + b.frequency ∧ 2 ≤ i ∧
        Tree.mergeStep [Node.leaf 1 [98] [] 1, Node.leaf 2 EOF [] 1, Node.leaf 0 [97] [] 2]
          = Tree.insertByFreq (Node.ofChildren a b) rest :=
  ⟨by decide, by decide,
    (merge_step_invariant [Node.leaf 1 [98] [] 1, Node.leaf 2 EOF [] 1, Node.leaf 0 [97] [] 2]
      (by decide) (by decide) (by decide)).imp fun _ h1 => h1.imp fun _ h2 => h2.imp
        fun _ h3 => h3.imp fun _ h4 => ⟨h4.1, h4.2.1, h4.2.2.1, h4.2.2.2.2.2.2.2.2.2.1⟩⟩

/-- C24: for every byte value `c`, `charToByte(c)` is exactly 8 characters, each `0`
or `1`; the character at position `k` is the bit of weight `2^(7-k)` of `c`, so
the string read most significant bit first has the value `c`; `byteToChar`
gives `c` back; and for every 8-character string `s` over `0` and `1`,
`charToByte(byteToChar(s))` is `s`. -/
theorem msb_first_byte_packing (c : CChar) :
    (charToByte c).length = 8 ∧ isBits (charToByte c) ∧
      (∀ k, k < 8 →
        (charToByte c).get? k = some (if c.val / 2 ^ (7 - k) % 2 = 1 then chr1 else chr0)) ∧
      msbValue (charToByte c) = c.val ∧
      byteToChar (charToByte c) = c ∧
      ∀ s : Str, s.length = 8 → isBits s → charToByte (byteToChar s) = s := by
  refine ⟨charToByte_length c, isBits_charToByte c, ?_, ?_, byteToChar_charToByte c, ?_⟩
  · intro k hk
    rw [charToByte_eq_bits8]
    exact bits8_get c.val k hk
  · rw [charToByte_eq_bits8]
    exact msbValue_bits8 c
  · intro s hlen hb
    exact charToByte_byteToChar s hlen hb

/-- C24 at the byte `a` (97) and the string `01100001`. -/
theorem msb_first_byte_packing_a :
    charToByte 97 = [48, 49, 49, 48, 48, 48, 48, 49] ∧
      ([48, 49, 49, 48, 48, 48, 48, 49] : Str).length = 8 ∧
      isBits [48, 49, 49, 48, 48, 48, 48, 49] ∧
      charToByte (byteToChar [48, 49, 49, 48, 48, 48, 48, 49])
        = [48, 49, 49, 48, 48, 48, 48, 49] :=
  ⟨by decide, by decide, by simp [isBits],
    (msb_first_byte_packing 97).2.2.2.2.2 _ (by decide) (by simp [isBits])⟩

end Huffman
